import Mathlib

/-!
# A shallow embedding of the BSP-tree CSG engine `src/pg/solids/csg.c`

Scalars: the definitions are written over an arbitrary scalar type `K` with the
operations the C code applies to `float` (`+ - * /`, negation, `<`, numerals), in the
order the code applies them; the C library function `sqrt` is a parameter
`sqrt : K → K`.  The theorems instantiate `K` with a linearly ordered field ("exact
arithmetic": any such field, `Real.sqrt` over `ℝ`, `Rat.sqrt` over `ℚ` for evaluation),
where division by zero follows the convention `x / 0 = 0`, and with `Binary32`, the IEEE
754 binary32 arithmetic of the C type `float`.

Lists: the C `List` of polygons that a function receives by pointer is modelled by
a name `l : ι` into a store `ι → List (Polygon K)`; `list_append` updates the store
at that name.  Passing the same name for two parameters models pointer aliasing
(`node_build` passes `&node->polygons` twice, `node_clip_polygons` passes `&front`
and `&back` twice).

Nodes: `Node K` is the type of (nullable) `Node *`: `Node.null` is the null
pointer, `Node.node plane polygons front back` a pointer to an allocated node.

Recursion: `node_build` recurses on lists that a split may make longer, so it is
given a fuel argument and returns `none` when the fuel runs out.
-/

namespace CSG

/-! ## constants -/

def COPLANAR : Nat := 0
def FRONT : Nat := 1
def BACK : Nat := 2
def BOTH : Nat := 3

/-- The tolerance `#define EPS 1e-5f`. -/
def EPS (K : Type) [One K] [NatCast K] [Div K] : K := 1 / 100000

/-! ## data structures -/

structure Vector (K : Type) where
  x : K
  y : K
  z : K
deriving DecidableEq, Repr

structure Vertex (K : Type) where
  position : Vector K
  normal : Vector K
  uv : Vector K
deriving DecidableEq, Repr

structure Plane (K : Type) where
  normal : Vector K
  w : K
deriving DecidableEq, Repr

/-- A triangle: `v0 v1 v2` are `vertices[0..2]`. -/
structure Polygon (K : Type) where
  plane : Plane K
  v0 : Vertex K
  v1 : Vertex K
  v2 : Vertex K
deriving DecidableEq, Repr

/-- Indexed read `polygon->vertices[i]` for `i < 3`. -/
def Polygon.vertices {K : Type} (p : Polygon K) : Nat → Vertex K
  | 0 => p.v0
  | 1 => p.v1
  | _ => p.v2

/-- A nullable pointer to a BSP node. -/
inductive Node (K : Type) where
  | null : Node K
  | node (plane : Plane K) (polygons : List (Polygon K)) (front back : Node K) : Node K
deriving DecidableEq, Repr

/-- The test `if (ptr)` on a node pointer. -/
def Node.isNull {K : Type} : Node K → Bool
  | .null => true
  | .node _ _ _ _ => false

section Defs

variable {K : Type} [Zero K] [One K] [NatCast K] [Add K] [Sub K] [Mul K] [Div K] [Neg K] [LT K]
  [∀ a b : K, Decidable (a < b)] [DecidableEq K]

/-! ## list functions -/

/-- A store of polygon lists addressed by names of type `ι`. -/
abbrev Lists (ι : Type) (K : Type) := ι → List (Polygon K)

/-- The call `list_append(l, item)`: the list named `l` gets `item` at its end. -/
def list_append {ι : Type} [DecidableEq ι] (h : Lists ι K) (l : ι) (item : Polygon K) :
    Lists ι K :=
  Function.update h l (h l ++ [item])

/-! ## vector functions -/

def vec_neg (a : Vector K) : Vector K := ⟨-a.x, -a.y, -a.z⟩

def vec_add (a b : Vector K) : Vector K := ⟨a.x + b.x, a.y + b.y, a.z + b.z⟩

def vec_sub (a b : Vector K) : Vector K := ⟨a.x - b.x, a.y - b.y, a.z - b.z⟩

def vec_mul (a : Vector K) (b : K) : Vector K := ⟨a.x * b, a.y * b, a.z * b⟩

def vec_div (a : Vector K) (b : K) : Vector K := ⟨a.x / b, a.y / b, a.z / b⟩

def vec_dot (a b : Vector K) : K := a.x * b.x + a.y * b.y + a.z * b.z

def vec_len (sqrt : K → K) (a : Vector K) : K := sqrt (vec_dot a a)

def vec_cross (a b : Vector K) : Vector K :=
  ⟨a.y * b.z - a.z * b.y, a.z * b.x - a.x * b.z, a.x * b.y - a.y * b.x⟩

def vec_unit (sqrt : K → K) (a : Vector K) : Vector K := vec_div a (vec_len sqrt a)

def vec_lerp (a b : Vector K) (t : K) : Vector K :=
  ⟨a.x + (b.x - a.x) * t, a.y + (b.y - a.y) * t, a.z + (b.z - a.z) * t⟩

/-! ## vertex functions -/

def vertex_flip (a : Vertex K) : Vertex K := { a with normal := vec_neg a.normal }

def vertex_lerp (a b : Vertex K) (t : K) : Vertex K :=
  ⟨vec_lerp a.position b.position t, vec_lerp a.normal b.normal t, vec_lerp a.uv b.uv t⟩

/-! ## plane functions -/

def plane_from_points (sqrt : K → K) (a b c : Vector K) : Plane K :=
  let ab := vec_sub b a
  let ac := vec_sub c a
  let normal := vec_cross ab ac
  let normal := vec_unit sqrt normal
  ⟨normal, vec_dot normal a⟩

def plane_flip (a : Plane K) : Plane K := ⟨vec_neg a.normal, -a.w⟩

/-- The body of the first loop of `plane_split` for one vertex: its class. -/
def vertex_type (plane : Plane K) (vertex : Vertex K) : Nat :=
  let w := vec_dot plane.normal vertex.position - plane.w
  let t := COPLANAR
  let t := if w < -EPS K then BACK else t
  let t := if w > EPS K then FRONT else t
  t

/-- The array `vertex_types` filled by the first loop of `plane_split`. -/
def vertex_types (plane : Plane K) (polygon : Polygon K) (i : Nat) : Nat :=
  vertex_type plane (polygon.vertices i)

/-- The value of `polygon_type` after the first loop of `plane_split`. -/
def polygon_type (plane : Plane K) (polygon : Polygon K) : Nat :=
  [0, 1, 2].foldl (fun acc i => acc ||| vertex_types plane polygon i) 0

/-- One iteration of the edge loop of the spanning branch of `plane_split`, on the
pair of vertex lists `(f, b)`. -/
def split_edge (plane : Plane K) (polygon : Polygon K)
    (fb : List (Vertex K) × List (Vertex K)) (i : Nat) : List (Vertex K) × List (Vertex K) :=
  let j := (i + 1) % 3
  let v1 := polygon.vertices i
  let v2 := polygon.vertices j
  let t1 := vertex_types plane polygon i
  let t2 := vertex_types plane polygon j
  let f := if t1 ≠ BACK then fb.1 ++ [v1] else fb.1
  let b := if t1 ≠ FRONT then fb.2 ++ [v1] else fb.2
  if t1 ||| t2 = BOTH then
    let d := vec_sub v2.position v1.position
    let ta := plane.w - vec_dot plane.normal v1.position
    let tb := vec_dot plane.normal d
    let v := vertex_lerp v1 v2 (ta / tb)
    (f ++ [v], b ++ [v])
  else
    (f, b)

/-- The vertex lists `(f, b)` after the edge loop of the spanning branch. -/
def split_edges (plane : Plane K) (polygon : Polygon K) :
    List (Vertex K) × List (Vertex K) :=
  [0, 1, 2].foldl (split_edge plane polygon) ([], [])

/-- The triangle built in iteration `i` of a fan loop over the vertex list `f`. -/
def fan_polygon (sqrt : K → K) (f : List (Vertex K)) (i : Nat) : Polygon K :=
  let z : Vertex K := ⟨⟨0, 0, 0⟩, ⟨0, 0, 0⟩, ⟨0, 0, 0⟩⟩
  let p0 := f.getD 0 z
  let p1 := f.getD (i - 1) z
  let p2 := f.getD i z
  ⟨plane_from_points sqrt p0.position p1.position p2.position, p0, p1, p2⟩

/-- The fan loop `if (f.count >= 3) for (i = 2; i < f.count; i++) … list_append(dst, &p)`. -/
def fan {ι : Type} [DecidableEq ι] (sqrt : K → K) (f : List (Vertex K)) (dst : ι)
    (h : Lists ι K) : Lists ι K :=
  if f.length ≥ 3 then
    (List.range' 2 (f.length - 2)).foldl (fun h i => list_append h dst (fan_polygon sqrt f i)) h
  else h

/-- The function `plane_split(plane, polygon, co_front, co_back, front, back)` acting on
the store that holds the four (possibly aliased) lists. -/
def plane_split {ι : Type} [DecidableEq ι] (sqrt : K → K) (plane : Plane K)
    (polygon : Polygon K) (co_front co_back front back : ι) (h : Lists ι K) : Lists ι K :=
  if polygon_type plane polygon = COPLANAR then
    if vec_dot plane.normal polygon.plane.normal > 0 then
      list_append h co_front polygon
    else
      list_append h co_back polygon
  else if polygon_type plane polygon = FRONT then
    list_append h front polygon
  else if polygon_type plane polygon = BACK then
    list_append h back polygon
  else
    let fb := split_edges plane polygon
    let h := fan sqrt fb.1 front h
    let h := fan sqrt fb.2 back h
    h

/-! ## polygon functions -/

def polygon_flip (a : Polygon K) : Polygon K :=
  ⟨plane_flip a.plane, vertex_flip a.v2, vertex_flip a.v1, vertex_flip a.v0⟩

/-! ## node functions -/

/-- The result of `malloc(sizeof(Node))` followed by `node_alloc`: an empty polygon
list, no children, and a plane field holding whatever the allocation left there,
here the parameter `u`. -/
def node_alloc (u : Plane K) : Node K := .node u [] .null .null

/-- The function `node_polygons(node, list)`: returns `list` after the appends. -/
def node_polygons : Node K → List (Polygon K) → List (Polygon K)
  | .null, list => list
  | .node _ polygons front back, list =>
    node_polygons back (node_polygons front (list ++ polygons))

/-- Names of the three lists that `node_build` hands to `plane_split`. -/
inductive BuildList where
  | polygons | front | back
deriving DecidableEq

/-- The function `node_build(node, polygons)` with fuel; `own` is `node->polygons`, and `u`
is the content of the plane field of a freshly allocated child.  Dereferencing a null
`node` gives `none`. -/
def node_build (sqrt : K → K) (u : Plane K) :
    Nat → Node K → List (Polygon K) → Option (Node K)
  | 0, _, _ => none
  | _ + 1, .null, _ => none
  | fuel + 1, .node plane own front back, polygons =>
    if polygons.length = 0 then
      some (.node plane own front back)
    else
      let plane := if own.length = 0 then
          match polygons with
          | p :: _ => p.plane
          | [] => plane
        else plane
      let st : Lists BuildList K := polygons.foldl
        (fun st polygon =>
          plane_split sqrt plane polygon
            BuildList.polygons BuildList.polygons BuildList.front BuildList.back st)
        (fun l => match l with
          | .polygons => own
          | .front => []
          | .back => [])
      let front? : Option (Node K) :=
        if (st .front).length ≠ 0 then
          node_build sqrt u fuel (if front.isNull then node_alloc u else front) (st .front)
        else some front
      let back? : Option (Node K) :=
        if (st .back).length ≠ 0 then
          node_build sqrt u fuel (if back.isNull then node_alloc u else back) (st .back)
        else some back
      match front?, back? with
      | some front, some back => some (.node plane (st .polygons) front back)
      | _, _ => none

/-- The function `node_build_from(node, other)`. -/
def node_build_from (sqrt : K → K) (u : Plane K) (fuel : Nat) (node other : Node K) :
    Option (Node K) :=
  node_build sqrt u fuel node (node_polygons other [])

/-- The function `node_from_polygons(node, polygons)` on freshly allocated memory. -/
def node_from_polygons (sqrt : K → K) (u : Plane K) (fuel : Nat)
    (polygons : List (Polygon K)) : Option (Node K) :=
  node_build sqrt u fuel (node_alloc u) polygons

/-- The function `node_invert(node)`. -/
def node_invert : Node K → Node K
  | .null => .null
  | .node plane polygons front back =>
    .node (plane_flip plane) (polygons.map polygon_flip) (node_invert back) (node_invert front)

/-- Names of the two lists that `node_clip_polygons` hands to `plane_split`. -/
inductive ClipList where
  | front | back
deriving DecidableEq

/-- The function `node_clip_polygons(node, polygons, out)`: returns `out` after the
appends. -/
def node_clip_polygons (sqrt : K → K) :
    Node K → List (Polygon K) → List (Polygon K) → List (Polygon K)
  | .null, _, out => out
  | .node plane _ front back, polygons, out =>
    let st : Lists ClipList K := polygons.foldl
      (fun st polygon =>
        plane_split sqrt plane polygon
          ClipList.front ClipList.back ClipList.front ClipList.back st)
      (fun _ => [])
    let front_list :=
      if front.isNull then st .front else node_clip_polygons sqrt front (st .front) []
    let back_list :=
      if back.isNull then [] else node_clip_polygons sqrt back (st .back) []
    out ++ front_list ++ back_list

/-- The function `node_clip_to(node, other)`. -/
def node_clip_to (sqrt : K → K) : Node K → Node K → Node K
  | .null, _ => .null
  | .node plane polygons front back, other =>
    .node plane (node_clip_polygons sqrt other polygons [])
      (node_clip_to sqrt front other) (node_clip_to sqrt back other)

/-! ## csg functions

`ua` and `ub` are the indeterminate plane fields of the two allocated roots. -/

def csg_union (sqrt : K → K) (fuel : Nat) (ua ub : Plane K) (m1 m2 : List (Polygon K)) :
    Option (List (Polygon K)) := do
  let a ← node_from_polygons sqrt ua fuel m1
  let b ← node_from_polygons sqrt ub fuel m2
  let a := node_clip_to sqrt a b
  let b := node_clip_to sqrt b a
  let b := node_invert b
  let b := node_clip_to sqrt b a
  let b := node_invert b
  let a ← node_build_from sqrt ua fuel a b
  pure (node_polygons a [])

def csg_difference (sqrt : K → K) (fuel : Nat) (ua ub : Plane K)
    (m1 m2 : List (Polygon K)) : Option (List (Polygon K)) := do
  let a ← node_from_polygons sqrt ua fuel m1
  let b ← node_from_polygons sqrt ub fuel m2
  let a := node_invert a
  let a := node_clip_to sqrt a b
  let b := node_clip_to sqrt b a
  let b := node_invert b
  let b := node_clip_to sqrt b a
  let b := node_invert b
  let a ← node_build_from sqrt ua fuel a b
  let a := node_invert a
  pure (node_polygons a [])

def csg_intersection (sqrt : K → K) (fuel : Nat) (ua ub : Plane K)
    (m1 m2 : List (Polygon K)) : Option (List (Polygon K)) := do
  let a ← node_from_polygons sqrt ua fuel m1
  let b ← node_from_polygons sqrt ub fuel m2
  let a := node_invert a
  let b := node_clip_to sqrt b a
  let b := node_invert b
  let a := node_clip_to sqrt a b
  let b := node_clip_to sqrt b a
  let a ← node_build_from sqrt ua fuel a b
  let a := node_invert a
  pure (node_polygons a [])

def csg_inverse (sqrt : K → K) (fuel : Nat) (ua : Plane K) (m1 : List (Polygon K)) :
    Option (List (Polygon K)) := do
  let a ← node_from_polygons sqrt ua fuel m1
  let a := node_invert a
  pure (node_polygons a [])

/-! ## interface -/

/-- The eight reads `*(d++)` for one vertex in `triangles`: the pointer `d` is the
unread rest of the buffer; returns the vertex and the advanced pointer.  Reading past
the end of the buffer yields `0`. -/
def triangles_vertex (d : List K) : Vertex K × List K :=
  let x := d.headD 0
  let d := d.tail
  let y := d.headD 0
  let d := d.tail
  let z := d.headD 0
  let d := d.tail
  let nx := d.headD 0
  let d := d.tail
  let ny := d.headD 0
  let d := d.tail
  let nz := d.headD 0
  let d := d.tail
  let u := d.headD 0
  let d := d.tail
  let v := d.headD 0
  let d := d.tail
  (⟨⟨x, y, z⟩, ⟨nx, ny, nz⟩, ⟨u, v, 0⟩⟩, d)

/-- The outer loop of `triangles` with `n` iterations left, read pointer `d` and output
list `out`. -/
def triangles_loop (sqrt : K → K) : Nat → List K → List (Polygon K) → List (Polygon K)
  | 0, _, out => out
  | n + 1, d, out =>
    let r0 := triangles_vertex d
    let r1 := triangles_vertex r0.2
    let r2 := triangles_vertex r1.2
    let polygon : Polygon K :=
      ⟨plane_from_points sqrt r0.1.position r1.1.position r2.1.position, r0.1, r1.1, r2.1⟩
    triangles_loop sqrt n r2.2 (out ++ [polygon])

/-- The function `triangles(out, data, count)`: returns `out` after the appends. -/
def triangles (sqrt : K → K) (out : List (Polygon K)) (data : List K) (count : Int) :
    List (Polygon K) :=
  triangles_loop sqrt count.toNat data out

/-- The eight stores `*(d++) = …` for one vertex in `triangulate`. -/
def triangulate_vertex (vertex : Vertex K) : List K :=
  [vertex.position.x, vertex.position.y, vertex.position.z,
   vertex.normal.x, vertex.normal.y, vertex.normal.z, vertex.uv.x, vertex.uv.y]

/-- The function `triangulate(polygons, data)`: the floats stored through `d`, in order,
that is the content of `data[0 .. 24 * polygons->count)` afterwards. -/
def triangulate (polygons : List (Polygon K)) : List K :=
  polygons.flatMap fun polygon =>
    triangulate_vertex polygon.v0 ++ triangulate_vertex polygon.v1 ++
      triangulate_vertex polygon.v2

/-! ## predicates and data shared by all scalar types -/

/-- Signed distance of a point from a plane, `dot(P.n, v) − P.w`. -/
def signed_dist (plane : Plane K) (p : Vector K) : K := vec_dot plane.normal p - plane.w

/-- The cached plane of a polygon is the plane of its own three positions. -/
def consistent (sqrt : K → K) (p : Polygon K) : Prop :=
  p.plane = plane_from_points sqrt p.v0.position p.v1.position p.v2.position

/-- Spec 4.3: a polygon spans a plane when it has a vertex with `d > ε` and one with
`d < −ε`. -/
def spanning (P : Plane K) (Q : Polygon K) : Prop :=
  (EPS K < signed_dist P Q.v0.position ∨ EPS K < signed_dist P Q.v1.position ∨
    EPS K < signed_dist P Q.v2.position) ∧
  (signed_dist P Q.v0.position < -EPS K ∨ signed_dist P Q.v1.position < -EPS K ∨
    signed_dist P Q.v2.position < -EPS K)

instance (sqrt : K → K) (p : Polygon K) : Decidable (consistent sqrt p) := by
  unfold consistent; infer_instance

instance (P : Plane K) (Q : Polygon K) : Decidable (spanning P Q) := by
  unfold spanning; infer_instance

/-- A vertex at `(x, y, z)` with zero normal and zero uv. -/
def vtx (x y z : K) : Vertex K :=
  ⟨⟨x, y, z⟩, ⟨0, 0, 0⟩, ⟨0, 0, 0⟩⟩

/-- The triangle on three vertices with the plane `triangles` caches for it. -/
def tri (sqrt : K → K) (a b c : Vertex K) : Polygon K :=
  ⟨plane_from_points sqrt a.position b.position c.position, a, b, c⟩

end Defs

section Derived

variable {K : Type} [LinearOrderedField K]

/-! ## derived definitions

Pure views of the effects above, used to state and prove the theorems, and the
definitions that follow the words of the specification (prefixed `spec_`). -/

/-- The effect of `list_extend(dst, src)` on a store: the list named `l` gets `xs` at its
end. -/
def list_extend {ι : Type} [DecidableEq ι] (h : Lists ι K) (l : ι) (xs : List (Polygon K)) :
    Lists ι K :=
  Function.update h l (h l ++ xs)

/-- The triangles a fan loop appends for the vertex list `f`, in order. -/
def fan_polygons (sqrt : K → K) (f : List (Vertex K)) : List (Polygon K) :=
  if f.length ≥ 3 then (List.range' 2 (f.length - 2)).map (fan_polygon sqrt f) else []

/-- The polygons one call of `plane_split` appends through `co_front`. -/
def split_co_front (plane : Plane K) (polygon : Polygon K) : List (Polygon K) :=
  if polygon_type plane polygon = COPLANAR ∧ vec_dot plane.normal polygon.plane.normal > 0
  then [polygon] else []

/-- The polygons one call of `plane_split` appends through `co_back`. -/
def split_co_back (plane : Plane K) (polygon : Polygon K) : List (Polygon K) :=
  if polygon_type plane polygon = COPLANAR ∧ ¬ vec_dot plane.normal polygon.plane.normal > 0
  then [polygon] else []

/-- The polygons one call of `plane_split` appends through `front`. -/
def split_front (sqrt : K → K) (plane : Plane K) (polygon : Polygon K) : List (Polygon K) :=
  if polygon_type plane polygon = COPLANAR then []
  else if polygon_type plane polygon = FRONT then [polygon]
  else if polygon_type plane polygon = BACK then []
  else fan_polygons sqrt (split_edges plane polygon).1

/-- The polygons one call of `plane_split` appends through `back`. -/
def split_back (sqrt : K → K) (plane : Plane K) (polygon : Polygon K) : List (Polygon K) :=
  if polygon_type plane polygon = COPLANAR then []
  else if polygon_type plane polygon = FRONT then []
  else if polygon_type plane polygon = BACK then [polygon]
  else fan_polygons sqrt (split_edges plane polygon).2

/-- What `node_clip_polygons` routes to its `front` list for one polygon. -/
def clip_front (sqrt : K → K) (plane : Plane K) (polygon : Polygon K) : List (Polygon K) :=
  split_co_front plane polygon ++ split_front sqrt plane polygon

/-- What `node_clip_polygons` routes to its `back` list for one polygon. -/
def clip_back (sqrt : K → K) (plane : Plane K) (polygon : Polygon K) : List (Polygon K) :=
  split_co_back plane polygon ++ split_back sqrt plane polygon

/-- What `node_build` routes to the node's own list for one polygon. -/
def build_own (plane : Plane K) (polygon : Polygon K) : List (Polygon K) :=
  split_co_front plane polygon ++ split_co_back plane polygon

/-- The plane `node_build` splits against: adopted from `polygons[0]` when the node's own
list is empty. -/
def build_plane (plane : Plane K) (own polygons : List (Polygon K)) : Plane K :=
  if own.length = 0 then
    match polygons with
    | p :: _ => p.plane
    | [] => plane
  else plane

/-- The child `node_build` recurses into: allocated when the pointer is null. -/
def build_child (u : Plane K) (child : Node K) : Node K :=
  if child.isNull then node_alloc u else child

/-- Spec 4.3 step 1: FRONT if `d > ε`, BACK if `d < −ε`, else COPLANAR. -/
def spec_vertex_class (P : Plane K) (v : Vertex K) : Nat :=
  if signed_dist P v.position > EPS K then FRONT
  else if signed_dist P v.position < -EPS K then BACK
  else COPLANAR

/-- Spec 4.3 step 2: the OR of the three vertex classes. -/
def spec_polygon_class (P : Plane K) (Q : Polygon K) : Nat :=
  spec_vertex_class P Q.v0 ||| spec_vertex_class P Q.v1 ||| spec_vertex_class P Q.v2

/-- Spec 4.5, clip_polygons at a leaf: polygons classified FRONT or coplanar-front are
kept, a spanning polygon contributes its front fragments, everything else is dropped. -/
def spec_front_partition (sqrt : K → K) (P : Plane K) (ps : List (Polygon K)) :
    List (Polygon K) :=
  ps.flatMap fun Q =>
    if spec_polygon_class P Q = COPLANAR then
      if vec_dot P.normal Q.plane.normal > 0 then [Q] else []
    else if spec_polygon_class P Q = FRONT then [Q]
    else if spec_polygon_class P Q = BACK then []
    else fan_polygons sqrt (split_edges P Q).1

/-- Every polygon stored in the tree satisfies `φ`. -/
def AllTree (φ : Polygon K → Prop) : Node K → Prop
  | .null => True
  | .node _ own F B => (∀ p ∈ own, φ p) ∧ AllTree φ F ∧ AllTree φ B

/-- A property of polygons that every fragment produced by `plane_split` inherits. -/
def SplitClosed (sqrt : K → K) (φ : Polygon K → Prop) : Prop :=
  ∀ (P : Plane K) (Q : Polygon K), φ Q →
    (∀ q ∈ split_front sqrt P Q, φ q) ∧ (∀ q ∈ split_back sqrt P Q, φ q)

/-- The recursive call of `node_build` on one child: skipped when the list is empty. -/
def build_sub (sqrt : K → K) (u : Plane K) (fuel : Nat) (child : Node K)
    (l : List (Polygon K)) : Option (Node K) :=
  if l.length ≠ 0 then node_build sqrt u fuel (build_child u child) l else some child

/-- The point `a + s (b − a) + t (c − a)`. -/
def affine (a b c : Vector K) (s t : K) : Vector K :=
  ⟨a.x + s * (b.x - a.x) + t * (c.x - a.x), a.y + s * (b.y - a.y) + t * (c.y - a.y),
    a.z + s * (b.z - a.z) + t * (c.z - a.z)⟩

/-- The interpolation parameter `ta / tb` computed for the edge from `v1` to `v2`. -/
def edge_param (plane : Plane K) (v1 v2 : Vertex K) : K :=
  (plane.w - vec_dot plane.normal v1.position) /
    vec_dot plane.normal (vec_sub v2.position v1.position)

/-- The number of distinct cached planes in a polygon list. -/
def nplanes (ps : List (Polygon K)) : Nat := ((ps.map fun p => p.plane).toFinset).card

/-- Nesting depth of a tree, counting a node without polygons and without children
(the state after `node_alloc`) as depth 0. -/
def depth : Node K → Nat
  | .null => 0
  | .node _ own F B =>
    if own.length = 0 ∧ F.isNull ∧ B.isNull then 0 else 1 + max (depth F) (depth B)

/-- Spec 8.7 for one polygon: the cached plane is the plane of the polygon's own
vertices (normal by the right-hand rule on `v0, v1, v2`) and every vertex lies within
`10 ε` of it. -/
def plane_agrees (sqrt : K → K) (p : Polygon K) : Prop :=
  consistent sqrt p ∧
  |signed_dist p.plane p.v0.position| ≤ 10 * EPS K ∧
  |signed_dist p.plane p.v1.position| ≤ 10 * EPS K ∧
  |signed_dist p.plane p.v2.position| ≤ 10 * EPS K

/-! ## concrete data -/

/-- Names of four pairwise distinct lists for a call of `plane_split`. -/
inductive SplitList where
  | co_front | co_back | front | back
deriving DecidableEq

/-- The plane `z = 0` facing `+z`. -/
def plane_z0 : Plane ℚ := ⟨⟨0, 0, 1⟩, 0⟩

/-- A triangle lying in `z = h`, facing `+z`. -/
def tri_at (h : ℚ) : Polygon ℚ :=
  ⟨⟨⟨0, 0, 1⟩, h⟩, vtx 0 0 h, vtx 1 0 h, vtx 0 1 h⟩

/-- A buffer holding one triangle in the flat layout of `triangles`. -/
def buffer24 : List ℚ :=
  [0, 0, 0, 0, 0, 1, 0, 0,
   1, 0, 0, 0, 0, 1, 1, 0,
   0, 1, 0, 0, 0, 1, 0, 1]

/-- The unit cube `[0,1]^3` as 12 triangles, two per face, outward winding, zero vertex
normals and uvs, planes cached as `triangles` computes them. -/
def unit_cube : List (Polygon ℚ) :=
  [ tri Rat.sqrt (vtx 0 0 0) (vtx 0 1 0) (vtx 1 1 0),
    tri Rat.sqrt (vtx 0 0 0) (vtx 1 1 0) (vtx 1 0 0),
    tri Rat.sqrt (vtx 0 0 1) (vtx 1 0 1) (vtx 1 1 1),
    tri Rat.sqrt (vtx 0 0 1) (vtx 1 1 1) (vtx 0 1 1),
    tri Rat.sqrt (vtx 0 0 0) (vtx 1 0 0) (vtx 1 0 1),
    tri Rat.sqrt (vtx 0 0 0) (vtx 1 0 1) (vtx 0 0 1),
    tri Rat.sqrt (vtx 0 1 0) (vtx 0 1 1) (vtx 1 1 1),
    tri Rat.sqrt (vtx 0 1 0) (vtx 1 1 1) (vtx 1 1 0),
    tri Rat.sqrt (vtx 0 0 0) (vtx 0 0 1) (vtx 0 1 1),
    tri Rat.sqrt (vtx 0 0 0) (vtx 0 1 1) (vtx 0 1 0),
    tri Rat.sqrt (vtx 1 0 0) (vtx 1 1 0) (vtx 1 1 1),
    tri Rat.sqrt (vtx 1 0 0) (vtx 1 1 1) (vtx 1 0 1) ]

/-- Exchange of the classes FRONT and BACK. -/
def swap_type (t : Nat) : Nat := if t = FRONT then BACK else if t = BACK then FRONT else t

/-- The number of vertices of `Q` that the first loop of `plane_split` gives class `t`. -/
def count_type (P : Plane K) (Q : Polygon K) (t : Nat) : Nat :=
  (if vertex_type P Q.v0 = t then 1 else 0) + (if vertex_type P Q.v1 = t then 1 else 0) +
    (if vertex_type P Q.v2 = t then 1 else 0)

/-- A triangle spanning the plane `z = 0`: one vertex above, two below. -/
def tri_span : Polygon ℚ := tri Rat.sqrt (vtx 0 0 1) (vtx 1 0 (-1)) (vtx 0 1 (-1))

/-- All three vertex positions of a polygon satisfy `ψ`. -/
def all_vertices (ψ : Vector K → Prop) (p : Polygon K) : Prop :=
  ψ p.v0.position ∧ ψ p.v1.position ∧ ψ p.v2.position

/-- A property of points that is inherited by the points strictly inside a segment. -/
def SegmentClosed (ψ : Vector K → Prop) : Prop :=
  ∀ (a b : Vector K) (t : K), ψ a → ψ b → 0 < t → t < 1 → ψ (vec_lerp a b t)

/-- A vertex that the edge loop of `plane_split` can put into `f` or `b`: a vertex of the
polygon, or the intersection vertex of an edge whose endpoints are FRONT and BACK. -/
def split_vertex (P : Plane K) (Q : Polygon K) (v : Vertex K) : Prop :=
  v = Q.v0 ∨ v = Q.v1 ∨ v = Q.v2 ∨
  ∃ a b, (a = Q.v0 ∨ a = Q.v1 ∨ a = Q.v2) ∧ (b = Q.v0 ∨ b = Q.v1 ∨ b = Q.v2) ∧
    ((vertex_type P a = 1 ∧ vertex_type P b = 2) ∨ (vertex_type P a = 2 ∧ vertex_type P b = 1)) ∧
    v = vertex_lerp a b (edge_param P a b)

/-- The point is within `ε` of the plane: `−ε ≤ d ≤ ε`. -/
def within_plane (P : Plane K) (x : Vector K) : Prop :=
  -EPS K ≤ signed_dist P x ∧ signed_dist P x ≤ EPS K

/-- The point is not behind the plane: not `d < −ε`. -/
def not_behind (P : Plane K) (x : Vector K) : Prop := -EPS K ≤ signed_dist P x

/-- The point is not in front of the plane: not `d > ε`. -/
def not_in_front (P : Plane K) (x : Vector K) : Prop := signed_dist P x ≤ EPS K

/-- The two node invariants of the specification, at every node: the node's own polygons
have all vertices within `ε` of the node's plane, every polygon of the front subtree has no
vertex with `d < −ε` and every polygon of the back subtree no vertex with `d > ε`. -/
def bsp_inv : Node K → Prop
  | .null => True
  | .node P own F B =>
    (∀ p ∈ own, all_vertices (within_plane P) p) ∧
    AllTree (all_vertices (not_behind P)) F ∧
    AllTree (all_vertices (not_in_front P)) B ∧ bsp_inv F ∧ bsp_inv B

/-- No node has an empty polygon list together with a child. -/
def no_hollow : Node K → Prop
  | .null => True
  | .node _ own F B => (own = [] → F.isNull = true ∧ B.isNull = true) ∧ no_hollow F ∧ no_hollow B

/-- The tree with every polygon list erased: its shape and its planes. -/
def skeleton : Node K → Node K
  | .null => .null
  | .node P _ F B => .node P [] (skeleton F) (skeleton B)

instance (P : Plane K) (x : Vector K) : Decidable (within_plane P x) := by
  unfold within_plane; infer_instance

instance (P : Plane K) (x : Vector K) : Decidable (not_behind P x) := by
  unfold not_behind; infer_instance

instance (P : Plane K) (x : Vector K) : Decidable (not_in_front P x) := by
  unfold not_in_front; infer_instance

instance (ψ : Vector K → Prop) [DecidablePred ψ] (p : Polygon K) :
    Decidable (all_vertices ψ p) := by
  unfold all_vertices; infer_instance

/-- Decision procedure for `AllTree`. -/
def decAllTree (φ : Polygon K → Prop) [DecidablePred φ] : (t : Node K) → Decidable (AllTree φ t)
  | .null => isTrue trivial
  | .node _ own F B =>
    have _ := decAllTree φ F
    have _ := decAllTree φ B
    inferInstanceAs (Decidable ((∀ p ∈ own, φ p) ∧ AllTree φ F ∧ AllTree φ B))

instance (φ : Polygon K → Prop) [DecidablePred φ] (t : Node K) : Decidable (AllTree φ t) :=
  decAllTree φ t

/-- Decision procedure for `bsp_inv`. -/
def decBspInv : (t : Node K) → Decidable (bsp_inv t)
  | .null => isTrue trivial
  | .node P own F B =>
    have _ := decBspInv F
    have _ := decBspInv B
    inferInstanceAs (Decidable ((∀ p ∈ own, all_vertices (within_plane P) p) ∧
      AllTree (all_vertices (not_behind P)) F ∧
      AllTree (all_vertices (not_in_front P)) B ∧ bsp_inv F ∧ bsp_inv B))

instance (t : Node K) : Decidable (bsp_inv t) := decBspInv t

/-- The tree `a` of `csg_union [tri_at 0, tri_at 1] [tri_at 2, tri_at (1/2)]` after its
first `node_clip_to`: the root's own triangle is clipped away, its front child remains. -/
def hollow_tree : Node ℚ :=
  .node plane_z0 [] (.node ⟨⟨0, 0, 1⟩, 1⟩ [tri_at 1] .null .null) .null

/-- Some polygon of the batch, or a fragment of one further down, spans the plane that
`node_build` splits it against (same recursion and fuel as `node_build`). -/
def build_spans (sqrt : K → K) (u : Plane K) : Nat → Node K → List (Polygon K) → Prop
  | 0, _, _ => False
  | _ + 1, .null, _ => False
  | fuel + 1, .node P own F B, ps =>
    (∃ p ∈ ps, polygon_type (build_plane P own ps) p = 3) ∨
    build_spans sqrt u fuel (build_child u F)
      (ps.flatMap (split_front sqrt (build_plane P own ps))) ∨
    build_spans sqrt u fuel (build_child u B)
      (ps.flatMap (split_back sqrt (build_plane P own ps)))

/-- The unnormalised normal `(b − a) × (c − a)` of the triangle `a b c`, as
`plane_from_points` computes it. -/
def tri_cross (a b c : Vector K) : Vector K := vec_cross (vec_sub b a) (vec_sub c a)

/-- The triangle is non-degenerate: its three positions are not collinear. -/
def nondegenerate (Q : Polygon K) : Prop :=
  tri_cross Q.v0.position Q.v1.position Q.v2.position ≠ ⟨0, 0, 0⟩

/-- The triangle `p0 p1 p2` winds the same way as `a b c`: its unnormalised normal is a
positive multiple of the other. -/
def winding_pos (a b c p0 p1 p2 : Vector K) : Prop :=
  ∃ l : K, 0 < l ∧
    tri_cross p0 p1 p2 = ⟨l * (tri_cross a b c).x, l * (tri_cross a b c).y, l * (tri_cross a b c).z⟩

/-- The polygon `q` has the same winding orientation as `Q`. -/
def same_winding (Q q : Polygon K) : Prop :=
  winding_pos Q.v0.position Q.v1.position Q.v2.position
    q.v0.position q.v1.position q.v2.position

/-! ## binary32 arithmetic

The C type `float` as IEEE 754 binary32 with round-to-nearest-even, one rounding per
operation (the evaluation of `float` expressions with `FLT_EVAL_METHOD == 0`, no fused
multiply-add).  A value is held as the rational number it denotes.  Only finite values are
modelled: there is no infinity and no NaN, a result beyond the largest finite value is not
clamped, and `x / 0` is `0`; none of these cases is met on the data evaluated below. -/

/-- Binary logarithm by halving, with fuel. -/
def lg_loop : Nat → Nat → Nat
  | 0, _ => 0
  | f + 1, n => if n < 2 then 0 else lg_loop f (n / 2) + 1

/-- Binary logarithm `⌊log₂ n⌋` (equal to `Nat.log2`, in a form the kernel evaluates). -/
def lg (n : Nat) : Nat := lg_loop n n

/-- Digit-by-digit integer square root: `isqrt_loop n k r` decides the bits `k-1 .. 0`. -/
def isqrt_loop (n : Nat) : Nat → Nat → Nat
  | 0, r => r
  | k + 1, r => isqrt_loop n k (if (r + 2 ^ k) * (r + 2 ^ k) ≤ n then r + 2 ^ k else r)

/-- Integer square root (equal to `Nat.sqrt`, in a form the kernel evaluates). -/
def isqrt (n : Nat) : Nat := isqrt_loop n (lg n / 2 + 1) 0

/-- Whether `n / d ≥ 2 ^ k`. -/
def ge_pow2 (n d : Nat) (k : Int) : Bool :=
  if k < 0 then decide (d ≤ n * 2 ^ (-k).toNat) else decide (d * 2 ^ k.toNat ≤ n)

/-- Rounding of a rational to the nearest binary32 value, ties to even: 24 significant bits,
and never a unit in the last place below `2 ^ (-149)` (subnormal range). -/
def round32 (q : ℚ) : ℚ :=
  if q = 0 then 0
  else
    let n := q.num.natAbs
    let d := q.den
    let k : Int := (lg n : Int) - (lg d : Int)
    let e : Int := if ge_pow2 n d k then k else k - 1
    let qe : Int := max (e - 23) (-149)
    let sn := if qe < 0 then n * 2 ^ (-qe).toNat else n
    let sd := if qe < 0 then d else d * 2 ^ qe.toNat
    let m := sn / sd
    let r := sn % sd
    let m :=
      if 2 * r < sd then m else if sd < 2 * r then m + 1 else if m % 2 = 0 then m else m + 1
    let a : ℚ := if qe < 0 then mkRat m (2 ^ (-qe).toNat) else mkRat (m * 2 ^ qe.toNat) 1
    if q < 0 then -a else a

/-- A finite binary32 value. -/
structure Binary32 where
  val : ℚ
deriving DecidableEq

instance : Zero Binary32 := ⟨⟨0⟩⟩

instance : One Binary32 := ⟨⟨1⟩⟩

instance : NatCast Binary32 := ⟨fun n => ⟨round32 n⟩⟩

instance : Add Binary32 := ⟨fun a b => ⟨round32 (a.val + b.val)⟩⟩

instance : Sub Binary32 := ⟨fun a b => ⟨round32 (a.val - b.val)⟩⟩

instance : Mul Binary32 := ⟨fun a b => ⟨round32 (a.val * b.val)⟩⟩

instance : Div Binary32 := ⟨fun a b => ⟨round32 (a.val / b.val)⟩⟩

instance : Neg Binary32 := ⟨fun a => ⟨-a.val⟩⟩

instance : LT Binary32 := ⟨fun a b => a.val < b.val⟩

instance (a b : Binary32) : Decidable (a < b) := inferInstanceAs (Decidable (a.val < b.val))

/-- The call `sqrt(x)` of `vec_len`: the `float` argument is converted to `double`, the
`double` square root is taken and the result is converted back to `float` by the return.
For binary32 arguments that is the correctly rounded binary32 square root.  The root is
computed to 100 fractional bits with a sticky half bit and then rounded once. -/
def sqrt32 (a : Binary32) : Binary32 :=
  if a.val ≤ 0 then ⟨0⟩
  else
    let n := a.val.num.natAbs
    let d := a.val.den
    let s := isqrt (n * 4 ^ 100 / d)
    if s * s * d = n * 4 ^ 100 then ⟨round32 (mkRat s (2 ^ 100))⟩
    else ⟨round32 (mkRat (2 * s + 1) (2 ^ 101))⟩

/-- The four outward faces of the tetrahedron with corners `(100,100,100)`,
`(110,100,100)`, `(100,110,100)`, `(100,100,110)`, planes cached as `triangles` computes
them in binary32. -/
def tetra32 : List (Polygon Binary32) :=
  [ tri sqrt32 (vtx 110 100 100) (vtx 100 110 100) (vtx 100 100 110),
    tri sqrt32 (vtx 100 100 100) (vtx 100 110 100) (vtx 110 100 100),
    tri sqrt32 (vtx 100 100 100) (vtx 110 100 100) (vtx 100 100 110),
    tri sqrt32 (vtx 100 100 100) (vtx 100 100 110) (vtx 100 110 100) ]

end Derived

/-! ## theorems -/

section Theorems

set_option linter.unusedSectionVars false

variable {K : Type} [LinearOrderedField K]

theorem EPS_pos : (0 : K) < EPS K := by unfold EPS; positivity

theorem vertex_type_cases (P : Plane K) (v : Vertex K) :
    vertex_type P v = 0 ∨ vertex_type P v = 1 ∨ vertex_type P v = 2 := by
  unfold vertex_type COPLANAR FRONT BACK
  dsimp only
  split_ifs <;> simp

theorem vertex_type_coplanar {P : Plane K} {v : Vertex K}
    (h1 : -EPS K ≤ signed_dist P v.position) (h2 : signed_dist P v.position ≤ EPS K) :
    vertex_type P v = 0 := by
  unfold vertex_type COPLANAR FRONT BACK
  unfold signed_dist at h1 h2
  dsimp only
  rw [if_neg (not_lt.mpr h2), if_neg (not_lt.mpr h1)]

theorem vertex_type_front {P : Plane K} {v : Vertex K}
    (h : EPS K < signed_dist P v.position) : vertex_type P v = 1 := by
  unfold vertex_type COPLANAR FRONT BACK
  unfold signed_dist at h
  dsimp only
  rw [if_pos h]

theorem vertex_type_back {P : Plane K} {v : Vertex K}
    (h : signed_dist P v.position < -EPS K) : vertex_type P v = 2 := by
  have h0 := @EPS_pos K _
  unfold vertex_type COPLANAR FRONT BACK
  unfold signed_dist at h
  dsimp only
  rw [if_pos h, if_neg (by linarith)]

theorem polygon_type_eq (P : Plane K) (Q : Polygon K) :
    polygon_type P Q = vertex_type P Q.v0 ||| vertex_type P Q.v1 ||| vertex_type P Q.v2 := by
  simp [polygon_type, vertex_types, Polygon.vertices]

@[simp] theorem list_extend_nil {ι : Type} [DecidableEq ι] (h : Lists ι K) (l : ι) :
    list_extend h l [] = h := by
  simp [list_extend]

theorem list_append_eq_extend {ι : Type} [DecidableEq ι] (h : Lists ι K) (l : ι)
    (p : Polygon K) : list_append h l p = list_extend h l [p] := rfl

theorem list_extend_extend {ι : Type} [DecidableEq ι] (h : Lists ι K) (l : ι)
    (xs ys : List (Polygon K)) :
    list_extend (list_extend h l xs) l ys = list_extend h l (xs ++ ys) := by
  simp [list_extend]

theorem foldl_list_append {ι : Type} [DecidableEq ι] {α : Type} (g : α → Polygon K) (l : ι)
    (xs : List α) (h : Lists ι K) :
    xs.foldl (fun h i => list_append h l (g i)) h = list_extend h l (xs.map g) := by
  induction xs generalizing h with
  | nil => simp
  | cons x xs ih =>
    simp only [List.foldl_cons, List.map_cons, ih]
    rw [list_append_eq_extend, list_extend_extend]
    rfl

theorem fan_eq {ι : Type} [DecidableEq ι] (sqrt : K → K) (f : List (Vertex K)) (dst : ι)
    (h : Lists ι K) : fan sqrt f dst h = list_extend h dst (fan_polygons sqrt f) := by
  unfold fan fan_polygons
  split_ifs
  · exact foldl_list_append _ _ _ _
  · simp

/-- The effect of `plane_split` on any store, with any aliasing of its four list
parameters, in terms of the four pure output lists. -/
theorem plane_split_eq {ι : Type} [DecidableEq ι] (sqrt : K → K) (P : Plane K) (Q : Polygon K)
    (cf cb f b : ι) (h : Lists ι K) :
    plane_split sqrt P Q cf cb f b h =
      list_extend (list_extend (list_extend (list_extend h cf (split_co_front P Q))
        cb (split_co_back P Q)) f (split_front sqrt P Q)) b (split_back sqrt P Q) := by
  unfold plane_split split_co_front split_co_back split_front split_back
  simp only [COPLANAR, FRONT, BACK]
  by_cases h0 : polygon_type P Q = 0
  · by_cases hd : vec_dot P.normal Q.plane.normal > 0
    · simp [h0, hd, list_append_eq_extend]
    · simp [h0, hd, list_append_eq_extend]
  · by_cases h1 : polygon_type P Q = 1
    · simp [h1, list_append_eq_extend]
    · by_cases h2 : polygon_type P Q = 2
      · simp [h2, list_append_eq_extend]
      · simp [h0, h1, h2, fan_eq]

theorem clip_loop (sqrt : K → K) (P : Plane K) (ps : List (Polygon K)) (h : Lists ClipList K) :
    ps.foldl (fun st Q => plane_split sqrt P Q ClipList.front ClipList.back ClipList.front
      ClipList.back st) h =
    fun l => match l with
      | .front => h .front ++ ps.flatMap (clip_front sqrt P)
      | .back => h .back ++ ps.flatMap (clip_back sqrt P) := by
  induction ps generalizing h with
  | nil => funext l; cases l <;> simp
  | cons Q ps ih =>
    rw [List.foldl_cons, ih]
    funext l
    cases l <;>
      simp [plane_split_eq, list_extend, Function.update, clip_front, clip_back,
        List.append_assoc]

theorem build_loop (sqrt : K → K) (P : Plane K) (ps : List (Polygon K)) (h : Lists BuildList K) :
    ps.foldl (fun st Q => plane_split sqrt P Q BuildList.polygons BuildList.polygons
      BuildList.front BuildList.back st) h =
    fun l => match l with
      | .polygons => h .polygons ++ ps.flatMap (build_own P)
      | .front => h .front ++ ps.flatMap (split_front sqrt P)
      | .back => h .back ++ ps.flatMap (split_back sqrt P) := by
  induction ps generalizing h with
  | nil => funext l; cases l <;> simp
  | cons Q ps ih =>
    rw [List.foldl_cons, ih]
    funext l
    cases l <;>
      simp [plane_split_eq, list_extend, Function.update, build_own, List.append_assoc]

theorem node_clip_polygons_node (sqrt : K → K) (P : Plane K) (polys : List (Polygon K))
    (F B : Node K) (ps out : List (Polygon K)) :
    node_clip_polygons sqrt (.node P polys F B) ps out =
      out ++ (if F.isNull then ps.flatMap (clip_front sqrt P)
              else node_clip_polygons sqrt F (ps.flatMap (clip_front sqrt P)) [])
          ++ (if B.isNull then []
              else node_clip_polygons sqrt B (ps.flatMap (clip_back sqrt P)) []) := by
  rw [node_clip_polygons]
  simp only [clip_loop, List.nil_append]

theorem node_build_succ (sqrt : K → K) (u : Plane K) (fuel : Nat) (P : Plane K)
    (own : List (Polygon K)) (F B : Node K) (ps : List (Polygon K)) :
    node_build sqrt u (fuel + 1) (.node P own F B) ps =
      if ps.length = 0 then some (.node P own F B)
      else
        match
          (if (ps.flatMap (split_front sqrt (build_plane P own ps))).length ≠ 0 then
            node_build sqrt u fuel (build_child u F)
              (ps.flatMap (split_front sqrt (build_plane P own ps)))
           else some F),
          (if (ps.flatMap (split_back sqrt (build_plane P own ps))).length ≠ 0 then
            node_build sqrt u fuel (build_child u B)
              (ps.flatMap (split_back sqrt (build_plane P own ps)))
           else some B) with
        | some F1, some B1 =>
          some (.node (build_plane P own ps) (own ++ ps.flatMap (build_own (build_plane P own ps)))
            F1 B1)
        | _, _ => none := by
  simp only [node_build, build_loop, List.nil_append, build_plane, build_child]

theorem plane_flip_flip (P : Plane K) : plane_flip (plane_flip P) = P := by
  cases P with
  | mk n w => cases n; simp [plane_flip, vec_neg]

theorem vertex_flip_flip (v : Vertex K) : vertex_flip (vertex_flip v) = v := by
  cases v with
  | mk p n uv => cases n; simp [vertex_flip, vec_neg]

theorem polygon_flip_flip (p : Polygon K) : polygon_flip (polygon_flip p) = p := by
  cases p
  simp [polygon_flip, plane_flip_flip, vertex_flip_flip]

theorem map_polygon_flip_flip (ps : List (Polygon K)) :
    (ps.map polygon_flip).map polygon_flip = ps := by
  induction ps with
  | nil => rfl
  | cons p ps ih => rw [List.map_cons, List.map_cons, polygon_flip_flip, ih]

/-- C4: `node_invert` is an involution on every BSP tree, and so are `polygon_flip` and
`plane_flip`. -/
theorem node_invert_involution :
    (∀ t : Node K, node_invert (node_invert t) = t) ∧
    (∀ p : Polygon K, polygon_flip (polygon_flip p) = p) ∧
    (∀ P : Plane K, plane_flip (plane_flip P) = P) := by
  refine ⟨?_, polygon_flip_flip, plane_flip_flip⟩
  intro t
  induction t with
  | null => rfl
  | node P ps F B ihF ihB =>
    simp only [node_invert, plane_flip_flip, map_polygon_flip_flip, ihF, ihB]

theorem polygon_type_coplanar_iff (P : Plane K) (Q : Polygon K) :
    polygon_type P Q = 0 ↔
      vertex_type P Q.v0 = 0 ∧ vertex_type P Q.v1 = 0 ∧ vertex_type P Q.v2 = 0 := by
  rw [polygon_type_eq]
  rcases vertex_type_cases P Q.v0 with h0 | h0 | h0 <;>
  rcases vertex_type_cases P Q.v1 with h1 | h1 | h1 <;>
  rcases vertex_type_cases P Q.v2 with h2 | h2 | h2 <;>
  simp [h0, h1, h2]

/-- C7: a triangle whose three vertices are all within `ε` of the plane (bounds
included) is appended unchanged to exactly one list, coplanar-front when
`dot(P.n, Q.plane.n) > 0` and coplanar-back otherwise; every other list is unchanged. -/
theorem plane_split_coplanar {ι : Type} [DecidableEq ι] (sqrt : K → K) (P : Plane K)
    (Q : Polygon K) (co_front co_back front back : ι) (h : Lists ι K)
    (h0 : -EPS K ≤ signed_dist P Q.v0.position ∧ signed_dist P Q.v0.position ≤ EPS K)
    (h1 : -EPS K ≤ signed_dist P Q.v1.position ∧ signed_dist P Q.v1.position ≤ EPS K)
    (h2 : -EPS K ≤ signed_dist P Q.v2.position ∧ signed_dist P Q.v2.position ≤ EPS K) :
    plane_split sqrt P Q co_front co_back front back h =
        list_append h (if vec_dot P.normal Q.plane.normal > 0 then co_front else co_back) Q ∧
    (plane_split sqrt P Q co_front co_back front back h)
        (if vec_dot P.normal Q.plane.normal > 0 then co_front else co_back) =
      h (if vec_dot P.normal Q.plane.normal > 0 then co_front else co_back) ++ [Q] ∧
    ∀ l, l ≠ (if vec_dot P.normal Q.plane.normal > 0 then co_front else co_back) →
      (plane_split sqrt P Q co_front co_back front back h) l = h l := by
  have hc : polygon_type P Q = 0 :=
    (polygon_type_coplanar_iff P Q).2
      ⟨vertex_type_coplanar h0.1 h0.2, vertex_type_coplanar h1.1 h1.2,
        vertex_type_coplanar h2.1 h2.2⟩
  have key : plane_split sqrt P Q co_front co_back front back h =
      list_append h (if vec_dot P.normal Q.plane.normal > 0 then co_front else co_back) Q := by
    unfold plane_split
    simp only [COPLANAR, hc, if_true]
    split_ifs <;> rfl
  refine ⟨key, ?_, ?_⟩
  · rw [key]; simp [list_append]
  · intro l hl
    rw [key]; simp [list_append, Function.update, hl]

/-- Witness for C7: a triangle lying in `z = 0` split by the plane `z = 0`. -/
theorem plane_split_coplanar_witness :
    plane_split Rat.sqrt plane_z0 (tri_at 0) SplitList.co_front SplitList.co_back
        SplitList.front SplitList.back (fun _ => []) =
      list_append (fun _ => []) SplitList.co_front (tri_at 0) := by
  have h := (plane_split_coplanar Rat.sqrt plane_z0 (tri_at 0) SplitList.co_front
    SplitList.co_back SplitList.front SplitList.back (fun _ => [])
    (by norm_num [signed_dist, vec_dot, plane_z0, tri_at, vtx, EPS])
    (by norm_num [signed_dist, vec_dot, plane_z0, tri_at, vtx, EPS])
    (by norm_num [signed_dist, vec_dot, plane_z0, tri_at, vtx, EPS])).1
  have hd : vec_dot plane_z0.normal (tri_at 0).plane.normal > 0 := by
    norm_num [vec_dot, plane_z0, tri_at]
  rwa [if_pos hd] at h

theorem list_append_frame {ι : Type} [DecidableEq ι] (h : Lists ι K) (l : ι) (p : Polygon K) :
    (list_append h l p) l = h l ++ [p] ∧ ∀ l1, l1 ≠ l → (list_append h l p) l1 = h l1 := by
  constructor
  · simp [list_append]
  · intro l1 hl; simp [list_append, Function.update, hl]

theorem vertex_type_eq_spec (P : Plane K) (v : Vertex K) :
    vertex_type P v = spec_vertex_class P v := by
  unfold vertex_type spec_vertex_class signed_dist
  by_cases h1 : vec_dot P.normal v.position - P.w > EPS K <;>
  by_cases h2 : vec_dot P.normal v.position - P.w < -EPS K <;>
  simp [h1, h2]

theorem polygon_type_eq_spec (P : Plane K) (Q : Polygon K) :
    polygon_type P Q = spec_polygon_class P Q := by
  rw [polygon_type_eq, spec_polygon_class]
  simp only [vertex_type_eq_spec]

theorem vertex_type_not_back {P : Plane K} {v : Vertex K}
    (h : -EPS K ≤ signed_dist P v.position) : vertex_type P v = 0 ∨ vertex_type P v = 1 := by
  by_cases h1 : EPS K < signed_dist P v.position
  · exact Or.inr (vertex_type_front h1)
  · exact Or.inl (vertex_type_coplanar h (not_lt.mp h1))

theorem vertex_type_not_front {P : Plane K} {v : Vertex K}
    (h : signed_dist P v.position ≤ EPS K) : vertex_type P v = 0 ∨ vertex_type P v = 2 := by
  by_cases h1 : signed_dist P v.position < -EPS K
  · exact Or.inr (vertex_type_back h1)
  · exact Or.inl (vertex_type_coplanar (not_lt.mp h1) h)

/-- C8: a triangle with a vertex strictly in front (`d > ε`) and none strictly behind
(`d < −ε`) is appended unchanged to the front list only; symmetrically for back. -/
theorem plane_split_front_back {ι : Type} [DecidableEq ι] (sqrt : K → K) (P : Plane K)
    (Q : Polygon K) (co_front co_back front back : ι) (h : Lists ι K) :
    ((EPS K < signed_dist P Q.v0.position ∨ EPS K < signed_dist P Q.v1.position ∨
        EPS K < signed_dist P Q.v2.position) →
      (-EPS K ≤ signed_dist P Q.v0.position ∧ -EPS K ≤ signed_dist P Q.v1.position ∧
        -EPS K ≤ signed_dist P Q.v2.position) →
      plane_split sqrt P Q co_front co_back front back h = list_append h front Q ∧
      (plane_split sqrt P Q co_front co_back front back h) front = h front ++ [Q] ∧
      ∀ l, l ≠ front → (plane_split sqrt P Q co_front co_back front back h) l = h l) ∧
    ((signed_dist P Q.v0.position < -EPS K ∨ signed_dist P Q.v1.position < -EPS K ∨
        signed_dist P Q.v2.position < -EPS K) →
      (signed_dist P Q.v0.position ≤ EPS K ∧ signed_dist P Q.v1.position ≤ EPS K ∧
        signed_dist P Q.v2.position ≤ EPS K) →
      plane_split sqrt P Q co_front co_back front back h = list_append h back Q ∧
      (plane_split sqrt P Q co_front co_back front back h) back = h back ++ [Q] ∧
      ∀ l, l ≠ back → (plane_split sqrt P Q co_front co_back front back h) l = h l) := by
  constructor
  · intro hex hall
    have hc : polygon_type P Q = 1 := by
      rw [polygon_type_eq]
      rcases vertex_type_not_back hall.1 with a0 | a0 <;>
      rcases vertex_type_not_back hall.2.1 with a1 | a1 <;>
      rcases vertex_type_not_back hall.2.2 with a2 | a2 <;>
      simp only [a0, a1, a2] <;> try rfl
      exfalso
      rcases hex with e | e | e
      · have := vertex_type_front e; omega
      · have := vertex_type_front e; omega
      · have := vertex_type_front e; omega
    have key : plane_split sqrt P Q co_front co_back front back h = list_append h front Q := by
      unfold plane_split
      simp [COPLANAR, FRONT, hc]
    rw [key]
    exact ⟨rfl, list_append_frame h front Q⟩
  · intro hex hall
    have hc : polygon_type P Q = 2 := by
      rw [polygon_type_eq]
      rcases vertex_type_not_front hall.1 with a0 | a0 <;>
      rcases vertex_type_not_front hall.2.1 with a1 | a1 <;>
      rcases vertex_type_not_front hall.2.2 with a2 | a2 <;>
      simp only [a0, a1, a2] <;> try rfl
      exfalso
      rcases hex with e | e | e
      · have := vertex_type_back e; omega
      · have := vertex_type_back e; omega
      · have := vertex_type_back e; omega
    have key : plane_split sqrt P Q co_front co_back front back h = list_append h back Q := by
      unfold plane_split
      simp [COPLANAR, FRONT, BACK, hc]
    rw [key]
    exact ⟨rfl, list_append_frame h back Q⟩

/-- Witness for C8: a triangle in `z = 1` goes to front, one in `z = -1` to back, when
split by the plane `z = 0`. -/
theorem plane_split_front_back_witness :
    plane_split Rat.sqrt plane_z0 (tri_at 1) SplitList.co_front SplitList.co_back
        SplitList.front SplitList.back (fun _ => []) =
      list_append (fun _ => []) SplitList.front (tri_at 1) ∧
    plane_split Rat.sqrt plane_z0 (tri_at (-1)) SplitList.co_front SplitList.co_back
        SplitList.front SplitList.back (fun _ => []) =
      list_append (fun _ => []) SplitList.back (tri_at (-1)) :=
  ⟨((plane_split_front_back Rat.sqrt plane_z0 (tri_at 1) SplitList.co_front
      SplitList.co_back SplitList.front SplitList.back (fun _ => [])).1
      (by norm_num [signed_dist, vec_dot, plane_z0, tri_at, vtx, EPS])
      (by norm_num [signed_dist, vec_dot, plane_z0, tri_at, vtx, EPS])).1,
   ((plane_split_front_back Rat.sqrt plane_z0 (tri_at (-1)) SplitList.co_front
      SplitList.co_back SplitList.front SplitList.back (fun _ => [])).2
      (by norm_num [signed_dist, vec_dot, plane_z0, tri_at, vtx, EPS])
      (by norm_num [signed_dist, vec_dot, plane_z0, tri_at, vtx, EPS])).1⟩

theorem clip_front_eq_spec (sqrt : K → K) (P : Plane K) (Q : Polygon K) :
    clip_front sqrt P Q =
      (if spec_polygon_class P Q = COPLANAR then
        if vec_dot P.normal Q.plane.normal > 0 then [Q] else []
      else if spec_polygon_class P Q = FRONT then [Q]
      else if spec_polygon_class P Q = BACK then []
      else fan_polygons sqrt (split_edges P Q).1) := by
  unfold clip_front split_co_front split_front
  rw [polygon_type_eq_spec]
  split_ifs <;> simp_all

/-- C9: at a node without children, `node_clip_polygons` appends to `out` exactly the
front partition of the input, in input order. -/
theorem node_clip_polygons_leaf (sqrt : K → K) (P : Plane K) (own ps out : List (Polygon K)) :
    node_clip_polygons sqrt (.node P own .null .null) ps out =
      out ++ spec_front_partition sqrt P ps := by
  rw [node_clip_polygons_node]
  simp only [Node.isNull, if_true, List.append_nil, spec_front_partition]
  congr 1
  congr 1
  funext Q
  exact clip_front_eq_spec sqrt P Q

theorem triangles_vertex_spec (d : List K) (h : 8 ≤ d.length) :
    triangulate_vertex (triangles_vertex d).1 ++ (triangles_vertex d).2 = d ∧
    (triangles_vertex d).2.length = d.length - 8 ∧ (triangles_vertex d).1.uv.z = 0 := by
  rcases d with _ | ⟨x0, _ | ⟨x1, _ | ⟨x2, _ | ⟨x3, _ | ⟨x4, _ | ⟨x5, _ | ⟨x6, _ | ⟨x7, d⟩⟩⟩⟩⟩⟩⟩⟩ <;>
    simp at h
  simp [triangles_vertex, triangulate_vertex]

theorem triangles_loop_spec (sqrt : K → K) (n : Nat) :
    ∀ (d : List K) (out : List (Polygon K)), d.length = 24 * n →
      (triangles_loop sqrt n d out).length = out.length + n ∧
      triangulate (triangles_loop sqrt n d out) = triangulate out ++ d ∧
      ∀ p ∈ triangles_loop sqrt n d out, p ∈ out ∨
        (p.v0.uv.z = 0 ∧ p.v1.uv.z = 0 ∧ p.v2.uv.z = 0 ∧
          p.plane = plane_from_points sqrt p.v0.position p.v1.position p.v2.position) := by
  induction n with
  | zero =>
    intro d out hd
    have : d = [] := List.length_eq_zero.mp (by simpa using hd)
    subst this
    simp only [triangles_loop]
    exact ⟨by simp, by simp, fun p hp => Or.inl hp⟩
  | succ n ih =>
    intro d out hd
    obtain ⟨e0, l0, z0⟩ := triangles_vertex_spec d (by omega)
    obtain ⟨e1, l1, z1⟩ := triangles_vertex_spec (triangles_vertex d).2 (by omega)
    obtain ⟨e2, l2, z2⟩ :=
      triangles_vertex_spec (triangles_vertex (triangles_vertex d).2).2 (by omega)
    rw [triangles_loop]
    obtain ⟨i1, i2, i3⟩ := ih (triangles_vertex (triangles_vertex (triangles_vertex d).2).2).2
      (out ++ [⟨plane_from_points sqrt (triangles_vertex d).1.position
          (triangles_vertex (triangles_vertex d).2).1.position
          (triangles_vertex (triangles_vertex (triangles_vertex d).2).2).1.position,
        (triangles_vertex d).1, (triangles_vertex (triangles_vertex d).2).1,
        (triangles_vertex (triangles_vertex (triangles_vertex d).2).2).1⟩]) (by omega)
    refine ⟨?_, ?_, ?_⟩
    · rw [i1]; simp; omega
    · rw [i2]
      simp only [triangulate, List.flatMap_append, List.flatMap_cons, List.flatMap_nil,
        List.append_nil, List.append_assoc]
      rw [e2, e1, e0]
    · intro p hp
      rcases i3 p hp with h | h
      · rcases List.mem_append.mp h with h | h
        · exact Or.inl h
        · right
          have : p = _ := List.mem_singleton.mp h
          subst this
          exact ⟨z0, z1, z2, rfl⟩
      · exact Or.inr h

/-- C10: for a buffer of exactly `24 * n` floats, `triangles` produces `n` polygons, each
with `uv.z = 0` on its three vertices and the plane of its three positions, and
`triangulate` stores back exactly the original floats in the original order. -/
theorem triangulate_triangles (sqrt : K → K) (n : Nat) (data : List K)
    (h : data.length = 24 * n) :
    (triangles sqrt [] data (n : Int)).length = n ∧
    (∀ p ∈ triangles sqrt [] data (n : Int),
      p.v0.uv.z = 0 ∧ p.v1.uv.z = 0 ∧ p.v2.uv.z = 0 ∧
      p.plane = plane_from_points sqrt p.v0.position p.v1.position p.v2.position) ∧
    triangulate (triangles sqrt [] data (n : Int)) = data := by
  obtain ⟨h1, h2, h3⟩ := triangles_loop_spec sqrt n data [] h
  simp only [triangles, Int.toNat_ofNat]
  refine ⟨by simpa using h1, ?_, by simpa [triangulate] using h2⟩
  intro p hp
  rcases h3 p hp with h | h
  · simp at h
  · exact h

/-- Witness for C10: one triangle, 24 floats. -/
theorem triangulate_triangles_witness :
    triangulate (triangles Rat.sqrt [] buffer24 ((1 : Nat) : Int)) = buffer24 :=
  (triangulate_triangles Rat.sqrt 1 buffer24 (by rfl)).2.2

theorem plane_from_points_dist (sqrt : K → K) (a b c : Vector K) :
    signed_dist (plane_from_points sqrt a b c) a = 0 ∧
    signed_dist (plane_from_points sqrt a b c) b = 0 ∧
    signed_dist (plane_from_points sqrt a b c) c = 0 := by
  simp only [signed_dist, plane_from_points, vec_unit, vec_div, vec_dot, vec_cross, vec_sub,
    vec_len, div_eq_mul_inv]
  refine ⟨by ring, by ring, by ring⟩

theorem consistent_dist {sqrt : K → K} {p : Polygon K} (h : consistent sqrt p) :
    signed_dist p.plane p.v0.position = 0 ∧ signed_dist p.plane p.v1.position = 0 ∧
    signed_dist p.plane p.v2.position = 0 := by
  rw [h]; exact plane_from_points_dist sqrt _ _ _

theorem vertex_type_of_dist_zero {P : Plane K} {v : Vertex K}
    (h : signed_dist P v.position = 0) : vertex_type P v = 0 := by
  have e := @EPS_pos K _
  exact vertex_type_coplanar (by rw [h]; linarith) (by rw [h]; linarith)

theorem consistent_polygon_type {sqrt : K → K} {p : Polygon K} (h : consistent sqrt p) :
    polygon_type p.plane p = 0 := by
  obtain ⟨h0, h1, h2⟩ := consistent_dist h
  exact (polygon_type_coplanar_iff _ _).2
    ⟨vertex_type_of_dist_zero h0, vertex_type_of_dist_zero h1, vertex_type_of_dist_zero h2⟩

theorem plane_from_points_flip (sqrt : K → K) (a b c : Vector K) :
    plane_from_points sqrt c b a = plane_flip (plane_from_points sqrt a b c) := by
  have hx : vec_cross (vec_sub b c) (vec_sub a c) = vec_neg (vec_cross (vec_sub b a) (vec_sub c a)) := by
    simp only [vec_cross, vec_sub, vec_neg, Vector.mk.injEq]
    refine ⟨by ring, by ring, by ring⟩
  have hl : vec_len sqrt (vec_neg (vec_cross (vec_sub b a) (vec_sub c a))) =
      vec_len sqrt (vec_cross (vec_sub b a) (vec_sub c a)) := by
    simp only [vec_len, vec_dot, vec_neg]
    congr 1
    ring
  simp only [plane_from_points, hx, vec_unit, hl]
  simp only [plane_flip, vec_neg, vec_div, vec_dot, vec_cross, vec_sub, Plane.mk.injEq,
    Vector.mk.injEq, div_eq_mul_inv]
  refine ⟨⟨by ring, by ring, by ring⟩, by ring⟩

theorem consistent_flip {sqrt : K → K} {p : Polygon K} (h : consistent sqrt p) :
    consistent sqrt (polygon_flip p) := by
  unfold consistent at *
  simp only [polygon_flip, vertex_flip]
  rw [plane_from_points_flip, h]

theorem node_polygons_acc (t : Node K) (acc : List (Polygon K)) :
    node_polygons t acc = acc ++ node_polygons t [] := by
  induction t generalizing acc with
  | null => simp [node_polygons]
  | node P own F B ihF ihB =>
    simp only [node_polygons, List.nil_append]
    rw [ihB, ihF, ihB (node_polygons F own), ihF own]
    simp

theorem node_polygons_node (P : Plane K) (own : List (Polygon K)) (F B : Node K) :
    node_polygons (.node P own F B) [] = own ++ node_polygons F [] ++ node_polygons B [] := by
  simp only [node_polygons, List.nil_append]
  rw [node_polygons_acc B, node_polygons_acc F]

theorem allTree_iff (φ : Polygon K → Prop) (t : Node K) :
    AllTree φ t ↔ ∀ p ∈ node_polygons t [], φ p := by
  induction t with
  | null => simp [AllTree, node_polygons]
  | node P own F B ihF ihB =>
    rw [node_polygons_node, AllTree, ihF, ihB]
    simp only [List.mem_append]
    constructor
    · rintro ⟨h1, h2, h3⟩ p ((hp | hp) | hp)
      · exact h1 p hp
      · exact h2 p hp
      · exact h3 p hp
    · intro h
      exact ⟨fun p hp => h p (Or.inl (Or.inl hp)), fun p hp => h p (Or.inl (Or.inr hp)),
        fun p hp => h p (Or.inr hp)⟩

theorem mem_split_co_front {P : Plane K} {Q q : Polygon K} (h : q ∈ split_co_front P Q) :
    q = Q := by
  unfold split_co_front at h
  split_ifs at h <;> simp_all

theorem mem_split_co_back {P : Plane K} {Q q : Polygon K} (h : q ∈ split_co_back P Q) :
    q = Q := by
  unfold split_co_back at h
  split_ifs at h <;> simp_all

theorem mem_flatMap_clip_front {sqrt : K → K} {φ : Polygon K → Prop}
    (hφ : SplitClosed sqrt φ) (P : Plane K) {ps : List (Polygon K)} (hps : ∀ p ∈ ps, φ p) :
    ∀ q ∈ ps.flatMap (clip_front sqrt P), φ q := by
  intro q hq
  obtain ⟨Q, hQ, hq⟩ := List.mem_flatMap.mp hq
  rcases List.mem_append.mp hq with h | h
  · rw [mem_split_co_front h]; exact hps Q hQ
  · exact (hφ P Q (hps Q hQ)).1 q h

theorem mem_flatMap_clip_back {sqrt : K → K} {φ : Polygon K → Prop}
    (hφ : SplitClosed sqrt φ) (P : Plane K) {ps : List (Polygon K)} (hps : ∀ p ∈ ps, φ p) :
    ∀ q ∈ ps.flatMap (clip_back sqrt P), φ q := by
  intro q hq
  obtain ⟨Q, hQ, hq⟩ := List.mem_flatMap.mp hq
  rcases List.mem_append.mp hq with h | h
  · rw [mem_split_co_back h]; exact hps Q hQ
  · exact (hφ P Q (hps Q hQ)).2 q h

theorem mem_flatMap_split_front {sqrt : K → K} {φ : Polygon K → Prop}
    (hφ : SplitClosed sqrt φ) (P : Plane K) {ps : List (Polygon K)} (hps : ∀ p ∈ ps, φ p) :
    ∀ q ∈ ps.flatMap (split_front sqrt P), φ q := by
  intro q hq
  obtain ⟨Q, hQ, hq⟩ := List.mem_flatMap.mp hq
  exact (hφ P Q (hps Q hQ)).1 q hq

theorem mem_flatMap_split_back {sqrt : K → K} {φ : Polygon K → Prop}
    (hφ : SplitClosed sqrt φ) (P : Plane K) {ps : List (Polygon K)} (hps : ∀ p ∈ ps, φ p) :
    ∀ q ∈ ps.flatMap (split_back sqrt P), φ q := by
  intro q hq
  obtain ⟨Q, hQ, hq⟩ := List.mem_flatMap.mp hq
  exact (hφ P Q (hps Q hQ)).2 q hq

theorem mem_flatMap_build_own {φ : Polygon K → Prop}
    (P : Plane K) {ps : List (Polygon K)} (hps : ∀ p ∈ ps, φ p) :
    ∀ q ∈ ps.flatMap (build_own P), φ q := by
  intro q hq
  obtain ⟨Q, hQ, hq⟩ := List.mem_flatMap.mp hq
  rcases List.mem_append.mp hq with h | h
  · rw [mem_split_co_front h]; exact hps Q hQ
  · rw [mem_split_co_back h]; exact hps Q hQ

theorem node_clip_polygons_all {sqrt : K → K} {φ : Polygon K → Prop}
    (hφ : SplitClosed sqrt φ) (t : Node K) :
    ∀ ps : List (Polygon K), (∀ p ∈ ps, φ p) → ∀ q ∈ node_clip_polygons sqrt t ps [], φ q := by
  induction t with
  | null => intro ps _ q hq; simp [node_clip_polygons] at hq
  | node P own F B ihF ihB =>
    intro ps hps q hq
    rw [node_clip_polygons_node] at hq
    simp only [List.nil_append, List.mem_append] at hq
    rcases hq with hq | hq
    · split_ifs at hq
      · exact mem_flatMap_clip_front hφ P hps q hq
      · exact ihF _ (mem_flatMap_clip_front hφ P hps) q hq
    · split_ifs at hq
      · simp at hq
      · exact ihB _ (mem_flatMap_clip_back hφ P hps) q hq

theorem node_clip_to_all {sqrt : K → K} {φ : Polygon K → Prop}
    (hφ : SplitClosed sqrt φ) (t other : Node K) (ht : AllTree φ t) :
    AllTree φ (node_clip_to sqrt t other) := by
  induction t with
  | null => simp [node_clip_to, AllTree]
  | node P own F B ihF ihB =>
    obtain ⟨h1, h2, h3⟩ := ht
    exact ⟨node_clip_polygons_all hφ other own h1, ihF h2, ihB h3⟩

theorem node_invert_all {φ ψ : Polygon K → Prop} (hf : ∀ p, φ p → ψ (polygon_flip p))
    (t : Node K) (ht : AllTree φ t) : AllTree ψ (node_invert t) := by
  induction t with
  | null => simp [node_invert, AllTree]
  | node P own F B ihF ihB =>
    obtain ⟨h1, h2, h3⟩ := ht
    refine ⟨?_, ihB h3, ihF h2⟩
    intro p hp
    obtain ⟨q, hq, rfl⟩ := List.mem_map.mp hp
    exact hf q (h1 q hq)

theorem allTree_build_child (φ : Polygon K → Prop) (u : Plane K) (t : Node K)
    (ht : AllTree φ t) : AllTree φ (build_child u t) := by
  unfold build_child
  split_ifs
  · simp [node_alloc, AllTree]
  · exact ht

theorem node_build_succ_bind (sqrt : K → K) (u : Plane K) (fuel : Nat) (P : Plane K)
    (own : List (Polygon K)) (F B : Node K) (ps : List (Polygon K)) :
    node_build sqrt u (fuel + 1) (.node P own F B) ps =
      if ps = [] then some (.node P own F B)
      else
        (build_sub sqrt u fuel F (ps.flatMap (split_front sqrt (build_plane P own ps)))).bind
          fun F1 =>
        (build_sub sqrt u fuel B (ps.flatMap (split_back sqrt (build_plane P own ps)))).bind
          fun B1 =>
        some (.node (build_plane P own ps)
          (own ++ ps.flatMap (build_own (build_plane P own ps))) F1 B1) := by
  have key : ∀ (a b : Option (Node K)) (g : Node K → Node K → Node K),
      (match a, b with
        | some x, some y => some (g x y)
        | _, _ => none) = a.bind fun x => b.bind fun y => some (g x y) := by
    intro a b g; cases a <;> cases b <;> rfl
  rw [node_build_succ]
  simp only [List.length_eq_zero, build_sub]
  by_cases he : ps = []
  · rw [if_pos he, if_pos he]
  · rw [if_neg he, if_neg he]
    exact key _ _ _

theorem node_build_eq_some {sqrt : K → K} {u : Plane K} {fuel : Nat} {P : Plane K}
    {own : List (Polygon K)} {F B : Node K} {ps : List (Polygon K)} {r : Node K}
    (hps : ps ≠ []) :
    node_build sqrt u (fuel + 1) (.node P own F B) ps = some r ↔
      ∃ F1 B1,
        build_sub sqrt u fuel F (ps.flatMap (split_front sqrt (build_plane P own ps))) = some F1 ∧
        build_sub sqrt u fuel B (ps.flatMap (split_back sqrt (build_plane P own ps))) = some B1 ∧
        r = .node (build_plane P own ps)
          (own ++ ps.flatMap (build_own (build_plane P own ps))) F1 B1 := by
  rw [node_build_succ_bind, if_neg hps]
  simp only [Option.bind_eq_some, Option.some.injEq]
  constructor
  · rintro ⟨F1, h1, B1, h2, h3⟩; exact ⟨F1, B1, h1, h2, h3.symm⟩
  · rintro ⟨F1, B1, h1, h2, h3⟩; exact ⟨F1, h1, B1, h2, h3.symm⟩

theorem node_build_nil (sqrt : K → K) (u : Plane K) (fuel : Nat) (P : Plane K)
    (own : List (Polygon K)) (F B : Node K) :
    node_build sqrt u (fuel + 1) (.node P own F B) [] = some (.node P own F B) := by
  rw [node_build_succ_bind, if_pos rfl]

theorem build_sub_all {sqrt : K → K} {φ : Polygon K → Prop} {u : Plane K} {fuel : Nat}
    (ih : ∀ (t : Node K) (ps : List (Polygon K)) (r : Node K),
      node_build sqrt u fuel t ps = some r → AllTree φ t → (∀ p ∈ ps, φ p) → AllTree φ r)
    {child c1 : Node K} {l : List (Polygon K)} (h : build_sub sqrt u fuel child l = some c1)
    (hc : AllTree φ child) (hl : ∀ p ∈ l, φ p) : AllTree φ c1 := by
  unfold build_sub at h
  split_ifs at h
  · exact ih _ _ _ h (allTree_build_child φ u child hc) hl
  · cases h; exact hc

theorem node_build_all {sqrt : K → K} {φ : Polygon K → Prop} (hφ : SplitClosed sqrt φ)
    (u : Plane K) (fuel : Nat) :
    ∀ (t : Node K) (ps : List (Polygon K)) (r : Node K),
      node_build sqrt u fuel t ps = some r → AllTree φ t → (∀ p ∈ ps, φ p) → AllTree φ r := by
  induction fuel with
  | zero => intro t ps r h; simp [node_build] at h
  | succ fuel ih =>
    intro t ps r h ht hps
    cases t with
    | null => simp [node_build] at h
    | node P own F B =>
      by_cases he : ps = []
      · subst he
        rw [node_build_nil] at h
        cases h; exact ht
      · obtain ⟨F1, B1, e1, e2, rfl⟩ := (node_build_eq_some he).1 h
        obtain ⟨h1, h2, h3⟩ := ht
        refine ⟨?_, build_sub_all ih e1 h2 (mem_flatMap_split_front hφ _ hps),
          build_sub_all ih e2 h3 (mem_flatMap_split_back hφ _ hps)⟩
        intro p hp
        rcases List.mem_append.mp hp with hp | hp
        · exact h1 p hp
        · exact mem_flatMap_build_own _ hps p hp

theorem build_sub_mono {sqrt : K → K} {u : Plane K} {fuel : Nat}
    (ih : ∀ (t : Node K) (ps : List (Polygon K)) (r : Node K),
      node_build sqrt u fuel t ps = some r → node_build sqrt u (fuel + 1) t ps = some r)
    {child c1 : Node K} {l : List (Polygon K)} (h : build_sub sqrt u fuel child l = some c1) :
    build_sub sqrt u (fuel + 1) child l = some c1 := by
  unfold build_sub at *
  split_ifs at h ⊢
  · exact ih _ _ _ h
  · exact h

theorem node_build_mono (sqrt : K → K) (u : Plane K) (fuel : Nat) :
    ∀ (t : Node K) (ps : List (Polygon K)) (r : Node K),
      node_build sqrt u fuel t ps = some r → node_build sqrt u (fuel + 1) t ps = some r := by
  induction fuel with
  | zero => intro t ps r h; simp [node_build] at h
  | succ fuel ih =>
    intro t ps r h
    cases t with
    | null => simp [node_build] at h
    | node P own F B =>
      by_cases he : ps = []
      · subst he
        rw [node_build_nil] at h ⊢
        exact h
      · obtain ⟨F1, B1, e1, e2, e3⟩ := (node_build_eq_some he).1 h
        exact (node_build_eq_some he).2 ⟨F1, B1, build_sub_mono ih e1, build_sub_mono ih e2, e3⟩

theorem node_build_mono_le (sqrt : K → K) (u : Plane K) {fuel fuel1 : Nat} (hle : fuel ≤ fuel1)
    {t : Node K} {ps : List (Polygon K)} {r : Node K}
    (h : node_build sqrt u fuel t ps = some r) : node_build sqrt u fuel1 t ps = some r := by
  induction hle with
  | refl => exact h
  | step _ ih => exact node_build_mono sqrt u _ _ _ _ ih

theorem polygon_type_cases (P : Plane K) (Q : Polygon K) :
    polygon_type P Q = 0 ∨ polygon_type P Q = 1 ∨ polygon_type P Q = 2 ∨ polygon_type P Q = 3 := by
  rw [polygon_type_eq]
  rcases vertex_type_cases P Q.v0 with h0 | h0 | h0 <;>
  rcases vertex_type_cases P Q.v1 with h1 | h1 | h1 <;>
  rcases vertex_type_cases P Q.v2 with h2 | h2 | h2 <;>
  simp [h0, h1, h2]

theorem vertex_type_eq_one {P : Plane K} {v : Vertex K} (h : vertex_type P v = 1) :
    EPS K < signed_dist P v.position := by
  by_contra hn
  rcases vertex_type_not_front (not_lt.mp hn) with h1 | h1 <;> omega

theorem vertex_type_eq_two {P : Plane K} {v : Vertex K} (h : vertex_type P v = 2) :
    signed_dist P v.position < -EPS K := by
  by_contra hn
  rcases vertex_type_not_back (not_lt.mp hn) with h1 | h1 <;> omega

theorem spanning_of_polygon_type {P : Plane K} {Q : Polygon K} (h : polygon_type P Q = 3) :
    spanning P Q := by
  rw [polygon_type_eq] at h
  unfold spanning
  rcases vertex_type_cases P Q.v0 with h0 | h0 | h0 <;>
  rcases vertex_type_cases P Q.v1 with h1 | h1 | h1 <;>
  rcases vertex_type_cases P Q.v2 with h2 | h2 | h2 <;>
  simp only [h0, h1, h2] at h <;>
  first
    | (exfalso; revert h; decide)
    | skip
  all_goals
    constructor
    · first
        | exact Or.inl (vertex_type_eq_one h0)
        | exact Or.inr (Or.inl (vertex_type_eq_one h1))
        | exact Or.inr (Or.inr (vertex_type_eq_one h2))
    · first
        | exact Or.inl (vertex_type_eq_two h0)
        | exact Or.inr (Or.inl (vertex_type_eq_two h1))
        | exact Or.inr (Or.inr (vertex_type_eq_two h2))

theorem split_parts_perm (sqrt : K → K) (P : Plane K) (ps : List (Polygon K))
    (h : ∀ Q ∈ ps, polygon_type P Q ≠ 3) :
    (ps.flatMap (build_own P) ++ ps.flatMap (split_front sqrt P) ++
      ps.flatMap (split_back sqrt P)).Perm ps ∧
    (∀ q ∈ ps.flatMap (split_front sqrt P), q ∈ ps) ∧
    (∀ q ∈ ps.flatMap (split_back sqrt P), q ∈ ps) := by
  induction ps with
  | nil => simp
  | cons Q ps ih =>
    obtain ⟨i1, i2, i3⟩ := ih (fun Q1 hQ1 => h Q1 (List.mem_cons_of_mem _ hQ1))
    have hQ := h Q (List.mem_cons_self _ _)
    simp only [List.flatMap_cons]
    rcases polygon_type_cases P Q with c | c | c | c
    · have e1 : build_own P Q = [Q] := by
        unfold build_own split_co_front split_co_back
        by_cases hd : vec_dot P.normal Q.plane.normal > 0 <;> simp [c, COPLANAR, hd]
      have e2 : split_front sqrt P Q = [] := by simp [split_front, c, COPLANAR]
      have e3 : split_back sqrt P Q = [] := by simp [split_back, c, COPLANAR]
      rw [e1, e2, e3]
      refine ⟨?_, fun q hq => List.mem_cons_of_mem _ (i2 q (by simpa using hq)),
        fun q hq => List.mem_cons_of_mem _ (i3 q (by simpa using hq))⟩
      simpa using i1
    · have e1 : build_own P Q = [] := by
        simp [build_own, split_co_front, split_co_back, c, COPLANAR]
      have e2 : split_front sqrt P Q = [Q] := by simp [split_front, c, COPLANAR, FRONT]
      have e3 : split_back sqrt P Q = [] := by simp [split_back, c, COPLANAR, FRONT]
      rw [e1, e2, e3]
      refine ⟨?_, ?_, fun q hq => List.mem_cons_of_mem _ (i3 q (by simpa using hq))⟩
      · simp only [List.nil_append, List.singleton_append, List.append_assoc]
        exact (List.perm_middle).trans (List.Perm.cons Q (by simpa using i1))
      · intro q hq
        rcases List.mem_append.mp hq with hq | hq
        · rw [List.mem_singleton.mp hq]; exact List.mem_cons_self _ _
        · exact List.mem_cons_of_mem _ (i2 q hq)
    · have e1 : build_own P Q = [] := by
        simp [build_own, split_co_front, split_co_back, c, COPLANAR]
      have e2 : split_front sqrt P Q = [] := by simp [split_front, c, COPLANAR, FRONT, BACK]
      have e3 : split_back sqrt P Q = [Q] := by simp [split_back, c, COPLANAR, FRONT, BACK]
      rw [e1, e2, e3]
      refine ⟨?_, fun q hq => List.mem_cons_of_mem _ (i2 q (by simpa using hq)), ?_⟩
      · simp only [List.nil_append, List.singleton_append]
        exact (List.perm_middle).trans (List.Perm.cons Q i1)
      · intro q hq
        rcases List.mem_append.mp hq with hq | hq
        · rw [List.mem_singleton.mp hq]; exact List.mem_cons_self _ _
        · exact List.mem_cons_of_mem _ (i3 q hq)
    · exact absurd c hQ

theorem build_own_head {sqrt : K → K} {Q : Polygon K} (hQ : consistent sqrt Q)
    (ps : List (Polygon K)) : Q ∈ (Q :: ps).flatMap (build_own Q.plane) := by
  have c := consistent_polygon_type hQ
  have e1 : build_own Q.plane Q = [Q] := by
    unfold build_own split_co_front split_co_back
    by_cases hd : vec_dot Q.plane.normal Q.plane.normal > 0 <;> simp [c, COPLANAR, hd]
  simp [List.flatMap_cons, e1]

/-- On a freshly allocated node and a batch in which no polygon spans the cached plane
of another, `node_build` returns (fuel above the batch length suffices) and the tree
holds exactly the batch, up to order. -/
theorem node_build_fresh_nospan (sqrt : K → K) (u : Plane K) (fuel : Nat) :
    ∀ (ps : List (Polygon K)) (u1 : Plane K), (∀ p ∈ ps, consistent sqrt p) →
      (∀ p ∈ ps, ∀ q ∈ ps, ¬ spanning q.plane p) → ps.length < fuel →
      ∃ t, node_build sqrt u fuel (node_alloc u1) ps = some t ∧
        (node_polygons t []).Perm ps := by
  induction fuel with
  | zero => intro ps u1 _ _ h; omega
  | succ fuel ih =>
    intro ps u1 hc hn hlen
    rcases ps with _ | ⟨Q0, rest⟩
    · exact ⟨node_alloc u1, node_build_nil sqrt u fuel u1 [] .null .null, by
        simp [node_alloc, node_polygons]⟩
    · have hP : build_plane u1 [] (Q0 :: rest) = Q0.plane := by simp [build_plane]
      have hty : ∀ Q ∈ Q0 :: rest, polygon_type Q0.plane Q ≠ 3 := fun Q hQ h3 =>
        hn Q hQ Q0 (List.mem_cons_self _ _) (spanning_of_polygon_type h3)
      obtain ⟨perm, mf, mb⟩ := split_parts_perm sqrt Q0.plane (Q0 :: rest) hty
      have hown := build_own_head (hc Q0 (List.mem_cons_self _ _)) rest
      have hl := perm.length_eq
      simp only [List.length_append] at hl
      have hpos : 0 < ((Q0 :: rest).flatMap (build_own Q0.plane)).length :=
        List.length_pos_of_mem hown
      have sub : ∀ l : List (Polygon K), (∀ q ∈ l, q ∈ Q0 :: rest) → l.length < fuel →
          ∃ c, build_sub sqrt u fuel .null l = some c ∧ (node_polygons c []).Perm l := by
        intro l hl1 hl2
        unfold build_sub
        by_cases h0 : l.length = 0
        · rw [if_neg (by simpa using h0)]
          have : l = [] := List.length_eq_zero.mp h0
          subst this
          exact ⟨.null, rfl, by simp [node_polygons]⟩
        · rw [if_pos h0]
          exact ih l u (fun p hp => hc p (hl1 p hp))
            (fun p hp q hq => hn p (hl1 p hp) q (hl1 q hq)) hl2
      obtain ⟨F1, f1, f2⟩ := sub _ mf (by simp only [List.length_cons] at hlen hl; omega)
      obtain ⟨B1, b1, b2⟩ := sub _ mb (by simp only [List.length_cons] at hlen hl; omega)
      refine ⟨_, (node_build_eq_some (List.cons_ne_nil _ _)).2
        ⟨F1, B1, by rw [hP]; exact f1, by rw [hP]; exact b1, rfl⟩, ?_⟩
      rw [node_polygons_node, hP]
      simp only [List.nil_append]
      exact ((List.Perm.append (List.Perm.append (List.Perm.refl _) f2) b2)).trans perm

theorem node_polygons_invert (t : Node K) :
    (node_polygons (node_invert t) []).Perm ((node_polygons t []).map polygon_flip) := by
  induction t with
  | null => simp [node_invert, node_polygons]
  | node P own F B ihF ihB =>
    rw [node_invert, node_polygons_node, node_polygons_node]
    simp only [List.map_append, List.append_assoc]
    exact List.Perm.append_left _ ((List.perm_append_comm).trans (List.Perm.append ihF ihB))

theorem signed_dist_flip (P : Plane K) (x : Vector K) :
    signed_dist (plane_flip P) x = -signed_dist P x := by
  simp only [signed_dist, plane_flip, vec_neg, vec_dot]
  ring

theorem spanning_flip {P : Plane K} {Q : Polygon K}
    (h : spanning (plane_flip P) (polygon_flip Q)) : spanning P Q := by
  unfold spanning at *
  simp only [polygon_flip, vertex_flip, signed_dist_flip] at h
  obtain ⟨h1, h2⟩ := h
  constructor
  · rcases h2 with h | h | h
    · exact Or.inr (Or.inr (by linarith))
    · exact Or.inr (Or.inl (by linarith))
    · exact Or.inl (by linarith)
  · rcases h1 with h | h | h
    · exact Or.inr (Or.inr (by linarith))
    · exact Or.inr (Or.inl (by linarith))
    · exact Or.inl (by linarith)

/-- C3: for a mesh with consistent cached planes in which no triangle spans the cached
plane of another, applying `csg_inverse` twice returns a permutation of the mesh, every
triangle restored exactly. -/
theorem csg_inverse_inverse (sqrt : K → K) (m : List (Polygon K))
    (hc : ∀ p ∈ m, consistent sqrt p) (hn : ∀ p ∈ m, ∀ q ∈ m, ¬ spanning q.plane p)
    (fuel : Nat) (hf : m.length < fuel) (ua ub : Plane K) :
    ∃ out1 out2, csg_inverse sqrt fuel ua m = some out1 ∧
      csg_inverse sqrt fuel ub out1 = some out2 ∧ out2.Perm m := by
  obtain ⟨t1, b1, p1⟩ := node_build_fresh_nospan sqrt ua fuel m ua hc hn hf
  have q1 : (node_polygons (node_invert t1) []).Perm (m.map polygon_flip) :=
    (node_polygons_invert t1).trans (p1.map polygon_flip)
  have mem1 : ∀ p ∈ node_polygons (node_invert t1) [], ∃ q ∈ m, p = polygon_flip q := by
    intro p hp
    obtain ⟨q, hq, rfl⟩ := List.mem_map.mp (q1.mem_iff.mp hp)
    exact ⟨q, hq, rfl⟩
  obtain ⟨t2, b2, p2⟩ := node_build_fresh_nospan sqrt ub fuel
    (node_polygons (node_invert t1) []) ub
    (by
      intro p hp
      obtain ⟨q, hq, rfl⟩ := mem1 p hp
      exact consistent_flip (hc q hq))
    (by
      intro p hp q hq hs
      obtain ⟨p1, hp1, rfl⟩ := mem1 p hp
      obtain ⟨q1, hq1, rfl⟩ := mem1 q hq
      exact hn p1 hp1 q1 hq1 (spanning_flip hs))
    (by rw [q1.length_eq, List.length_map]; exact hf)
  refine ⟨node_polygons (node_invert t1) [], node_polygons (node_invert t2) [], ?_, ?_, ?_⟩
  · simp [csg_inverse, node_from_polygons, b1]
  · simp [csg_inverse, node_from_polygons, b2]
  · have h := (node_polygons_invert t2).trans ((p2.trans q1).map polygon_flip)
    rwa [map_polygon_flip_flip] at h

/-- Witness for C3: the unit cube. -/
theorem csg_inverse_inverse_witness :
    ∃ out1 out2, csg_inverse Rat.sqrt 13 plane_z0 unit_cube = some out1 ∧
      csg_inverse Rat.sqrt 13 plane_z0 out1 = some out2 ∧ out2.Perm unit_cube :=
  csg_inverse_inverse Rat.sqrt unit_cube (by decide!) (by decide!) 13 (by decide) plane_z0
    plane_z0

theorem node_build_alloc (sqrt : K → K) (v u u1 : Plane K) (fuel : Nat)
    {l : List (Polygon K)} (hl : l ≠ []) :
    node_build sqrt v fuel (node_alloc u) l = node_build sqrt v fuel (node_alloc u1) l := by
  cases fuel with
  | zero => simp [node_build]
  | succ fuel =>
    obtain ⟨Q, rest, rfl⟩ := List.exists_cons_of_ne_nil hl
    simp only [node_alloc, node_build_succ_bind, build_plane, List.length_nil, if_true]
    rw [if_neg hl, if_neg hl]

theorem node_build_u (sqrt : K → K) (u u1 : Plane K) (fuel : Nat) :
    ∀ (t : Node K) (ps : List (Polygon K)),
      node_build sqrt u fuel t ps = node_build sqrt u1 fuel t ps := by
  induction fuel with
  | zero => intro t ps; simp [node_build]
  | succ fuel ih =>
    intro t ps
    cases t with
    | null => simp [node_build]
    | node P own F B =>
      have sub : ∀ (c : Node K) (l : List (Polygon K)),
          build_sub sqrt u fuel c l = build_sub sqrt u1 fuel c l := by
        intro c l
        unfold build_sub
        by_cases h0 : l.length = 0
        · rw [if_neg (by simpa using h0), if_neg (by simpa using h0)]
        · rw [if_pos h0, if_pos h0, ih]
          unfold build_child
          split_ifs
          · exact node_build_alloc sqrt u1 u u1 fuel (fun h => h0 (by rw [h]; rfl))
          · rfl
      simp only [node_build_succ_bind, sub]

theorem node_from_polygons_u (sqrt : K → K) (u u1 : Plane K) (fuel : Nat)
    {m : List (Polygon K)} (hm : m ≠ []) :
    node_from_polygons sqrt u fuel m = node_from_polygons sqrt u1 fuel m := by
  unfold node_from_polygons
  rw [node_build_u sqrt u u1, node_build_alloc sqrt u1 u u1 fuel hm]

theorem csg_difference_u (sqrt : K → K) (fuel : Nat) (ua ub ua1 ub1 : Plane K)
    {m1 m2 : List (Polygon K)} (h1 : m1 ≠ []) (h2 : m2 ≠ []) :
    csg_difference sqrt fuel ua ub m1 m2 = csg_difference sqrt fuel ua1 ub1 m1 m2 := by
  unfold csg_difference node_build_from
  rw [node_from_polygons_u sqrt ua ua1 fuel h1, node_from_polygons_u sqrt ub ub1 fuel h2]
  simp only [node_build_u sqrt ua ua1]

theorem node_from_polygons_mono (sqrt : K → K) (u : Plane K) {fuel fuel1 : Nat}
    (hle : fuel ≤ fuel1) {m : List (Polygon K)} {r : Node K}
    (h : node_from_polygons sqrt u fuel m = some r) :
    node_from_polygons sqrt u fuel1 m = some r :=
  node_build_mono_le sqrt u hle h

theorem csg_difference_mono (sqrt : K → K) {fuel fuel1 : Nat} (hle : fuel ≤ fuel1)
    (ua ub : Plane K) (m1 m2 out : List (Polygon K))
    (h : csg_difference sqrt fuel ua ub m1 m2 = some out) :
    csg_difference sqrt fuel1 ua ub m1 m2 = some out := by
  unfold csg_difference node_build_from at *
  simp only [bind, Option.bind_eq_some, pure, Option.some.injEq] at h ⊢
  obtain ⟨a, ha, b, hb, c, hc, rfl⟩ := h
  exact ⟨a, node_from_polygons_mono sqrt ua hle ha, b, node_from_polygons_mono sqrt ub hle hb,
    c, node_build_mono_le sqrt ua hle hc, rfl⟩

/-- C1: `csg_difference` of the unit cube with itself returns the empty list, for every
fuel of at least 6 and whatever the allocated roots held. -/
theorem csg_difference_unit_cube (fuel : Nat) (hf : 6 ≤ fuel) (ua ub : Plane ℚ) :
    csg_difference Rat.sqrt fuel ua ub unit_cube unit_cube = some [] := by
  have h6 : csg_difference Rat.sqrt 6 ⟨⟨0, 0, 0⟩, 0⟩ ⟨⟨0, 0, 0⟩, 0⟩ unit_cube unit_cube =
      some [] := by decide!
  have hne : unit_cube ≠ [] := by simp [unit_cube]
  rw [csg_difference_u Rat.sqrt fuel ua ub ⟨⟨0, 0, 0⟩, 0⟩ ⟨⟨0, 0, 0⟩, 0⟩ hne hne]
  exact csg_difference_mono Rat.sqrt hf _ _ _ _ _ h6

/-- Witness for C1 at fuel 6. -/
theorem csg_difference_unit_cube_witness :
    csg_difference Rat.sqrt 6 plane_z0 plane_z0 unit_cube unit_cube = some [] :=
  csg_difference_unit_cube 6 (le_refl 6) plane_z0 plane_z0

theorem vec_dot_unit_pos (a : Vector ℝ) (h : a ≠ ⟨0, 0, 0⟩) :
    0 < vec_dot (vec_unit Real.sqrt a) (vec_unit Real.sqrt a) := by
  have hpos : 0 < vec_dot a a := by
    unfold vec_dot
    rcases a with ⟨x, y, z⟩
    have hne : x ≠ 0 ∨ y ≠ 0 ∨ z ≠ 0 := by
      by_contra hc
      push_neg at hc
      apply h
      simp [hc.1, hc.2.1, hc.2.2]
    simp only
    rcases hne with h1 | h1 | h1
    · have := mul_self_pos.mpr h1; nlinarith [mul_self_nonneg y, mul_self_nonneg z]
    · have := mul_self_pos.mpr h1; nlinarith [mul_self_nonneg x, mul_self_nonneg z]
    · have := mul_self_pos.mpr h1; nlinarith [mul_self_nonneg x, mul_self_nonneg y]
  have hs : 0 < Real.sqrt (vec_dot a a) := Real.sqrt_pos.mpr hpos
  have e : vec_dot (vec_unit Real.sqrt a) (vec_unit Real.sqrt a) =
      vec_dot a a / (Real.sqrt (vec_dot a a) * Real.sqrt (vec_dot a a)) := by
    simp only [vec_unit, vec_div, vec_len]
    generalize Real.sqrt (vec_dot a a) = s at hs
    simp only [vec_dot]
    field_simp
  rw [e]
  exact div_pos hpos (mul_pos hs hs)

theorem split_of_coplanar_front (sqrt : K → K) {P : Plane K} {Q : Polygon K}
    (h0 : polygon_type P Q = 0) (hd : vec_dot P.normal Q.plane.normal > 0) :
    build_own P Q = [Q] ∧ clip_front sqrt P Q = [Q] ∧ clip_back sqrt P Q = [] ∧
    split_front sqrt P Q = [] ∧ split_back sqrt P Q = [] := by
  simp [build_own, clip_front, clip_back, split_co_front, split_co_back, split_front,
    split_back, h0, hd, COPLANAR]

theorem split_of_coplanar_back (sqrt : K → K) {P : Plane K} {Q : Polygon K}
    (h0 : polygon_type P Q = 0) (hd : ¬ vec_dot P.normal Q.plane.normal > 0) :
    build_own P Q = [Q] ∧ clip_front sqrt P Q = [] ∧ clip_back sqrt P Q = [Q] ∧
    split_front sqrt P Q = [] ∧ split_back sqrt P Q = [] := by
  simp [build_own, clip_front, clip_back, split_co_front, split_co_back, split_front,
    split_back, h0, hd, COPLANAR]

theorem polygon_type_flip_of_coplanar {P : Plane K} {Q : Polygon K}
    (h0 : polygon_type P Q = 0) : polygon_type P (polygon_flip Q) = 0 := by
  rw [polygon_type_coplanar_iff] at h0 ⊢
  obtain ⟨a, b, c⟩ := h0
  have key : ∀ v : Vertex K, vertex_type P (vertex_flip v) = vertex_type P v := by
    intro v; simp [vertex_type, vertex_flip]
  simp only [polygon_flip, key]
  exact ⟨c, b, a⟩

theorem node_from_polygons_single (sqrt : K → K) (u : Plane K) (k : Nat) {T : Polygon K}
    (hT : consistent sqrt T) :
    node_from_polygons sqrt u (k + 1) [T] = some (.node T.plane [T] .null .null) := by
  have c := consistent_polygon_type hT
  have e1 : build_own T.plane T = [T] := by
    unfold build_own split_co_front split_co_back
    by_cases hd : vec_dot T.plane.normal T.plane.normal > 0 <;> simp [c, COPLANAR, hd]
  have e2 : split_front sqrt T.plane T = [] := by simp [split_front, c, COPLANAR]
  have e3 : split_back sqrt T.plane T = [] := by simp [split_back, c, COPLANAR]
  simp [node_from_polygons, node_alloc, node_build_succ_bind, build_plane, build_sub, e1, e2, e3]

/-- The union of two triangles with one and the same cached plane. -/
theorem csg_union_same_plane (T1 T2 : Polygon ℝ) (h1 : consistent Real.sqrt T1)
    (h2 : consistent Real.sqrt T2) (hsame : T2.plane = T1.plane)
    (hnd : vec_cross (vec_sub T1.v1.position T1.v0.position)
      (vec_sub T1.v2.position T1.v0.position) ≠ ⟨0, 0, 0⟩)
    (fuel : Nat) (hf : 1 ≤ fuel) (ua ub : Plane ℝ) :
    csg_union Real.sqrt fuel ua ub [T1] [T2] = some [T1] := by
  obtain ⟨k, rfl⟩ : ∃ k, fuel = k + 1 := ⟨fuel - 1, by omega⟩
  have hdot : vec_dot T1.plane.normal T1.plane.normal > 0 := by
    rw [h1]; exact vec_dot_unit_pos _ hnd
  have t1 : polygon_type T1.plane T1 = 0 := consistent_polygon_type h1
  have t2 : polygon_type T1.plane T2 = 0 := by
    have := consistent_polygon_type h2
    rwa [hsame] at this
  have t3 : polygon_type T1.plane (polygon_flip T2) = 0 := polygon_type_flip_of_coplanar t2
  have d2 : vec_dot T1.plane.normal T2.plane.normal > 0 := by rw [hsame]; exact hdot
  have d3 : ¬ vec_dot T1.plane.normal (polygon_flip T2).plane.normal > 0 := by
    have e : vec_dot T1.plane.normal (polygon_flip T2).plane.normal =
        -vec_dot T1.plane.normal T1.plane.normal := by
      simp only [polygon_flip, plane_flip, hsame, vec_neg, vec_dot]
      ring
    rw [e]; linarith
  obtain ⟨_, a2, _, _, _⟩ := split_of_coplanar_front Real.sqrt t1 hdot
  obtain ⟨_, b2, _, _, _⟩ := split_of_coplanar_front Real.sqrt t2 d2
  obtain ⟨_, c2, _, _, _⟩ := split_of_coplanar_back Real.sqrt t3 d3
  have ea := node_from_polygons_single Real.sqrt ua k h1
  have eb := node_from_polygons_single Real.sqrt ub k h2
  rw [hsame] at eb
  have s1 : node_clip_to Real.sqrt (.node T1.plane [T1] .null .null)
      (.node T1.plane [T2] .null .null) = .node T1.plane [T1] .null .null := by
    simp [node_clip_to, node_clip_polygons_node, Node.isNull, a2]
  have s2 : node_clip_to Real.sqrt (.node T1.plane [T2] .null .null)
      (.node T1.plane [T1] .null .null) = .node T1.plane [T2] .null .null := by
    simp [node_clip_to, node_clip_polygons_node, Node.isNull, b2]
  have s3 : node_invert (.node T1.plane [T2] .null .null) =
      .node (plane_flip T1.plane) [polygon_flip T2] .null .null := by
    simp [node_invert]
  have s4 : node_clip_to Real.sqrt (.node (plane_flip T1.plane) [polygon_flip T2] .null .null)
      (.node T1.plane [T1] .null .null) = .node (plane_flip T1.plane) [] .null .null := by
    simp [node_clip_to, node_clip_polygons_node, Node.isNull, c2]
  have s5 : node_invert (.node (plane_flip T1.plane) [] .null .null) =
      (.node T1.plane [] .null .null : Node ℝ) := by
    simp [node_invert, plane_flip_flip]
  have s6 : node_polygons (.node T1.plane [] .null .null : Node ℝ) [] = [] := by
    simp [node_polygons]
  have s7 : node_polygons (.node T1.plane [T1] .null .null : Node ℝ) [] = [T1] := by
    simp [node_polygons]
  simp only [csg_union, ea, eb, Option.bind_eq_bind, Option.some_bind, s1, s2, s3, s4, s5,
    node_build_from, s6, node_build_nil, s7, Option.pure_def]

theorem vec_unit_zero : vec_unit Real.sqrt (⟨0, 0, 0⟩ : Vector ℝ) = ⟨0, 0, 0⟩ := by
  simp [vec_unit, vec_div]

theorem vec_dot_unit_self (a : Vector ℝ) (h : a ≠ ⟨0, 0, 0⟩) :
    vec_dot (vec_unit Real.sqrt a) (vec_unit Real.sqrt a) = 1 ∧ 0 < vec_len Real.sqrt a := by
  have hpos : 0 < vec_dot a a := by
    unfold vec_dot
    rcases a with ⟨x, y, z⟩
    have hne : x ≠ 0 ∨ y ≠ 0 ∨ z ≠ 0 := by
      by_contra hc
      push_neg at hc
      apply h
      simp [hc.1, hc.2.1, hc.2.2]
    simp only
    rcases hne with h1 | h1 | h1
    · have := mul_self_pos.mpr h1; nlinarith [mul_self_nonneg y, mul_self_nonneg z]
    · have := mul_self_pos.mpr h1; nlinarith [mul_self_nonneg x, mul_self_nonneg z]
    · have := mul_self_pos.mpr h1; nlinarith [mul_self_nonneg x, mul_self_nonneg y]
  have hs : 0 < Real.sqrt (vec_dot a a) := Real.sqrt_pos.mpr hpos
  have hss : Real.sqrt (vec_dot a a) * Real.sqrt (vec_dot a a) = vec_dot a a :=
    Real.mul_self_sqrt hpos.le
  refine ⟨?_, hs⟩
  have e : vec_dot (vec_unit Real.sqrt a) (vec_unit Real.sqrt a) =
      vec_dot a a / (Real.sqrt (vec_dot a a) * Real.sqrt (vec_dot a a)) := by
    simp only [vec_unit, vec_div, vec_len]
    generalize Real.sqrt (vec_dot a a) = s at hs
    simp only [vec_dot]
    field_simp
  rw [e, hss]
  exact div_self hpos.ne'

theorem cross_parallel (n u v : Vector K) (hu : vec_dot n u = 0) (hv : vec_dot n v = 0) :
    vec_dot (vec_cross u v) (vec_cross u v) * n.x =
      (vec_cross u v).x * vec_dot (vec_cross u v) n ∧
    vec_dot (vec_cross u v) (vec_cross u v) * n.y =
      (vec_cross u v).y * vec_dot (vec_cross u v) n ∧
    vec_dot (vec_cross u v) (vec_cross u v) * n.z =
      (vec_cross u v).z * vec_dot (vec_cross u v) n := by
  simp only [vec_dot, vec_cross] at hu hv ⊢
  refine ⟨?_, ?_, ?_⟩
  · linear_combination
      ((u.z * v.x - u.x * v.z) * u.z - (u.x * v.y - u.y * v.x) * u.y) * hv -
      ((u.z * v.x - u.x * v.z) * v.z - (u.x * v.y - u.y * v.x) * v.y) * hu
  · linear_combination
      ((u.x * v.y - u.y * v.x) * u.x - (u.y * v.z - u.z * v.y) * u.z) * hv -
      ((u.x * v.y - u.y * v.x) * v.x - (u.y * v.z - u.z * v.y) * v.z) * hu
  · linear_combination
      ((u.y * v.z - u.z * v.y) * u.y - (u.z * v.x - u.x * v.z) * u.x) * hv -
      ((u.y * v.z - u.z * v.y) * v.y - (u.z * v.x - u.x * v.z) * v.x) * hu

/-- Two triangles with consistent cached planes, the second lying exactly on the cached
plane of the first and facing the same way, have the same cached plane. -/
theorem same_plane_of_on_plane (T1 T2 : Polygon ℝ) (h1 : consistent Real.sqrt T1)
    (h2 : consistent Real.sqrt T2)
    (hon : signed_dist T1.plane T2.v0.position = 0 ∧ signed_dist T1.plane T2.v1.position = 0 ∧
      signed_dist T1.plane T2.v2.position = 0)
    (hface : 0 < vec_dot T1.plane.normal T2.plane.normal) :
    T2.plane = T1.plane ∧
    vec_cross (vec_sub T1.v1.position T1.v0.position)
      (vec_sub T1.v2.position T1.v0.position) ≠ ⟨0, 0, 0⟩ := by
  have nd1 : vec_cross (vec_sub T1.v1.position T1.v0.position)
      (vec_sub T1.v2.position T1.v0.position) ≠ ⟨0, 0, 0⟩ := by
    intro h0
    rw [h1] at hface
    simp only [plane_from_points, h0, vec_unit_zero, vec_dot] at hface
    simp at hface
  have nd2 : vec_cross (vec_sub T2.v1.position T2.v0.position)
      (vec_sub T2.v2.position T2.v0.position) ≠ ⟨0, 0, 0⟩ := by
    intro h0
    rw [h2] at hface
    simp only [plane_from_points, h0, vec_unit_zero, vec_dot] at hface
    simp at hface
  refine ⟨?_, nd1⟩
  obtain ⟨u1, _⟩ := vec_dot_unit_self _ nd1
  obtain ⟨u2, s2⟩ := vec_dot_unit_self _ nd2
  have e1 : T1.plane.normal = vec_unit Real.sqrt (vec_cross (vec_sub T1.v1.position T1.v0.position)
      (vec_sub T1.v2.position T1.v0.position)) := by rw [h1]; rfl
  have e2 : T2.plane.normal = vec_unit Real.sqrt (vec_cross (vec_sub T2.v1.position T2.v0.position)
      (vec_sub T2.v2.position T2.v0.position)) := by rw [h2]; rfl
  have w2 : T2.plane.w = vec_dot T2.plane.normal T2.v0.position := by rw [h2]; rfl
  rw [← e1] at u1
  rw [← e2] at u2
  obtain ⟨o0, o1, o2⟩ := hon
  -- the normal of `T1` is orthogonal to the two edges of `T2`
  have hu : vec_dot T1.plane.normal (vec_sub T2.v1.position T2.v0.position) = 0 := by
    simp only [signed_dist, vec_dot, vec_sub] at o0 o1 ⊢
    linarith
  have hv : vec_dot T1.plane.normal (vec_sub T2.v2.position T2.v0.position) = 0 := by
    simp only [signed_dist, vec_dot, vec_sub] at o0 o2 ⊢
    linarith
  -- hence it is a multiple of the normal of `T2`
  set N := vec_cross (vec_sub T2.v1.position T2.v0.position)
    (vec_sub T2.v2.position T2.v0.position) with hN
  set s := vec_len Real.sqrt N with hs
  have hss : s * s = vec_dot N N := Real.mul_self_sqrt (by
    simp only [vec_dot]; nlinarith [mul_self_nonneg N.x, mul_self_nonneg N.y, mul_self_nonneg N.z])
  have n2x : T2.plane.normal.x * s = N.x := by rw [e2]; simp [vec_unit, vec_div, s2.ne']
  have n2y : T2.plane.normal.y * s = N.y := by rw [e2]; simp [vec_unit, vec_div, s2.ne']
  have n2z : T2.plane.normal.z * s = N.z := by rw [e2]; simp [vec_unit, vec_div, s2.ne']
  obtain ⟨px, py, pz⟩ := cross_parallel T1.plane.normal _ _ hu hv
  rw [← hN] at px py pz
  -- with `c = dot(n2, n1)`: `n1 = c n2`, and `c = 1` as both are unit vectors
  set c := vec_dot T2.plane.normal T1.plane.normal with hc
  have hcN : vec_dot N T1.plane.normal = s * c := by
    simp only [hc, vec_dot, ← n2x, ← n2y, ← n2z]; ring
  have s0 : s ≠ 0 := s2.ne'
  have qx : T1.plane.normal.x = c * T2.plane.normal.x := by
    have : s * s * T1.plane.normal.x = s * s * (c * T2.plane.normal.x) := by
      linear_combination T1.plane.normal.x * hss + px + N.x * hcN - s * c * n2x
    exact mul_left_cancel₀ (mul_ne_zero s0 s0) this
  have qy : T1.plane.normal.y = c * T2.plane.normal.y := by
    have : s * s * T1.plane.normal.y = s * s * (c * T2.plane.normal.y) := by
      linear_combination T1.plane.normal.y * hss + py + N.y * hcN - s * c * n2y
    exact mul_left_cancel₀ (mul_ne_zero s0 s0) this
  have qz : T1.plane.normal.z = c * T2.plane.normal.z := by
    have : s * s * T1.plane.normal.z = s * s * (c * T2.plane.normal.z) := by
      linear_combination T1.plane.normal.z * hss + pz + N.z * hcN - s * c * n2z
    exact mul_left_cancel₀ (mul_ne_zero s0 s0) this
  have cpos : 0 < c := by
    have : c = vec_dot T1.plane.normal T2.plane.normal := by simp only [hc, vec_dot]; ring
    rw [this]; exact hface
  have c1 : c = 1 := by
    have hsq : c * c = 1 := by
      have : vec_dot T1.plane.normal T1.plane.normal =
          c * c * vec_dot T2.plane.normal T2.plane.normal := by
        simp only [vec_dot, qx, qy, qz]; ring
      rw [u1, u2] at this
      linarith
    nlinarith
  rw [c1, one_mul] at qx qy qz
  have hn : T2.plane.normal = T1.plane.normal := by
    rcases hp2 : T2.plane.normal with ⟨x2, y2, z2⟩
    rcases hp1 : T1.plane.normal with ⟨x1, y1, z1⟩
    rw [hp1, hp2] at qx qy qz
    simp only at qx qy qz
    rw [qx, qy, qz]
  have hw : T2.plane.w = T1.plane.w := by
    rw [w2, hn]
    simp only [signed_dist] at o0
    linarith
  rcases hq2 : T2.plane with ⟨n2, w2v⟩
  rcases hq1 : T1.plane with ⟨n1, w1v⟩
  rw [hq1, hq2] at hn hw
  simp only at hn hw
  rw [hn, hw]

/-- C2: over the reals, for two triangles with consistent cached planes, the second lying
exactly on the plane of the first and facing the same way (which makes both
non-degenerate), `csg_union [T1] [T2]` returns exactly `[T1]`, for any fuel of at least 1. -/
theorem csg_union_coplanar (T1 T2 : Polygon ℝ) (h1 : consistent Real.sqrt T1)
    (h2 : consistent Real.sqrt T2)
    (hon : signed_dist T1.plane T2.v0.position = 0 ∧ signed_dist T1.plane T2.v1.position = 0 ∧
      signed_dist T1.plane T2.v2.position = 0)
    (hface : 0 < vec_dot T1.plane.normal T2.plane.normal)
    (fuel : Nat) (hf : 1 ≤ fuel) (ua ub : Plane ℝ) :
    csg_union Real.sqrt fuel ua ub [T1] [T2] = some [T1] := by
  obtain ⟨hsame, hnd⟩ := same_plane_of_on_plane T1 T2 h1 h2 hon hface
  exact csg_union_same_plane T1 T2 h1 h2 hsame hnd fuel hf ua ub

/-- Witness for C2: two overlapping triangles in the plane `z = 0`, both facing `+z`. -/
theorem csg_union_coplanar_witness :
    csg_union Real.sqrt 1 ⟨⟨0, 0, 0⟩, 0⟩ ⟨⟨0, 0, 0⟩, 0⟩
        [tri Real.sqrt (vtx 0 0 0) (vtx 1 0 0) (vtx 0 1 0)]
        [tri Real.sqrt (vtx 0 0 0) (vtx 1 0 0) (vtx 1 1 0)] =
      some [tri Real.sqrt (vtx 0 0 0) (vtx 1 0 0) (vtx 0 1 0)] :=
  csg_union_coplanar (tri Real.sqrt (vtx 0 0 0) (vtx 1 0 0) (vtx 0 1 0))
    (tri Real.sqrt (vtx 0 0 0) (vtx 1 0 0) (vtx 1 1 0)) rfl rfl
    (by simp [signed_dist, tri, vtx, plane_from_points, vec_sub, vec_cross, vec_unit, vec_div,
      vec_len, vec_dot])
    (by simp [tri, vtx, plane_from_points, vec_sub, vec_cross, vec_unit, vec_div, vec_len,
      vec_dot])
    1 (le_refl 1) ⟨⟨0, 0, 0⟩, 0⟩ ⟨⟨0, 0, 0⟩, 0⟩

theorem affine_a (a b c : Vector K) : a = affine a b c 0 0 := by
  cases a; simp [affine]

theorem affine_b (a b c : Vector K) : b = affine a b c 1 0 := by
  cases b; simp [affine]

theorem affine_c (a b c : Vector K) : c = affine a b c 0 1 := by
  cases c; simp [affine]

theorem affine_ab (a b c : Vector K) (r : K) : vec_lerp a b r = affine a b c r 0 := by
  simp only [vec_lerp, affine, Vector.mk.injEq]; refine ⟨by ring, by ring, by ring⟩

theorem affine_bc (a b c : Vector K) (r : K) : vec_lerp b c r = affine a b c (1 - r) r := by
  simp only [vec_lerp, affine, Vector.mk.injEq]; refine ⟨by ring, by ring, by ring⟩

theorem affine_ca (a b c : Vector K) (r : K) : vec_lerp c a r = affine a b c 0 (1 - r) := by
  simp only [vec_lerp, affine, Vector.mk.injEq]; refine ⟨by ring, by ring, by ring⟩

theorem vec_unit_scale (n : Vector ℝ) (l : ℝ) (hl : 0 < l) :
    vec_unit Real.sqrt ⟨l * n.x, l * n.y, l * n.z⟩ = vec_unit Real.sqrt n := by
  have hlen : vec_len Real.sqrt ⟨l * n.x, l * n.y, l * n.z⟩ = l * vec_len Real.sqrt n := by
    simp only [vec_len, vec_dot]
    have : l * n.x * (l * n.x) + l * n.y * (l * n.y) + l * n.z * (l * n.z) =
        l ^ 2 * (n.x * n.x + n.y * n.y + n.z * n.z) := by ring
    rw [this, Real.sqrt_mul (sq_nonneg l), Real.sqrt_sq hl.le]
  simp only [vec_unit, vec_div, hlen, Vector.mk.injEq]
  have hl0 : l ≠ 0 := hl.ne'
  refine ⟨mul_div_mul_left _ _ hl0, mul_div_mul_left _ _ hl0, mul_div_mul_left _ _ hl0⟩

theorem plane_from_points_affine (a b c : Vector ℝ) {p0 p1 p2 : Vector ℝ} {s0 t0 s1 t1 s2 t2 : ℝ}
    (h0 : p0 = affine a b c s0 t0) (h1 : p1 = affine a b c s1 t1) (h2 : p2 = affine a b c s2 t2)
    (hpos : 0 < (s1 - s0) * (t2 - t0) - (s2 - s0) * (t1 - t0)) :
    plane_from_points Real.sqrt p0 p1 p2 = plane_from_points Real.sqrt a b c := by
  subst h0 h1 h2
  have hx : vec_cross (vec_sub (affine a b c s1 t1) (affine a b c s0 t0))
      (vec_sub (affine a b c s2 t2) (affine a b c s0 t0)) =
      ⟨((s1 - s0) * (t2 - t0) - (s2 - s0) * (t1 - t0)) * (vec_cross (vec_sub b a) (vec_sub c a)).x,
       ((s1 - s0) * (t2 - t0) - (s2 - s0) * (t1 - t0)) * (vec_cross (vec_sub b a) (vec_sub c a)).y,
       ((s1 - s0) * (t2 - t0) - (s2 - s0) * (t1 - t0)) * (vec_cross (vec_sub b a) (vec_sub c a)).z⟩ := by
    simp only [vec_cross, vec_sub, affine, Vector.mk.injEq]
    refine ⟨by ring, by ring, by ring⟩
  simp only [plane_from_points, hx, vec_unit_scale _ _ hpos, Plane.mk.injEq, true_and]
  simp only [vec_unit, vec_div, vec_dot, vec_cross, vec_sub, affine, div_eq_mul_inv]
  ring

theorem edge_param_bounds {P : Plane K} {v1 v2 : Vertex K}
    (h : (EPS K < signed_dist P v1.position ∧ signed_dist P v2.position < -EPS K) ∨
      (signed_dist P v1.position < -EPS K ∧ EPS K < signed_dist P v2.position)) :
    0 < edge_param P v1 v2 ∧ edge_param P v1 v2 < 1 := by
  have e := @EPS_pos K _
  have hrw : edge_param P v1 v2 =
      signed_dist P v1.position / (signed_dist P v1.position - signed_dist P v2.position) := by
    unfold edge_param signed_dist
    rw [← neg_div_neg_eq]
    congr 1
    · ring
    · simp only [vec_dot, vec_sub]; ring
  rw [hrw]
  rcases h with ⟨h1, h2⟩ | ⟨h1, h2⟩
  · have hd : 0 < signed_dist P v1.position - signed_dist P v2.position := by linarith
    exact ⟨div_pos (by linarith) hd, (div_lt_one hd).mpr (by linarith)⟩
  · have hd : signed_dist P v1.position - signed_dist P v2.position < 0 := by linarith
    exact ⟨div_pos_of_neg_of_neg (by linarith) hd, (div_lt_one_of_neg hd).mpr (by linarith)⟩

theorem split_edge_param (plane : Plane K) (polygon : Polygon K)
    (fb : List (Vertex K) × List (Vertex K)) (i : Nat) :
    split_edge plane polygon fb i =
      (if vertex_types plane polygon i ||| vertex_types plane polygon ((i + 1) % 3) = BOTH then
        ((if vertex_types plane polygon i ≠ BACK then fb.1 ++ [polygon.vertices i] else fb.1) ++
            [vertex_lerp (polygon.vertices i) (polygon.vertices ((i + 1) % 3))
              (edge_param plane (polygon.vertices i) (polygon.vertices ((i + 1) % 3)))],
          (if vertex_types plane polygon i ≠ FRONT then fb.2 ++ [polygon.vertices i] else fb.2) ++
            [vertex_lerp (polygon.vertices i) (polygon.vertices ((i + 1) % 3))
              (edge_param plane (polygon.vertices i) (polygon.vertices ((i + 1) % 3)))])
      else
        (if vertex_types plane polygon i ≠ BACK then fb.1 ++ [polygon.vertices i] else fb.1,
          if vertex_types plane polygon i ≠ FRONT then fb.2 ++ [polygon.vertices i] else fb.2)) := by
  rfl

set_option maxHeartbeats 1000000 in
theorem fan_keep_plane (P : Plane ℝ) (pl : Plane ℝ) (v0 v1 v2 : Vertex ℝ)
    (hQ : pl = plane_from_points Real.sqrt v0.position v1.position v2.position)
    (h3 : vertex_type P v0 ||| vertex_type P v1 ||| vertex_type P v2 = 3) :
    (∀ q ∈ fan_polygons Real.sqrt (split_edges P ⟨pl, v0, v1, v2⟩).1, q.plane = pl) ∧
    (∀ q ∈ fan_polygons Real.sqrt (split_edges P ⟨pl, v0, v1, v2⟩).2, q.plane = pl) := by
  subst hQ
  rcases vertex_type_cases P v0 with h0 | h0 | h0 <;>
  rcases vertex_type_cases P v1 with h1 | h1 | h1 <;>
  rcases vertex_type_cases P v2 with h2 | h2 | h2 <;>
  simp only [h0, h1, h2] at h3 <;>
  first
    | (exfalso; revert h3; decide)
    | skip
  all_goals
    try have r01 := @edge_param_bounds ℝ _ P v0 v1 (by
      first
        | exact Or.inl ⟨vertex_type_eq_one h0, vertex_type_eq_two h1⟩
        | exact Or.inr ⟨vertex_type_eq_two h0, vertex_type_eq_one h1⟩)
    try have r12 := @edge_param_bounds ℝ _ P v1 v2 (by
      first
        | exact Or.inl ⟨vertex_type_eq_one h1, vertex_type_eq_two h2⟩
        | exact Or.inr ⟨vertex_type_eq_two h1, vertex_type_eq_one h2⟩)
    try have r20 := @edge_param_bounds ℝ _ P v2 v0 (by
      first
        | exact Or.inl ⟨vertex_type_eq_one h2, vertex_type_eq_two h0⟩
        | exact Or.inr ⟨vertex_type_eq_two h2, vertex_type_eq_one h0⟩)
    try obtain ⟨r01a, r01b⟩ := r01
    try obtain ⟨r12a, r12b⟩ := r12
    try obtain ⟨r20a, r20b⟩ := r20
    simp [split_edges, split_edge_param, vertex_types, Polygon.vertices, h0, h1, h2, FRONT, BACK,
      BOTH, fan_polygons, fan_polygon, List.range', vertex_lerp]
    repeat' apply And.intro
  all_goals
    refine plane_from_points_affine v0.position v1.position v2.position
      (by first
        | with_reducible exact affine_a _ _ _ | with_reducible exact affine_b _ _ _
        | with_reducible exact affine_c _ _ _ | with_reducible exact affine_ab _ _ _ _
        | with_reducible exact affine_bc _ _ _ _)
      (by first
        | with_reducible exact affine_a _ _ _ | with_reducible exact affine_b _ _ _
        | with_reducible exact affine_c _ _ _ | with_reducible exact affine_ab _ _ _ _
        | with_reducible exact affine_bc _ _ _ _)
      (by first
        | with_reducible exact affine_a _ _ _ | with_reducible exact affine_b _ _ _
        | with_reducible exact affine_c _ _ _ | with_reducible exact affine_ab _ _ _ _
        | with_reducible exact affine_bc _ _ _ _ | with_reducible exact affine_ca _ _ _ _) ?_
    nlinarith

theorem consistent_fan (sqrt : K → K) (f : List (Vertex K)) :
    ∀ q ∈ fan_polygons sqrt f, consistent sqrt q := by
  intro q hq
  unfold fan_polygons at hq
  split_ifs at hq
  · obtain ⟨i, _, rfl⟩ := List.mem_map.mp hq
    rfl
  · simp at hq

theorem splitClosed_consistent (sqrt : K → K) : SplitClosed sqrt (consistent sqrt) := by
  intro P Q hQ
  constructor
  · intro q hq
    unfold split_front at hq
    split_ifs at hq
    · simp at hq
    · rw [List.mem_singleton.mp hq]; exact hQ
    · simp at hq
    · exact consistent_fan sqrt _ q hq
  · intro q hq
    unfold split_back at hq
    split_ifs at hq
    · simp at hq
    · simp at hq
    · rw [List.mem_singleton.mp hq]; exact hQ
    · exact consistent_fan sqrt _ q hq

theorem split_keep_plane (P : Plane ℝ) (Q : Polygon ℝ) (hQ : consistent Real.sqrt Q) :
    (∀ q ∈ split_front Real.sqrt P Q, q.plane = Q.plane) ∧
    (∀ q ∈ split_back Real.sqrt P Q, q.plane = Q.plane) := by
  rcases polygon_type_cases P Q with c | c | c | c
  · simp [split_front, split_back, c, COPLANAR]
  · simp [split_front, split_back, c, COPLANAR, FRONT]
  · simp [split_front, split_back, c, COPLANAR, FRONT, BACK]
  · have h3 := c
    rw [polygon_type_eq] at h3
    have key := fan_keep_plane P Q.plane Q.v0 Q.v1 Q.v2 hQ h3
    simpa [split_front, split_back, c, COPLANAR, FRONT, BACK] using key

theorem split_nonempty_plane_ne {sqrt : K → K} {P : Plane K} {Q : Polygon K}
    (hQ : consistent sqrt Q) (h : split_front sqrt P Q ≠ [] ∨ split_back sqrt P Q ≠ []) :
    Q.plane ≠ P := by
  intro e
  have c := consistent_polygon_type hQ
  rw [e] at c
  rcases h with h | h
  · exact h (by simp [split_front, c, COPLANAR])
  · exact h (by simp [split_back, c, COPLANAR])

theorem nplanes_le_of_planes_subset {l ps : List (Polygon K)}
    (h : ∀ q ∈ l, ∃ Q ∈ ps, q.plane = Q.plane) : nplanes l ≤ nplanes ps := by
  unfold nplanes
  apply Finset.card_le_card
  intro x hx
  simp only [List.mem_toFinset, List.mem_map] at hx ⊢
  obtain ⟨q, hq, rfl⟩ := hx
  obtain ⟨Q, hQ, e⟩ := h q hq
  exact ⟨Q, hQ, e.symm⟩

theorem nplanes_lt_of_planes_subset {l ps : List (Polygon K)} {Q0 : Polygon K}
    (h0 : Q0 ∈ ps) (h : ∀ q ∈ l, (∃ Q ∈ ps, q.plane = Q.plane) ∧ q.plane ≠ Q0.plane) :
    nplanes l < nplanes ps := by
  unfold nplanes
  apply Finset.card_lt_card
  rw [Finset.ssubset_iff_of_subset]
  · refine ⟨Q0.plane, ?_, ?_⟩
    · simp only [List.mem_toFinset, List.mem_map]
      exact ⟨Q0, h0, rfl⟩
    · simp only [List.mem_toFinset, List.mem_map, not_exists, not_and]
      intro q hq e
      exact (h q hq).2 e
  · intro x hx
    simp only [List.mem_toFinset, List.mem_map] at hx ⊢
    obtain ⟨q, hq, rfl⟩ := hx
    obtain ⟨Q, hQ, e⟩ := (h q hq).1
    exact ⟨Q, hQ, e.symm⟩

theorem flatMap_split_planes (P : Plane ℝ) {ps : List (Polygon ℝ)}
    (hps : ∀ p ∈ ps, consistent Real.sqrt p) :
    (∀ q ∈ ps.flatMap (split_front Real.sqrt P),
      (∃ Q ∈ ps, q.plane = Q.plane) ∧ q.plane ≠ P) ∧
    (∀ q ∈ ps.flatMap (split_back Real.sqrt P),
      (∃ Q ∈ ps, q.plane = Q.plane) ∧ q.plane ≠ P) := by
  constructor
  · intro q hq
    obtain ⟨Q, hQ, hq⟩ := List.mem_flatMap.mp hq
    have e := (split_keep_plane P Q (hps Q hQ)).1 q hq
    refine ⟨⟨Q, hQ, e⟩, ?_⟩
    rw [e]
    exact split_nonempty_plane_ne (hps Q hQ) (Or.inl (List.ne_nil_of_mem hq))
  · intro q hq
    obtain ⟨Q, hQ, hq⟩ := List.mem_flatMap.mp hq
    have e := (split_keep_plane P Q (hps Q hQ)).2 q hq
    refine ⟨⟨Q, hQ, e⟩, ?_⟩
    rw [e]
    exact split_nonempty_plane_ne (hps Q hQ) (Or.inr (List.ne_nil_of_mem hq))

theorem depth_build_child_le (u : Plane K) (c : Node K) : depth (build_child u c) ≤ depth c := by
  unfold build_child
  split_ifs with h
  · simp [node_alloc, depth, Node.isNull]
  · exact le_refl _

theorem build_child_not_null (u : Plane K) (c : Node K) : (build_child u c).isNull = false := by
  unfold build_child
  split_ifs with h
  · rfl
  · simpa using h

/-- Over the reals `node_build` returns on every tree and every batch of polygons with
consistent cached planes, once the fuel exceeds the depth of the tree plus the number of
distinct cached planes in the batch. -/
theorem node_build_total (u : Plane ℝ) (fuel : Nat) :
    ∀ (t : Node ℝ) (ps : List (Polygon ℝ)), t.isNull = false →
      (∀ p ∈ ps, consistent Real.sqrt p) → depth t + nplanes ps < fuel →
      ∃ r, node_build Real.sqrt u fuel t ps = some r := by
  induction fuel with
  | zero => intro t ps _ _ h; omega
  | succ fuel ih =>
    intro t ps hn hps hlt
    cases t with
    | null => simp [Node.isNull] at hn
    | node P own F B =>
      by_cases he : ps = []
      · subst he; exact ⟨_, node_build_nil _ _ _ _ _ _ _⟩
      · obtain ⟨pf, pb⟩ := flatMap_split_planes (build_plane P own ps) hps
        have cf := mem_flatMap_split_front (splitClosed_consistent Real.sqrt)
          (build_plane P own ps) hps
        have cb := mem_flatMap_split_back (splitClosed_consistent Real.sqrt)
          (build_plane P own ps) hps
        have sub : ∀ (c : Node ℝ) (l : List (Polygon ℝ)), (∀ p ∈ l, consistent Real.sqrt p) →
            depth (build_child u c) + nplanes l < fuel →
            ∃ c1, build_sub Real.sqrt u fuel c l = some c1 := by
          intro c l hl hd
          unfold build_sub
          split_ifs
          · exact ih _ l (build_child_not_null u c) hl hd
          · exact ⟨c, rfl⟩
        have hF := depth_build_child_le u F
        have hB := depth_build_child_le u B
        have nf := nplanes_le_of_planes_subset (fun q hq => (pf q hq).1)
        have nb := nplanes_le_of_planes_subset (fun q hq => (pb q hq).1)
        have key : depth (build_child u F) +
              nplanes (ps.flatMap (split_front Real.sqrt (build_plane P own ps))) < fuel ∧
            depth (build_child u B) +
              nplanes (ps.flatMap (split_back Real.sqrt (build_plane P own ps))) < fuel := by
          by_cases hfresh : own.length = 0 ∧ F.isNull ∧ B.isNull
          · obtain ⟨Q0, rest, rfl⟩ := List.exists_cons_of_ne_nil he
            have hP : build_plane P own (Q0 :: rest) = Q0.plane := by
              simp [build_plane, hfresh.1]
            rw [hP] at pf pb ⊢
            have sf := nplanes_lt_of_planes_subset (List.mem_cons_self Q0 rest) pf
            have sb := nplanes_lt_of_planes_subset (List.mem_cons_self Q0 rest) pb
            have d0 : depth (Node.node P own F B) = 0 := by simp [depth, hfresh]
            have dF : depth F = 0 := by
              cases F with
              | null => rfl
              | node _ _ _ _ => simp [Node.isNull] at hfresh
            have dB : depth B = 0 := by
              cases B with
              | null => rfl
              | node _ _ _ _ => simp [Node.isNull] at hfresh
            omega
          · have d1 : depth (Node.node P own F B) = 1 + max (depth F) (depth B) := by
              simp only [depth, if_neg hfresh]
            have m1 := le_max_left (depth F) (depth B)
            have m2 := le_max_right (depth F) (depth B)
            omega
        obtain ⟨F1, hF1⟩ := sub F _ cf key.1
        obtain ⟨B1, hB1⟩ := sub B _ cb key.2
        exact ⟨_, (node_build_eq_some he).2 ⟨F1, B1, hF1, hB1, rfl⟩⟩

theorem plane_agrees_of_consistent {sqrt : K → K} {p : Polygon K} (h : consistent sqrt p) :
    plane_agrees sqrt p := by
  obtain ⟨h0, h1, h2⟩ := consistent_dist h
  have e := @EPS_pos K _
  refine ⟨h, ?_, ?_, ?_⟩ <;> simp [h0, h1, h2] <;> linarith

theorem nplanes_le_length (ps : List (Polygon K)) : nplanes ps ≤ ps.length := by
  unfold nplanes
  exact (List.toFinset_card_le _).trans (by simp)

theorem isNull_clip_to (sqrt : K → K) (t o : Node K) :
    (node_clip_to sqrt t o).isNull = t.isNull := by
  cases t <;> rfl

theorem isNull_invert (t : Node K) : (node_invert t).isNull = t.isNull := by
  cases t <;> rfl

theorem node_build_not_null {sqrt : K → K} {u : Plane K} {fuel : Nat} {t : Node K}
    {ps : List (Polygon K)} {r : Node K} (h : node_build sqrt u fuel t ps = some r) :
    r.isNull = false := by
  cases fuel with
  | zero => simp [node_build] at h
  | succ fuel =>
    cases t with
    | null => simp [node_build] at h
    | node P own F B =>
      by_cases he : ps = []
      · subst he
        rw [node_build_nil] at h
        cases h; rfl
      · obtain ⟨F1, B1, _, _, rfl⟩ := (node_build_eq_some he).1 h
        rfl

theorem node_from_polygons_total (m : List (Polygon ℝ))
    (hm : ∀ p ∈ m, consistent Real.sqrt p) (u : Plane ℝ) (fuel : Nat) (hf : m.length < fuel) :
    ∃ t, node_from_polygons Real.sqrt u fuel m = some t := by
  have hn := nplanes_le_length m
  exact node_build_total u fuel (node_alloc u) m rfl hm (by
    have : depth (node_alloc u) = 0 := by simp [node_alloc, depth, Node.isNull]
    omega)

/-- C6: over the reals, for every finite list of triangles with consistent cached planes
(degenerate ones included), `node_from_polygons` on a fresh node returns a tree as soon as
the fuel exceeds the length of the list. -/
theorem node_from_polygons_terminates (m : List (Polygon ℝ))
    (hm : ∀ p ∈ m, consistent Real.sqrt p) (u : Plane ℝ) (fuel : Nat) (hf : m.length < fuel) :
    ∃ t, node_from_polygons Real.sqrt u fuel m = some t :=
  node_from_polygons_total m hm u fuel hf

theorem from_polygons_stage (m : List (Polygon ℝ)) (hm : ∀ p ∈ m, consistent Real.sqrt p)
    (u : Plane ℝ) :
    ∃ a, (∀ fuel, m.length + 1 ≤ fuel → node_from_polygons Real.sqrt u fuel m = some a) ∧
      AllTree (consistent Real.sqrt) a ∧ a.isNull = false := by
  obtain ⟨a, ha⟩ := node_from_polygons_total m hm u (m.length + 1) (by omega)
  refine ⟨a, fun fuel hf => node_from_polygons_mono Real.sqrt u hf ha, ?_,
    node_build_not_null ha⟩
  exact node_build_all (splitClosed_consistent Real.sqrt) u _ _ _ _ ha
    (by simp [node_alloc, AllTree]) hm

theorem build_from_stage (u : Plane ℝ) (a b : Node ℝ) (ha : a.isNull = false)
    (ca : AllTree (consistent Real.sqrt) a) (cb : AllTree (consistent Real.sqrt) b) :
    ∃ N r, (∀ fuel, N ≤ fuel → node_build_from Real.sqrt u fuel a b = some r) ∧
      AllTree (consistent Real.sqrt) r := by
  have cps := (allTree_iff _ b).1 cb
  obtain ⟨r, hr⟩ := node_build_total u (depth a + nplanes (node_polygons b []) + 1) a
    (node_polygons b []) ha cps (by omega)
  exact ⟨_, r, fun fuel hf => node_build_mono_le Real.sqrt u hf hr,
    node_build_all (splitClosed_consistent Real.sqrt) u _ _ _ _ hr ca cps⟩

theorem clip_stage (t o : Node ℝ) (h : AllTree (consistent Real.sqrt) t) :
    AllTree (consistent Real.sqrt) (node_clip_to Real.sqrt t o) :=
  node_clip_to_all (splitClosed_consistent Real.sqrt) t o h

theorem invert_stage (t : Node ℝ) (h : AllTree (consistent Real.sqrt) t) :
    AllTree (consistent Real.sqrt) (node_invert t) :=
  node_invert_all (fun _ hp => consistent_flip hp) t h

theorem out_stage (t : Node ℝ) (h : AllTree (consistent Real.sqrt) t) :
    ∀ p ∈ node_polygons t [], plane_agrees Real.sqrt p :=
  fun p hp => plane_agrees_of_consistent ((allTree_iff _ t).1 h p hp)

theorem csg_union_total (m1 m2 : List (Polygon ℝ)) (h1 : ∀ p ∈ m1, consistent Real.sqrt p)
    (h2 : ∀ p ∈ m2, consistent Real.sqrt p) (ua ub : Plane ℝ) :
    ∃ N out, (∀ fuel, N ≤ fuel → csg_union Real.sqrt fuel ua ub m1 m2 = some out) ∧
      ∀ p ∈ out, plane_agrees Real.sqrt p := by
  obtain ⟨a0, fa, ca, na⟩ := from_polygons_stage m1 h1 ua
  obtain ⟨b0, fb, cb, _⟩ := from_polygons_stage m2 h2 ub
  have ca1 := clip_stage a0 b0 ca
  have na1 : (node_clip_to Real.sqrt a0 b0).isNull = false := by rw [isNull_clip_to]; exact na
  have cb4 := invert_stage _ (clip_stage _ (node_clip_to Real.sqrt a0 b0)
    (invert_stage _ (clip_stage b0 (node_clip_to Real.sqrt a0 b0) cb)))
  obtain ⟨N3, r, fr, cr⟩ := build_from_stage ua _ _ na1 ca1 cb4
  refine ⟨max (m1.length + 1) (max (m2.length + 1) N3), node_polygons r [], ?_, out_stage r cr⟩
  intro fuel hf
  have e1 := fa fuel (le_trans (le_max_left _ _) hf)
  have e2 := fb fuel (le_trans (le_trans (le_max_left _ _) (le_max_right _ _)) hf)
  have e3 := fr fuel (le_trans (le_trans (le_max_right _ _) (le_max_right _ _)) hf)
  simp only [csg_union, e1, e2, Option.bind_eq_bind, Option.some_bind, e3, Option.pure_def]

theorem csg_difference_total (m1 m2 : List (Polygon ℝ))
    (h1 : ∀ p ∈ m1, consistent Real.sqrt p) (h2 : ∀ p ∈ m2, consistent Real.sqrt p)
    (ua ub : Plane ℝ) :
    ∃ N out, (∀ fuel, N ≤ fuel → csg_difference Real.sqrt fuel ua ub m1 m2 = some out) ∧
      ∀ p ∈ out, plane_agrees Real.sqrt p := by
  obtain ⟨a0, fa, ca, na⟩ := from_polygons_stage m1 h1 ua
  obtain ⟨b0, fb, cb, _⟩ := from_polygons_stage m2 h2 ub
  have ca1 := clip_stage _ b0 (invert_stage a0 ca)
  have na1 : (node_clip_to Real.sqrt (node_invert a0) b0).isNull = false := by
    rw [isNull_clip_to, isNull_invert]; exact na
  have cb4 := invert_stage _ (clip_stage _ (node_clip_to Real.sqrt (node_invert a0) b0)
    (invert_stage _ (clip_stage b0 (node_clip_to Real.sqrt (node_invert a0) b0) cb)))
  obtain ⟨N3, r, fr, cr⟩ := build_from_stage ua _ _ na1 ca1 cb4
  refine ⟨max (m1.length + 1) (max (m2.length + 1) N3), node_polygons (node_invert r) [], ?_,
    out_stage _ (invert_stage r cr)⟩
  intro fuel hf
  have e1 := fa fuel (le_trans (le_max_left _ _) hf)
  have e2 := fb fuel (le_trans (le_trans (le_max_left _ _) (le_max_right _ _)) hf)
  have e3 := fr fuel (le_trans (le_trans (le_max_right _ _) (le_max_right _ _)) hf)
  simp only [csg_difference, e1, e2, Option.bind_eq_bind, Option.some_bind, e3, Option.pure_def]

theorem csg_intersection_total (m1 m2 : List (Polygon ℝ))
    (h1 : ∀ p ∈ m1, consistent Real.sqrt p) (h2 : ∀ p ∈ m2, consistent Real.sqrt p)
    (ua ub : Plane ℝ) :
    ∃ N out, (∀ fuel, N ≤ fuel → csg_intersection Real.sqrt fuel ua ub m1 m2 = some out) ∧
      ∀ p ∈ out, plane_agrees Real.sqrt p := by
  obtain ⟨a0, fa, ca, na⟩ := from_polygons_stage m1 h1 ua
  obtain ⟨b0, fb, cb, _⟩ := from_polygons_stage m2 h2 ub
  have cb2 := invert_stage _ (clip_stage b0 (node_invert a0) cb)
  have ca2 := clip_stage _ (node_invert (node_clip_to Real.sqrt b0 (node_invert a0)))
    (invert_stage a0 ca)
  have na2 : (node_clip_to Real.sqrt (node_invert a0)
      (node_invert (node_clip_to Real.sqrt b0 (node_invert a0)))).isNull = false := by
    rw [isNull_clip_to, isNull_invert]; exact na
  have cb3 := clip_stage _ (node_clip_to Real.sqrt (node_invert a0)
      (node_invert (node_clip_to Real.sqrt b0 (node_invert a0)))) cb2
  obtain ⟨N3, r, fr, cr⟩ := build_from_stage ua _ _ na2 ca2 cb3
  refine ⟨max (m1.length + 1) (max (m2.length + 1) N3), node_polygons (node_invert r) [], ?_,
    out_stage _ (invert_stage r cr)⟩
  intro fuel hf
  have e1 := fa fuel (le_trans (le_max_left _ _) hf)
  have e2 := fb fuel (le_trans (le_trans (le_max_left _ _) (le_max_right _ _)) hf)
  have e3 := fr fuel (le_trans (le_trans (le_max_right _ _) (le_max_right _ _)) hf)
  simp only [csg_intersection, e1, e2, Option.bind_eq_bind, Option.some_bind, e3,
    Option.pure_def]

theorem csg_inverse_total (m1 : List (Polygon ℝ)) (h1 : ∀ p ∈ m1, consistent Real.sqrt p)
    (ua : Plane ℝ) :
    ∃ N out, (∀ fuel, N ≤ fuel → csg_inverse Real.sqrt fuel ua m1 = some out) ∧
      ∀ p ∈ out, plane_agrees Real.sqrt p := by
  obtain ⟨a0, fa, ca, _⟩ := from_polygons_stage m1 h1 ua
  refine ⟨m1.length + 1, node_polygons (node_invert a0) [], ?_, out_stage _ (invert_stage a0 ca)⟩
  intro fuel hf
  simp only [csg_inverse, fa fuel hf, Option.bind_eq_bind, Option.some_bind, Option.pure_def]

/-- C5: over the reals, for input meshes with consistent cached planes each of the four
CSG operations returns (for all sufficiently large fuel) a list in which every polygon's
cached plane is `plane_from_points` of its own vertices, every vertex within `10 ε` of it;
and `polygon_flip` preserves consistency. -/
theorem csg_output_planes (m1 m2 : List (Polygon ℝ)) (h1 : ∀ p ∈ m1, consistent Real.sqrt p)
    (h2 : ∀ p ∈ m2, consistent Real.sqrt p) (ua ub : Plane ℝ) :
    (∃ N, ∀ fuel, N ≤ fuel →
      (∃ out, csg_union Real.sqrt fuel ua ub m1 m2 = some out ∧
        ∀ p ∈ out, plane_agrees Real.sqrt p) ∧
      (∃ out, csg_difference Real.sqrt fuel ua ub m1 m2 = some out ∧
        ∀ p ∈ out, plane_agrees Real.sqrt p) ∧
      (∃ out, csg_intersection Real.sqrt fuel ua ub m1 m2 = some out ∧
        ∀ p ∈ out, plane_agrees Real.sqrt p) ∧
      (∃ out, csg_inverse Real.sqrt fuel ua m1 = some out ∧
        ∀ p ∈ out, plane_agrees Real.sqrt p)) ∧
    (∀ p : Polygon ℝ, consistent Real.sqrt p → consistent Real.sqrt (polygon_flip p)) := by
  obtain ⟨N1, o1, f1, g1⟩ := csg_union_total m1 m2 h1 h2 ua ub
  obtain ⟨N2, o2, f2, g2⟩ := csg_difference_total m1 m2 h1 h2 ua ub
  obtain ⟨N3, o3, f3, g3⟩ := csg_intersection_total m1 m2 h1 h2 ua ub
  obtain ⟨N4, o4, f4, g4⟩ := csg_inverse_total m1 h1 ua
  refine ⟨⟨max (max N1 N2) (max N3 N4), fun fuel hf => ⟨⟨o1, f1 fuel ?_, g1⟩,
    ⟨o2, f2 fuel ?_, g2⟩, ⟨o3, f3 fuel ?_, g3⟩, ⟨o4, f4 fuel ?_, g4⟩⟩⟩,
    fun p hp => consistent_flip hp⟩
  · exact le_trans (le_trans (le_max_left _ _) (le_max_left _ _)) hf
  · exact le_trans (le_trans (le_max_right _ _) (le_max_left _ _)) hf
  · exact le_trans (le_trans (le_max_left _ _) (le_max_right _ _)) hf
  · exact le_trans (le_trans (le_max_right _ _) (le_max_right _ _)) hf

/-- Witness for C5: two crossing triangles. -/
theorem csg_output_planes_witness :
    ∃ N, ∀ fuel, N ≤ fuel →
      ∃ out, csg_union Real.sqrt fuel ⟨⟨0, 0, 0⟩, 0⟩ ⟨⟨0, 0, 0⟩, 0⟩
          [tri Real.sqrt (vtx 0 0 0) (vtx 1 0 0) (vtx 0 1 0)]
          [tri Real.sqrt (vtx 0 0 (-1)) (vtx 1 0 1) (vtx 0 1 1)] = some out ∧
        ∀ p ∈ out, plane_agrees Real.sqrt p := by
  obtain ⟨N, h⟩ := (csg_output_planes [tri Real.sqrt (vtx 0 0 0) (vtx 1 0 0) (vtx 0 1 0)]
    [tri Real.sqrt (vtx 0 0 (-1)) (vtx 1 0 1) (vtx 0 1 1)]
    (by intro p hp; rw [List.mem_singleton.mp hp]; rfl)
    (by intro p hp; rw [List.mem_singleton.mp hp]; rfl) ⟨⟨0, 0, 0⟩, 0⟩ ⟨⟨0, 0, 0⟩, 0⟩).1
  exact ⟨N, fun fuel hf => (h fuel hf).1⟩

theorem signed_dist_lerp (P : Plane K) (a b : Vector K) (t : K) :
    signed_dist P (vec_lerp a b t) =
      signed_dist P a + t * (signed_dist P b - signed_dist P a) := by
  simp only [signed_dist, vec_lerp, vec_dot]
  ring

theorem vertex_types_crossing {P : Plane K} {v1 v2 : Vertex K}
    (h : (vertex_type P v1 = FRONT ∧ vertex_type P v2 = BACK) ∨
      (vertex_type P v1 = BACK ∧ vertex_type P v2 = FRONT)) :
    (EPS K < signed_dist P v1.position ∧ signed_dist P v2.position < -EPS K) ∨
      (signed_dist P v1.position < -EPS K ∧ EPS K < signed_dist P v2.position) := by
  rcases h with ⟨h1, h2⟩ | ⟨h1, h2⟩
  · exact Or.inl ⟨vertex_type_eq_one h1, vertex_type_eq_two h2⟩
  · exact Or.inr ⟨vertex_type_eq_two h1, vertex_type_eq_one h2⟩

theorem edge_denominator_ne_zero {P : Plane K} {v1 v2 : Vertex K}
    (h : (EPS K < signed_dist P v1.position ∧ signed_dist P v2.position < -EPS K) ∨
      (signed_dist P v1.position < -EPS K ∧ EPS K < signed_dist P v2.position)) :
    vec_dot P.normal (vec_sub v2.position v1.position) ≠ 0 := by
  have e := @EPS_pos K _
  have hrw : vec_dot P.normal (vec_sub v2.position v1.position) =
      signed_dist P v2.position - signed_dist P v1.position := by
    simp only [signed_dist, vec_dot, vec_sub]; ring
  rw [hrw]
  rcases h with ⟨h1, h2⟩ | ⟨h1, h2⟩
  · exact ne_of_lt (by linarith)
  · exact ne_of_gt (by linarith)

theorem edge_point_on_plane {P : Plane K} {v1 v2 : Vertex K}
    (h : (EPS K < signed_dist P v1.position ∧ signed_dist P v2.position < -EPS K) ∨
      (signed_dist P v1.position < -EPS K ∧ EPS K < signed_dist P v2.position)) :
    signed_dist P (vec_lerp v1.position v2.position (edge_param P v1 v2)) = 0 := by
  have hd := edge_denominator_ne_zero h
  have hrw : vec_dot P.normal (vec_sub v2.position v1.position) =
      signed_dist P v2.position - signed_dist P v1.position := by
    simp only [signed_dist, vec_dot, vec_sub]; ring
  have hp : edge_param P v1 v2 =
      -signed_dist P v1.position / (signed_dist P v2.position - signed_dist P v1.position) := by
    unfold edge_param
    rw [hrw]
    congr 1
    simp only [signed_dist]; ring
  rw [hrw] at hd
  rw [signed_dist_lerp, hp]
  field_simp

/-- C14: on an edge with one endpoint classified FRONT and the other BACK the denominator
is non-zero, the parameter lies strictly between 0 and 1, the interpolated position lies
exactly on the plane, normal and uv are interpolated with the same parameter, and this is
the vertex the edge loop of `plane_split` appends to both `f` and `b`. -/
theorem edge_intersection (P : Plane K) (v1 v2 : Vertex K)
    (h : (vertex_type P v1 = FRONT ∧ vertex_type P v2 = BACK) ∨
      (vertex_type P v1 = BACK ∧ vertex_type P v2 = FRONT)) :
    vec_dot P.normal (vec_sub v2.position v1.position) ≠ 0 ∧
    0 < (P.w - vec_dot P.normal v1.position) /
        vec_dot P.normal (vec_sub v2.position v1.position) ∧
    (P.w - vec_dot P.normal v1.position) /
        vec_dot P.normal (vec_sub v2.position v1.position) < 1 ∧
    edge_param P v1 v2 = (P.w - vec_dot P.normal v1.position) /
        vec_dot P.normal (vec_sub v2.position v1.position) ∧
    vec_dot P.normal (vertex_lerp v1 v2 (edge_param P v1 v2)).position = P.w ∧
    (vertex_lerp v1 v2 (edge_param P v1 v2)).position =
      vec_lerp v1.position v2.position (edge_param P v1 v2) ∧
    (vertex_lerp v1 v2 (edge_param P v1 v2)).normal =
      vec_lerp v1.normal v2.normal (edge_param P v1 v2) ∧
    (vertex_lerp v1 v2 (edge_param P v1 v2)).uv =
      vec_lerp v1.uv v2.uv (edge_param P v1 v2) ∧
    ∀ (Q : Polygon K) (i : Nat) (fb : List (Vertex K) × List (Vertex K)),
      Q.vertices i = v1 → Q.vertices ((i + 1) % 3) = v2 →
      ∃ f b, split_edge P Q fb i =
        (f ++ [vertex_lerp v1 v2 (edge_param P v1 v2)],
          b ++ [vertex_lerp v1 v2 (edge_param P v1 v2)]) := by
  have hc := vertex_types_crossing h
  obtain ⟨b1, b2⟩ := edge_param_bounds hc
  refine ⟨edge_denominator_ne_zero hc, b1, b2, rfl, ?_, rfl, rfl, rfl, ?_⟩
  · have := edge_point_on_plane hc
    simp only [signed_dist] at this
    simp only [vertex_lerp]
    linarith
  · intro Q i fb e1 e2
    have hb : vertex_types P Q i ||| vertex_types P Q ((i + 1) % 3) = BOTH := by
      simp only [vertex_types, e1, e2]
      rcases h with ⟨h1, h2⟩ | ⟨h1, h2⟩ <;> rw [h1, h2] <;> decide
    rw [split_edge_param, if_pos hb, e1, e2]
    exact ⟨_, _, rfl⟩

/-- Witness for C14: the edge from `(0,0,1)` to `(0,0,-1)` against the plane `z = 0`. -/
theorem edge_intersection_witness :
    (vertex_type plane_z0 (vtx 0 0 1) = FRONT ∧ vertex_type plane_z0 (vtx 0 0 (-1)) = BACK) ∧
    0 < edge_param plane_z0 (vtx 0 0 1) (vtx 0 0 (-1)) ∧
    edge_param plane_z0 (vtx 0 0 1) (vtx 0 0 (-1)) < 1 ∧
    vec_dot plane_z0.normal (vertex_lerp (vtx 0 0 1) (vtx 0 0 (-1))
      (edge_param plane_z0 (vtx 0 0 1) (vtx 0 0 (-1)))).position = plane_z0.w :=
  have h := edge_intersection plane_z0 (vtx 0 0 1) (vtx 0 0 (-1))
    (Or.inl ⟨by decide!, by decide!⟩)
  ⟨⟨by decide!, by decide!⟩, h.2.2.2.1 ▸ h.2.1, h.2.2.2.1 ▸ h.2.2.1, h.2.2.2.2.1⟩

/-- C18: the enumeration of an inverted tree is the flipped own list, then the inverted
back subtree, then the inverted front subtree; it has as many polygons as the original
enumeration and is a permutation of its image under `polygon_flip`, which swaps vertex 0
and vertex 2, negates every vertex normal and negates the cached plane. -/
theorem node_polygons_node_invert :
    (∀ (P : Plane K) (own : List (Polygon K)) (F B : Node K),
      node_polygons (node_invert (.node P own F B)) [] =
        own.map polygon_flip ++ node_polygons (node_invert B) [] ++
          node_polygons (node_invert F) []) ∧
    (∀ t : Node K, (node_polygons (node_invert t) []).length = (node_polygons t []).length ∧
      (node_polygons (node_invert t) []).Perm ((node_polygons t []).map polygon_flip)) ∧
    (∀ p : Polygon K, polygon_flip p =
      ⟨⟨vec_neg p.plane.normal, -p.plane.w⟩,
        ⟨p.v2.position, vec_neg p.v2.normal, p.v2.uv⟩,
        ⟨p.v1.position, vec_neg p.v1.normal, p.v1.uv⟩,
        ⟨p.v0.position, vec_neg p.v0.normal, p.v0.uv⟩⟩) := by
  refine ⟨?_, ?_, fun p => rfl⟩
  · intro P own F B
    rw [node_invert, node_polygons_node]
  · intro t
    have h := node_polygons_invert t
    exact ⟨by rw [h.length_eq, List.length_map], h⟩

theorem vertex_type_flip (P : Plane K) (v : Vertex K) :
    vertex_type (plane_flip P) v = swap_type (vertex_type P v) := by
  have e := @EPS_pos K _
  have hd := signed_dist_flip P v.position
  rcases vertex_type_cases P v with h | h | h
  · rw [h]
    have b1 : -EPS K ≤ signed_dist P v.position := by
      by_contra hn; have := vertex_type_back (not_le.mp hn); omega
    have b2 : signed_dist P v.position ≤ EPS K := by
      by_contra hn; have := vertex_type_front (not_le.mp hn); omega
    exact vertex_type_coplanar (by rw [hd]; linarith) (by rw [hd]; linarith)
  · rw [h]
    have := vertex_type_eq_one h
    exact vertex_type_back (by rw [hd]; linarith)
  · rw [h]
    have := vertex_type_eq_two h
    exact vertex_type_front (by rw [hd]; linarith)

theorem polygon_type_flip (P : Plane K) (Q : Polygon K) :
    polygon_type (plane_flip P) Q = swap_type (polygon_type P Q) := by
  rw [polygon_type_eq, polygon_type_eq]
  simp only [vertex_type_flip]
  rcases vertex_type_cases P Q.v0 with h0 | h0 | h0 <;>
  rcases vertex_type_cases P Q.v1 with h1 | h1 | h1 <;>
  rcases vertex_type_cases P Q.v2 with h2 | h2 | h2 <;>
  rw [h0, h1, h2] <;> decide

theorem edge_param_flip (P : Plane K) (v1 v2 : Vertex K) :
    edge_param (plane_flip P) v1 v2 = edge_param P v1 v2 := by
  unfold edge_param
  rw [← neg_div_neg_eq]
  congr 1
  · simp only [plane_flip, vec_neg, vec_dot]; ring
  · simp only [plane_flip, vec_neg, vec_dot, vec_sub]; ring

theorem split_edge_flip (P : Plane K) (Q : Polygon K)
    (fb : List (Vertex K) × List (Vertex K)) (i : Nat) :
    split_edge (plane_flip P) Q fb i = (split_edge P Q fb.swap i).swap := by
  simp only [split_edge_param, vertex_types, vertex_type_flip, edge_param_flip]
  rcases vertex_type_cases P (Q.vertices i) with h1 | h1 | h1 <;>
  rcases vertex_type_cases P (Q.vertices ((i + 1) % 3)) with h2 | h2 | h2 <;>
  simp [h1, h2, swap_type, FRONT, BACK, BOTH]

theorem split_edges_flip (P : Plane K) (Q : Polygon K) :
    split_edges (plane_flip P) Q = (split_edges P Q).swap := by
  simp only [split_edges, List.foldl_cons, List.foldl_nil, split_edge_flip, Prod.swap_swap]
  rfl

theorem split_front_flip (sqrt : K → K) (P : Plane K) (Q : Polygon K) :
    split_front sqrt (plane_flip P) Q = split_back sqrt P Q ∧
    split_back sqrt (plane_flip P) Q = split_front sqrt P Q := by
  unfold split_front split_back
  rw [polygon_type_flip, split_edges_flip]
  rcases polygon_type_cases P Q with c | c | c | c <;>
    simp [c, swap_type, COPLANAR, FRONT, BACK]

theorem plane_split_lists (sqrt : K → K) (P : Plane K) (Q : Polygon K) :
    plane_split sqrt P Q SplitList.co_front SplitList.co_back SplitList.front SplitList.back
        (fun _ => []) =
      fun l => match l with
        | .co_front => split_co_front P Q
        | .co_back => split_co_back P Q
        | .front => split_front sqrt P Q
        | .back => split_back sqrt P Q := by
  rw [plane_split_eq]
  funext l
  cases l <;> simp [list_extend, Function.update]

/-- C20: splitting by the flipped plane gives the same polygons with front and back
exchanged; coplanar-front and coplanar-back are exchanged when `dot(P.n, Q.plane.n) ≠ 0`,
and when the dot product is 0 a coplanar polygon goes to coplanar-back for both planes. -/
theorem plane_split_flip (sqrt : K → K) (P : Plane K) (Q : Polygon K) :
    (plane_split sqrt (plane_flip P) Q SplitList.co_front SplitList.co_back SplitList.front
        SplitList.back (fun _ => [])) SplitList.front =
      (plane_split sqrt P Q SplitList.co_front SplitList.co_back SplitList.front
        SplitList.back (fun _ => [])) SplitList.back ∧
    (plane_split sqrt (plane_flip P) Q SplitList.co_front SplitList.co_back SplitList.front
        SplitList.back (fun _ => [])) SplitList.back =
      (plane_split sqrt P Q SplitList.co_front SplitList.co_back SplitList.front
        SplitList.back (fun _ => [])) SplitList.front ∧
    (vec_dot P.normal Q.plane.normal ≠ 0 →
      (plane_split sqrt (plane_flip P) Q SplitList.co_front SplitList.co_back SplitList.front
          SplitList.back (fun _ => [])) SplitList.co_front =
        (plane_split sqrt P Q SplitList.co_front SplitList.co_back SplitList.front
          SplitList.back (fun _ => [])) SplitList.co_back ∧
      (plane_split sqrt (plane_flip P) Q SplitList.co_front SplitList.co_back SplitList.front
          SplitList.back (fun _ => [])) SplitList.co_back =
        (plane_split sqrt P Q SplitList.co_front SplitList.co_back SplitList.front
          SplitList.back (fun _ => [])) SplitList.co_front) ∧
    (vec_dot P.normal Q.plane.normal = 0 → polygon_type P Q = COPLANAR →
      plane_split sqrt (plane_flip P) Q SplitList.co_front SplitList.co_back SplitList.front
          SplitList.back (fun _ => []) = list_append (fun _ => []) SplitList.co_back Q ∧
      plane_split sqrt P Q SplitList.co_front SplitList.co_back SplitList.front
          SplitList.back (fun _ => []) = list_append (fun _ => []) SplitList.co_back Q) := by
  have hdot : vec_dot (plane_flip P).normal Q.plane.normal = -vec_dot P.normal Q.plane.normal := by
    simp only [plane_flip, vec_neg, vec_dot]; ring
  obtain ⟨e1, e2⟩ := split_front_flip sqrt P Q
  refine ⟨?_, ?_, ?_, ?_⟩
  · simp only [plane_split_lists, e1]
  · simp only [plane_split_lists, e2]
  · intro hne
    simp only [plane_split_lists, split_co_front, split_co_back, polygon_type_flip, hdot]
    rcases lt_or_gt_of_ne hne with hlt | hgt
    · have h1 : ¬ vec_dot P.normal Q.plane.normal > 0 := not_lt.mpr hlt.le
      have h2 : -vec_dot P.normal Q.plane.normal > 0 := by linarith
      rcases polygon_type_cases P Q with c | c | c | c <;>
        simp [c, swap_type, COPLANAR, FRONT, BACK, h1, h2]
    · have h1 : vec_dot P.normal Q.plane.normal > 0 := hgt
      have h2 : ¬ -vec_dot P.normal Q.plane.normal > 0 := by linarith
      rcases polygon_type_cases P Q with c | c | c | c <;>
        simp [c, swap_type, COPLANAR, FRONT, BACK, h1, h2]
  · intro h0 hc
    have hc2 : polygon_type (plane_flip P) Q = COPLANAR := by
      rw [polygon_type_flip, hc]; rfl
    unfold plane_split
    rw [if_pos hc2, if_pos hc, hdot, h0]
    simp

theorem polygon_type_of_spanning {P : Plane K} {Q : Polygon K} (h : spanning P Q) :
    polygon_type P Q = 3 := by
  obtain ⟨hf, hb⟩ := h
  rw [polygon_type_eq]
  have hf1 : vertex_type P Q.v0 = 1 ∨ vertex_type P Q.v1 = 1 ∨ vertex_type P Q.v2 = 1 := by
    rcases hf with e | e | e
    · exact Or.inl (vertex_type_front e)
    · exact Or.inr (Or.inl (vertex_type_front e))
    · exact Or.inr (Or.inr (vertex_type_front e))
  have hb1 : vertex_type P Q.v0 = 2 ∨ vertex_type P Q.v1 = 2 ∨ vertex_type P Q.v2 = 2 := by
    rcases hb with e | e | e
    · exact Or.inl (vertex_type_back e)
    · exact Or.inr (Or.inl (vertex_type_back e))
    · exact Or.inr (Or.inr (vertex_type_back e))
  rcases vertex_type_cases P Q.v0 with h0 | h0 | h0 <;>
  rcases vertex_type_cases P Q.v1 with h1 | h1 | h1 <;>
  rcases vertex_type_cases P Q.v2 with h2 | h2 | h2 <;>
  rw [h0, h1, h2] at hf1 hb1 ⊢ <;>
  first
    | decide
    | (exfalso; revert hf1 hb1; decide)

theorem split_edges_length (P : Plane K) (Q : Polygon K) (h3 : polygon_type P Q = 3) :
    (split_edges P Q).1.length = count_type P Q FRONT + 2 ∧
    (split_edges P Q).2.length = count_type P Q BACK + 2 ∧
    count_type P Q COPLANAR ≤ 1 ∧
    1 ≤ count_type P Q FRONT ∧ 1 ≤ count_type P Q BACK ∧
    count_type P Q FRONT + count_type P Q BACK + count_type P Q COPLANAR = 3 := by
  rw [polygon_type_eq] at h3
  rcases Q with ⟨pl, v0, v1, v2⟩
  simp only at h3
  rcases vertex_type_cases P v0 with h0 | h0 | h0 <;>
  rcases vertex_type_cases P v1 with h1 | h1 | h1 <;>
  rcases vertex_type_cases P v2 with h2 | h2 | h2 <;>
  simp only [h0, h1, h2] at h3 <;>
  first
    | (exfalso; revert h3; decide)
    | simp [split_edges, split_edge_param, vertex_types, Polygon.vertices, count_type, h0, h1,
        h2, FRONT, BACK, BOTH, COPLANAR]

theorem fan_polygons_length (sqrt : K → K) (f : List (Vertex K)) :
    (fan_polygons sqrt f).length = f.length - 2 := by
  unfold fan_polygons
  split_ifs with h
  · simp
  · simp; omega

theorem plane_split_of_spanning {ι : Type} [DecidableEq ι] (sqrt : K → K) (P : Plane K)
    (Q : Polygon K) (cf cb f b : ι) (h : Lists ι K) (h3 : polygon_type P Q = 3) :
    plane_split sqrt P Q cf cb f b h =
      list_extend (list_extend h f (fan_polygons sqrt (split_edges P Q).1)) b
        (fan_polygons sqrt (split_edges P Q).2) := by
  rw [plane_split_eq]
  simp [split_co_front, split_co_back, split_front, split_back, h3, COPLANAR, FRONT, BACK]

theorem fan_polygons_get (sqrt : K → K) (f : List (Vertex K)) (j : Nat)
    (hj : j + 2 < f.length) :
    (fan_polygons sqrt f)[j]? =
      some ⟨plane_from_points sqrt (f.get ⟨0, by omega⟩).position
          (f.get ⟨j + 1, by omega⟩).position (f.get ⟨j + 2, hj⟩).position,
        f.get ⟨0, by omega⟩, f.get ⟨j + 1, by omega⟩, f.get ⟨j + 2, hj⟩⟩ := by
  unfold fan_polygons
  rw [if_pos (by omega), List.getElem?_map, List.getElem?_range' _ _ (by omega)]
  simp only [Option.map_some', fan_polygon, mul_one, List.get_eq_getElem]
  have e1 : 2 + 1 * j - 1 = j + 1 := by omega
  have e2 : 2 + 1 * j = j + 2 := by omega
  rw [e1, e2, List.getD_eq_getElem f _ (by omega : j + 1 < f.length),
    List.getD_eq_getElem f _ hj, List.getD_eq_getElem f _ (by omega : 0 < f.length)]

/-- C15: for a spanning triangle both vertex lists have at least 3 vertices and
`plane_split` appends the fan triangles of `f` to front, those of `b` to back and nothing
to the coplanar lists.  The `j`-th triangle appended to front has the vertices `f[0]`,
`f[j+1]`, `f[j+2]` and the plane of their positions, and likewise for back and `b`.  There
are as many front triangles as FRONT vertices and as many back triangles as BACK vertices,
so 3 in total without a vertex within `ε` of the plane and 1 + 1 with one such vertex
(there is never more than one). -/
theorem plane_split_spanning {ι : Type} [DecidableEq ι] (sqrt : K → K) (P : Plane K)
    (Q : Polygon K) (cf cb f b : ι) (h : Lists ι K) (hs : spanning P Q) :
    3 ≤ (split_edges P Q).1.length ∧ 3 ≤ (split_edges P Q).2.length ∧
    plane_split sqrt P Q cf cb f b h =
      list_extend
        (list_extend h f
          ((List.range' 2 ((split_edges P Q).1.length - 2)).map
            (fan_polygon sqrt (split_edges P Q).1)))
        b
        ((List.range' 2 ((split_edges P Q).2.length - 2)).map
          (fan_polygon sqrt (split_edges P Q).2)) ∧
    (∀ (i : Nat) (hi : i < (split_edges P Q).1.length) (h2 : 2 ≤ i),
      fan_polygon sqrt (split_edges P Q).1 i =
        ⟨plane_from_points sqrt ((split_edges P Q).1.get ⟨0, by omega⟩).position
            ((split_edges P Q).1.get ⟨i - 1, by omega⟩).position
            ((split_edges P Q).1.get ⟨i, hi⟩).position,
          (split_edges P Q).1.get ⟨0, by omega⟩, (split_edges P Q).1.get ⟨i - 1, by omega⟩,
          (split_edges P Q).1.get ⟨i, hi⟩⟩) ∧
    (∀ (i : Nat) (hi : i < (split_edges P Q).2.length) (h2 : 2 ≤ i),
      fan_polygon sqrt (split_edges P Q).2 i =
        ⟨plane_from_points sqrt ((split_edges P Q).2.get ⟨0, by omega⟩).position
            ((split_edges P Q).2.get ⟨i - 1, by omega⟩).position
            ((split_edges P Q).2.get ⟨i, hi⟩).position,
          (split_edges P Q).2.get ⟨0, by omega⟩, (split_edges P Q).2.get ⟨i - 1, by omega⟩,
          (split_edges P Q).2.get ⟨i, hi⟩⟩) ∧
    (∀ (j : Nat) (hj : j + 2 < (split_edges P Q).1.length),
      ((plane_split sqrt P Q SplitList.co_front SplitList.co_back SplitList.front
        SplitList.back (fun _ => [])) SplitList.front)[j]? =
        some ⟨plane_from_points sqrt ((split_edges P Q).1.get ⟨0, by omega⟩).position
            ((split_edges P Q).1.get ⟨j + 1, by omega⟩).position
            ((split_edges P Q).1.get ⟨j + 2, hj⟩).position,
          (split_edges P Q).1.get ⟨0, by omega⟩, (split_edges P Q).1.get ⟨j + 1, by omega⟩,
          (split_edges P Q).1.get ⟨j + 2, hj⟩⟩) ∧
    (∀ (j : Nat) (hj : j + 2 < (split_edges P Q).2.length),
      ((plane_split sqrt P Q SplitList.co_front SplitList.co_back SplitList.front
        SplitList.back (fun _ => [])) SplitList.back)[j]? =
        some ⟨plane_from_points sqrt ((split_edges P Q).2.get ⟨0, by omega⟩).position
            ((split_edges P Q).2.get ⟨j + 1, by omega⟩).position
            ((split_edges P Q).2.get ⟨j + 2, hj⟩).position,
          (split_edges P Q).2.get ⟨0, by omega⟩, (split_edges P Q).2.get ⟨j + 1, by omega⟩,
          (split_edges P Q).2.get ⟨j + 2, hj⟩⟩) ∧
    (plane_split sqrt P Q SplitList.co_front SplitList.co_back SplitList.front SplitList.back
      (fun _ => [])) SplitList.co_front = [] ∧
    (plane_split sqrt P Q SplitList.co_front SplitList.co_back SplitList.front SplitList.back
      (fun _ => [])) SplitList.co_back = [] ∧
    ((plane_split sqrt P Q SplitList.co_front SplitList.co_back SplitList.front SplitList.back
      (fun _ => [])) SplitList.front).length = (split_edges P Q).1.length - 2 ∧
    ((plane_split sqrt P Q SplitList.co_front SplitList.co_back SplitList.front SplitList.back
      (fun _ => [])) SplitList.back).length = (split_edges P Q).2.length - 2 ∧
    ((plane_split sqrt P Q SplitList.co_front SplitList.co_back SplitList.front SplitList.back
      (fun _ => [])) SplitList.front).length = count_type P Q FRONT ∧
    ((plane_split sqrt P Q SplitList.co_front SplitList.co_back SplitList.front SplitList.back
      (fun _ => [])) SplitList.back).length = count_type P Q BACK ∧
    count_type P Q COPLANAR ≤ 1 ∧
    (count_type P Q COPLANAR = 0 →
      count_type P Q FRONT + count_type P Q BACK = 3 ∧
      (split_edges P Q).1.length + (split_edges P Q).2.length = 7) ∧
    (count_type P Q COPLANAR = 1 →
      count_type P Q FRONT = 1 ∧ count_type P Q BACK = 1 ∧
      (split_edges P Q).1.length = 3 ∧ (split_edges P Q).2.length = 3) := by
  have h3 := polygon_type_of_spanning hs
  obtain ⟨l1, l2, c1, c2, c3, c4⟩ := split_edges_length P Q h3
  have hps := plane_split_lists sqrt P Q
  have ef : split_front sqrt P Q = fan_polygons sqrt (split_edges P Q).1 := by
    simp [split_front, h3, COPLANAR, FRONT, BACK]
  have eb : split_back sqrt P Q = fan_polygons sqrt (split_edges P Q).2 := by
    simp [split_back, h3, COPLANAR, FRONT, BACK]
  have ff : fan_polygons sqrt (split_edges P Q).1 =
      (List.range' 2 ((split_edges P Q).1.length - 2)).map
        (fan_polygon sqrt (split_edges P Q).1) := by
    unfold fan_polygons; rw [if_pos (by omega)]
  have fb : fan_polygons sqrt (split_edges P Q).2 =
      (List.range' 2 ((split_edges P Q).2.length - 2)).map
        (fan_polygon sqrt (split_edges P Q).2) := by
    unfold fan_polygons; rw [if_pos (by omega)]
  have pin : ∀ (l : List (Vertex K)) (i : Nat) (hi : i < l.length) (h2 : 2 ≤ i),
      fan_polygon sqrt l i =
        ⟨plane_from_points sqrt (l.get ⟨0, by omega⟩).position
            (l.get ⟨i - 1, by omega⟩).position (l.get ⟨i, hi⟩).position,
          l.get ⟨0, by omega⟩, l.get ⟨i - 1, by omega⟩, l.get ⟨i, hi⟩⟩ := by
    intro l i hi h2
    simp only [fan_polygon, List.get_eq_getElem]
    rw [List.getD_eq_getElem l _ (by omega : i - 1 < l.length),
      List.getD_eq_getElem l _ hi, List.getD_eq_getElem l _ (by omega : 0 < l.length)]
  refine ⟨by omega, by omega, ?_, pin _, pin _, ?_, ?_, ?_, ?_, ?_, ?_, ?_, ?_, c1, ?_, ?_⟩
  · rw [plane_split_of_spanning sqrt P Q cf cb f b h h3, ff, fb]
  · intro j hj; rw [hps]; simp only [ef]; exact fan_polygons_get sqrt _ j hj
  · intro j hj; rw [hps]; simp only [eb]; exact fan_polygons_get sqrt _ j hj
  · rw [hps]; simp [split_co_front, h3, COPLANAR]
  · rw [hps]; simp [split_co_back, h3, COPLANAR]
  · rw [hps]; simp only [ef, fan_polygons_length]
  · rw [hps]; simp only [eb, fan_polygons_length]
  · rw [hps]; simp only [ef, fan_polygons_length]; omega
  · rw [hps]; simp only [eb, fan_polygons_length]; omega
  · intro h0; omega
  · intro h1; omega

/-- Witness for C15: the triangle with apex `(0, 0, 1)` and base at height `−1` against the
plane `z = 0`; the two vertex lists and the three triangles appended are written out. -/
theorem plane_split_spanning_witness :
    spanning plane_z0 tri_span ∧
    (3 ≤ (split_edges plane_z0 tri_span).1.length ∧
      3 ≤ (split_edges plane_z0 tri_span).2.length) ∧
    split_edges plane_z0 tri_span =
      ([vtx 0 0 1, vtx (1 / 2) 0 0, vtx 0 (1 / 2) 0],
        [vtx (1 / 2) 0 0, vtx 1 0 (-1), vtx 0 1 (-1), vtx 0 (1 / 2) 0]) ∧
    (plane_split Rat.sqrt plane_z0 tri_span SplitList.co_front SplitList.co_back
        SplitList.front SplitList.back (fun _ => [])) SplitList.front =
      [⟨⟨⟨2 / 3, 2 / 3, 1 / 3⟩, 1 / 3⟩, vtx 0 0 1, vtx (1 / 2) 0 0, vtx 0 (1 / 2) 0⟩] ∧
    (plane_split Rat.sqrt plane_z0 tri_span SplitList.co_front SplitList.co_back
        SplitList.front SplitList.back (fun _ => [])) SplitList.back =
      [⟨⟨⟨2 / 3, 2 / 3, 1 / 3⟩, 1 / 3⟩, vtx (1 / 2) 0 0, vtx 1 0 (-1), vtx 0 1 (-1)⟩,
        ⟨⟨⟨2 / 3, 2 / 3, 1 / 3⟩, 1 / 3⟩, vtx (1 / 2) 0 0, vtx 0 1 (-1), vtx 0 (1 / 2) 0⟩] :=
  have h := plane_split_spanning Rat.sqrt plane_z0 tri_span SplitList.co_front
    SplitList.co_back SplitList.front SplitList.back (fun _ => []) (by decide!)
  ⟨by decide!, ⟨h.1, h.2.1⟩, by decide!, by decide!, by decide!⟩

theorem crossing_vertex_type {P : Plane K} {v1 v2 : Vertex K}
    (h : (vertex_type P v1 = 1 ∧ vertex_type P v2 = 2) ∨
      (vertex_type P v1 = 2 ∧ vertex_type P v2 = 1)) :
    vertex_type P (vertex_lerp v1 v2 (edge_param P v1 v2)) = 0 :=
  vertex_type_of_dist_zero (edge_point_on_plane (vertex_types_crossing h))

theorem fan_types (sqrt : K → K) (P : Plane K) (Q : Polygon K) (h3 : polygon_type P Q = 3) :
    (∀ q ∈ fan_polygons sqrt (split_edges P Q).1, polygon_type P q = 1) ∧
    (∀ q ∈ fan_polygons sqrt (split_edges P Q).2, polygon_type P q = 2) := by
  rw [polygon_type_eq] at h3
  rcases Q with ⟨pl, v0, v1, v2⟩
  simp only at h3
  rcases vertex_type_cases P v0 with h0 | h0 | h0 <;>
  rcases vertex_type_cases P v1 with h1 | h1 | h1 <;>
  rcases vertex_type_cases P v2 with h2 | h2 | h2 <;>
  simp only [h0, h1, h2] at h3 <;>
  first
    | (exfalso; revert h3; decide)
    | skip
  all_goals
    try have x01 := @crossing_vertex_type K _ P v0 v1 (by
      first | exact Or.inl ⟨h0, h1⟩ | exact Or.inr ⟨h0, h1⟩)
    try have x12 := @crossing_vertex_type K _ P v1 v2 (by
      first | exact Or.inl ⟨h1, h2⟩ | exact Or.inr ⟨h1, h2⟩)
    try have x20 := @crossing_vertex_type K _ P v2 v0 (by
      first | exact Or.inl ⟨h2, h0⟩ | exact Or.inr ⟨h2, h0⟩)
    simp [split_edges, split_edge_param, vertex_types, Polygon.vertices, h0, h1, h2, FRONT, BACK,
      BOTH, fan_polygons, fan_polygon, List.range', polygon_type_eq, *]

theorem polygon_type_eq_one {P : Plane K} {Q : Polygon K} (h : polygon_type P Q = 1) :
    (vertex_type P Q.v0 ≠ BACK ∧ vertex_type P Q.v1 ≠ BACK ∧ vertex_type P Q.v2 ≠ BACK) ∧
    (vertex_type P Q.v0 = FRONT ∨ vertex_type P Q.v1 = FRONT ∨ vertex_type P Q.v2 = FRONT) := by
  rw [polygon_type_eq] at h
  rcases vertex_type_cases P Q.v0 with h0 | h0 | h0 <;>
  rcases vertex_type_cases P Q.v1 with h1 | h1 | h1 <;>
  rcases vertex_type_cases P Q.v2 with h2 | h2 | h2 <;>
  rw [h0, h1, h2] at h ⊢ <;>
  first
    | (exfalso; revert h; decide)
    | decide

theorem polygon_type_eq_two {P : Plane K} {Q : Polygon K} (h : polygon_type P Q = 2) :
    (vertex_type P Q.v0 ≠ FRONT ∧ vertex_type P Q.v1 ≠ FRONT ∧ vertex_type P Q.v2 ≠ FRONT) ∧
    (vertex_type P Q.v0 = BACK ∨ vertex_type P Q.v1 = BACK ∨ vertex_type P Q.v2 = BACK) := by
  rw [polygon_type_eq] at h
  rcases vertex_type_cases P Q.v0 with h0 | h0 | h0 <;>
  rcases vertex_type_cases P Q.v1 with h1 | h1 | h1 <;>
  rcases vertex_type_cases P Q.v2 with h2 | h2 | h2 <;>
  rw [h0, h1, h2] at h ⊢ <;>
  first
    | (exfalso; revert h; decide)
    | decide

theorem plane_split_of_front {ι : Type} [DecidableEq ι] (sqrt : K → K) (P : Plane K)
    (Q : Polygon K) (cf cb f b : ι) (h : Lists ι K) (h1 : polygon_type P Q = 1) :
    plane_split sqrt P Q cf cb f b h = list_append h f Q := by
  unfold plane_split
  simp [h1, COPLANAR, FRONT]

theorem plane_split_of_back {ι : Type} [DecidableEq ι] (sqrt : K → K) (P : Plane K)
    (Q : Polygon K) (cf cb f b : ι) (h : Lists ι K) (h2 : polygon_type P Q = 2) :
    plane_split sqrt P Q cf cb f b h = list_append h b Q := by
  unfold plane_split
  simp [h2, COPLANAR, FRONT, BACK]

/-- C16: every triangle a spanning split appends to front has no BACK vertex and at least
one FRONT vertex, every triangle appended to back no FRONT vertex and at least one BACK
vertex; splitting such a fragment again by the same plane appends it unchanged to the same
side and does nothing else. -/
theorem plane_split_stable {ι : Type} [DecidableEq ι] (sqrt : K → K) (P : Plane K)
    (Q : Polygon K) (hs : spanning P Q) :
    (∀ q ∈ (plane_split sqrt P Q SplitList.co_front SplitList.co_back SplitList.front
        SplitList.back (fun _ => [])) SplitList.front,
      (vertex_type P q.v0 ≠ BACK ∧ vertex_type P q.v1 ≠ BACK ∧ vertex_type P q.v2 ≠ BACK) ∧
      (vertex_type P q.v0 = FRONT ∨ vertex_type P q.v1 = FRONT ∨ vertex_type P q.v2 = FRONT) ∧
      ∀ (cf cb f b : ι) (h : Lists ι K),
        plane_split sqrt P q cf cb f b h = list_append h f q) ∧
    (∀ q ∈ (plane_split sqrt P Q SplitList.co_front SplitList.co_back SplitList.front
        SplitList.back (fun _ => [])) SplitList.back,
      (vertex_type P q.v0 ≠ FRONT ∧ vertex_type P q.v1 ≠ FRONT ∧ vertex_type P q.v2 ≠ FRONT) ∧
      (vertex_type P q.v0 = BACK ∨ vertex_type P q.v1 = BACK ∨ vertex_type P q.v2 = BACK) ∧
      ∀ (cf cb f b : ι) (h : Lists ι K),
        plane_split sqrt P q cf cb f b h = list_append h b q) := by
  have h3 := polygon_type_of_spanning hs
  obtain ⟨tf, tb⟩ := fan_types sqrt P Q h3
  have ef : split_front sqrt P Q = fan_polygons sqrt (split_edges P Q).1 := by
    simp [split_front, h3, COPLANAR, FRONT, BACK]
  have eb : split_back sqrt P Q = fan_polygons sqrt (split_edges P Q).2 := by
    simp [split_back, h3, COPLANAR, FRONT, BACK]
  rw [plane_split_lists]
  simp only [ef, eb]
  constructor
  · intro q hq
    have t := tf q hq
    exact ⟨(polygon_type_eq_one t).1, (polygon_type_eq_one t).2,
      fun cf cb f b h => plane_split_of_front sqrt P q cf cb f b h t⟩
  · intro q hq
    have t := tb q hq
    exact ⟨(polygon_type_eq_two t).1, (polygon_type_eq_two t).2,
      fun cf cb f b h => plane_split_of_back sqrt P q cf cb f b h t⟩

/-- Witness for C16: the front fragment of `tri_span` against `z = 0` is stable. -/
theorem plane_split_stable_witness :
    spanning plane_z0 tri_span ∧
    ∀ q ∈ (plane_split Rat.sqrt plane_z0 tri_span SplitList.co_front SplitList.co_back
        SplitList.front SplitList.back (fun _ => [])) SplitList.front,
      plane_split Rat.sqrt plane_z0 q SplitList.co_front SplitList.co_back SplitList.front
        SplitList.back (fun _ => []) = list_append (fun _ => []) SplitList.front q :=
  ⟨by decide!, fun q hq =>
    ((plane_split_stable Rat.sqrt plane_z0 tri_span (by decide!)).1 q hq).2.2
      SplitList.co_front SplitList.co_back SplitList.front SplitList.back (fun _ => [])⟩

theorem vertices_mem (Q : Polygon K) (i : Nat) :
    Q.vertices i = Q.v0 ∨ Q.vertices i = Q.v1 ∨ Q.vertices i = Q.v2 := by
  rcases i with _ | _ | i
  · exact Or.inl rfl
  · exact Or.inr (Or.inl rfl)
  · exact Or.inr (Or.inr rfl)

theorem split_edge_vertices (P : Plane K) (Q : Polygon K)
    (fb : List (Vertex K) × List (Vertex K)) (i : Nat)
    (h : ∀ v, v ∈ fb.1 ∨ v ∈ fb.2 → split_vertex P Q v) :
    ∀ v, v ∈ (split_edge P Q fb i).1 ∨ v ∈ (split_edge P Q fb i).2 → split_vertex P Q v := by
  have hi := vertices_mem Q i
  have hj := vertices_mem Q ((i + 1) % 3)
  have horig : split_vertex P Q (Q.vertices i) := by
    rcases hi with e | e | e
    · exact Or.inl e
    · exact Or.inr (Or.inl e)
    · exact Or.inr (Or.inr (Or.inl e))
  have hx : vertex_types P Q i ||| vertex_types P Q ((i + 1) % 3) = BOTH →
      split_vertex P Q (vertex_lerp (Q.vertices i) (Q.vertices ((i + 1) % 3))
        (edge_param P (Q.vertices i) (Q.vertices ((i + 1) % 3)))) := by
    intro hb
    refine Or.inr (Or.inr (Or.inr ⟨_, _, hi, hj, ?_, rfl⟩))
    simp only [vertex_types] at hb
    rcases vertex_type_cases P (Q.vertices i) with h1 | h1 | h1 <;>
    rcases vertex_type_cases P (Q.vertices ((i + 1) % 3)) with h2 | h2 | h2 <;>
    rw [h1, h2] at hb ⊢ <;>
    first
      | (exfalso; revert hb; decide)
      | decide
  have h1 : ∀ v ∈ fb.1, split_vertex P Q v := fun v hv => h v (Or.inl hv)
  have h2 : ∀ v ∈ fb.2, split_vertex P Q v := fun v hv => h v (Or.inr hv)
  rw [split_edge_param]
  split_ifs with hb c1 c2 c2 c1 c2 c2 <;>
    simp only [List.mem_append, List.mem_singleton, or_imp, forall_and, forall_eq] <;>
    first
      | (have hxb := hx hb; exact ⟨⟨⟨h1, horig⟩, hxb⟩, ⟨⟨h2, horig⟩, hxb⟩⟩)
      | (have hxb := hx hb; exact ⟨⟨⟨h1, horig⟩, hxb⟩, ⟨h2, hxb⟩⟩)
      | (have hxb := hx hb; exact ⟨⟨h1, hxb⟩, ⟨⟨h2, horig⟩, hxb⟩⟩)
      | (have hxb := hx hb; exact ⟨⟨h1, hxb⟩, ⟨h2, hxb⟩⟩)
      | exact ⟨⟨h1, horig⟩, ⟨h2, horig⟩⟩
      | exact ⟨⟨h1, horig⟩, h2⟩
      | exact ⟨h1, ⟨h2, horig⟩⟩
      | exact ⟨h1, h2⟩

theorem split_edges_vertices (P : Plane K) (Q : Polygon K) :
    ∀ v, v ∈ (split_edges P Q).1 ∨ v ∈ (split_edges P Q).2 → split_vertex P Q v := by
  unfold split_edges
  simp only [List.foldl_cons, List.foldl_nil]
  apply split_edge_vertices
  apply split_edge_vertices
  apply split_edge_vertices
  intro v hv
  simp at hv

theorem fan_polygons_mem {sqrt : K → K} {f : List (Vertex K)} {q : Polygon K}
    (hq : q ∈ fan_polygons sqrt f) : q.v0 ∈ f ∧ q.v1 ∈ f ∧ q.v2 ∈ f := by
  unfold fan_polygons at hq
  split_ifs at hq with hl
  · obtain ⟨i, hi, rfl⟩ := List.mem_map.mp hq
    rw [List.mem_range'_1] at hi
    simp only [fan_polygon]
    have k0 : 0 < f.length := by omega
    have k1 : i - 1 < f.length := by omega
    have k2 : i < f.length := by omega
    rw [List.getD_eq_getElem _ _ k0, List.getD_eq_getElem _ _ k1, List.getD_eq_getElem _ _ k2]
    exact ⟨List.getElem_mem _, List.getElem_mem _, List.getElem_mem _⟩
  · simp at hq

theorem split_vertex_closed {ψ : Vector K → Prop} (hψ : SegmentClosed ψ) {P : Plane K}
    {Q : Polygon K} (hQ : all_vertices ψ Q) {v : Vertex K} (hv : split_vertex P Q v) :
    ψ v.position := by
  obtain ⟨q0, q1, q2⟩ := hQ
  have horig : ∀ a, (a = Q.v0 ∨ a = Q.v1 ∨ a = Q.v2) → ψ a.position := by
    rintro a (e | e | e) <;> rw [e] <;> assumption
  rcases hv with e | e | e | ⟨a, b, ha, hb, hc, e⟩
  · exact horig v (Or.inl e)
  · exact horig v (Or.inr (Or.inl e))
  · exact horig v (Or.inr (Or.inr e))
  · obtain ⟨t0, t1⟩ := edge_param_bounds (vertex_types_crossing hc)
    rw [e]
    exact hψ _ _ _ (horig a ha) (horig b hb) t0 t1

/-- A segment-closed property of the three vertex positions is inherited by every
fragment that `plane_split` produces. -/
theorem splitClosed_all_vertices (sqrt : K → K) {ψ : Vector K → Prop} (hψ : SegmentClosed ψ) :
    SplitClosed sqrt (all_vertices ψ) := by
  intro P Q hQ
  have key : ∀ f, (∀ v ∈ f, split_vertex P Q v) → ∀ q ∈ fan_polygons sqrt f,
      all_vertices ψ q := by
    intro f hf q hq
    obtain ⟨m0, m1, m2⟩ := fan_polygons_mem hq
    exact ⟨split_vertex_closed hψ hQ (hf _ m0), split_vertex_closed hψ hQ (hf _ m1),
      split_vertex_closed hψ hQ (hf _ m2)⟩
  have hv := split_edges_vertices P Q
  constructor
  · intro q hq
    unfold split_front at hq
    split_ifs at hq
    · simp at hq
    · rw [List.mem_singleton.mp hq]; exact hQ
    · simp at hq
    · exact key _ (fun v hvm => hv v (Or.inl hvm)) q hq
  · intro q hq
    unfold split_back at hq
    split_ifs at hq
    · simp at hq
    · simp at hq
    · rw [List.mem_singleton.mp hq]; exact hQ
    · exact key _ (fun v hvm => hv v (Or.inr hvm)) q hq

theorem segmentClosed_not_behind (P : Plane K) : SegmentClosed (not_behind P) := by
  intro a b t ha hb t0 t1
  unfold not_behind at *
  rw [signed_dist_lerp]
  nlinarith [mul_nonneg t0.le (sub_nonneg.mpr hb), mul_nonneg (sub_nonneg.mpr t1.le)
    (sub_nonneg.mpr ha)]

theorem segmentClosed_not_in_front (P : Plane K) : SegmentClosed (not_in_front P) := by
  intro a b t ha hb t0 t1
  unfold not_in_front at *
  rw [signed_dist_lerp]
  nlinarith [mul_nonneg t0.le (sub_nonneg.mpr hb), mul_nonneg (sub_nonneg.mpr t1.le)
    (sub_nonneg.mpr ha)]

theorem segmentClosed_within_plane (P : Plane K) : SegmentClosed (within_plane P) := by
  intro a b t ha hb t0 t1
  exact ⟨segmentClosed_not_behind P a b t ha.1 hb.1 t0 t1,
    segmentClosed_not_in_front P a b t ha.2 hb.2 t0 t1⟩

theorem not_behind_of_type {P : Plane K} {v : Vertex K} (h : vertex_type P v ≠ BACK) :
    not_behind P v.position := by
  unfold not_behind
  by_contra hn
  exact h (vertex_type_back (not_le.mp hn))

theorem not_in_front_of_type {P : Plane K} {v : Vertex K} (h : vertex_type P v ≠ FRONT) :
    not_in_front P v.position := by
  unfold not_in_front
  by_contra hn
  exact h (vertex_type_front (not_le.mp hn))

theorem split_front_type (sqrt : K → K) (P : Plane K) (Q : Polygon K) :
    (∀ q ∈ split_front sqrt P Q, polygon_type P q = 1) ∧
    (∀ q ∈ split_back sqrt P Q, polygon_type P q = 2) := by
  rcases polygon_type_cases P Q with c | c | c | c
  · simp [split_front, split_back, c, COPLANAR]
  · simp [split_front, split_back, c, COPLANAR, FRONT]
  · simp [split_front, split_back, c, COPLANAR, FRONT, BACK]
  · simpa [split_front, split_back, c, COPLANAR, FRONT, BACK] using fan_types sqrt P Q c

theorem split_front_not_behind (sqrt : K → K) (P : Plane K) (ps : List (Polygon K)) :
    (∀ q ∈ ps.flatMap (split_front sqrt P), all_vertices (not_behind P) q) ∧
    (∀ q ∈ ps.flatMap (split_back sqrt P), all_vertices (not_in_front P) q) := by
  constructor
  · intro q hq
    obtain ⟨Q, _, hq⟩ := List.mem_flatMap.mp hq
    obtain ⟨⟨a, b, c⟩, _⟩ := polygon_type_eq_one ((split_front_type sqrt P Q).1 q hq)
    exact ⟨not_behind_of_type a, not_behind_of_type b, not_behind_of_type c⟩
  · intro q hq
    obtain ⟨Q, _, hq⟩ := List.mem_flatMap.mp hq
    obtain ⟨⟨a, b, c⟩, _⟩ := polygon_type_eq_two ((split_front_type sqrt P Q).2 q hq)
    exact ⟨not_in_front_of_type a, not_in_front_of_type b, not_in_front_of_type c⟩

theorem build_own_within (P : Plane K) (ps : List (Polygon K)) :
    ∀ q ∈ ps.flatMap (build_own P), all_vertices (within_plane P) q := by
  intro q hq
  obtain ⟨Q, _, hq⟩ := List.mem_flatMap.mp hq
  have hc : polygon_type P q = 0 := by
    unfold build_own split_co_front split_co_back at hq
    rcases List.mem_append.mp hq with h | h <;> split_ifs at h with hh
    · rw [List.mem_singleton.mp h]; exact hh.1
    · simp at h
    · rw [List.mem_singleton.mp h]; exact hh.1
    · simp at h
  obtain ⟨a, b, c⟩ := (polygon_type_coplanar_iff P q).1 hc
  have key : ∀ v : Vertex K, vertex_type P v = 0 → within_plane P v.position := by
    intro v hv
    exact ⟨not_behind_of_type (by rw [hv]; decide), not_in_front_of_type (by rw [hv]; decide)⟩
  exact ⟨key _ a, key _ b, key _ c⟩

theorem bsp_inv_build_child (u : Plane K) (c : Node K) (h : bsp_inv c) :
    bsp_inv (build_child u c) := by
  unfold build_child
  split_ifs
  · simp [node_alloc, bsp_inv, AllTree]
  · exact h

theorem no_hollow_build_child (u : Plane K) (c : Node K) (h : no_hollow c) :
    no_hollow (build_child u c) := by
  unfold build_child
  split_ifs
  · simp [node_alloc, no_hollow, Node.isNull]
  · exact h

theorem allTree_of_isNull (φ : Polygon K → Prop) {t : Node K} (h : t.isNull = true) :
    AllTree φ t := by
  cases t with
  | null => trivial
  | node _ _ _ _ => simp [Node.isNull] at h

/-- `node_build` preserves the node invariants on every tree in which no node has an empty
polygon list together with a child. -/
theorem node_build_inv (sqrt : K → K) (u : Plane K) (fuel : Nat) :
    ∀ (t : Node K) (ps : List (Polygon K)) (r : Node K),
      node_build sqrt u fuel t ps = some r → bsp_inv t → no_hollow t → bsp_inv r := by
  induction fuel with
  | zero => intro t ps r h; simp [node_build] at h
  | succ fuel ih =>
    intro t ps r h hi hn
    cases t with
    | null => simp [node_build] at h
    | node P own F B =>
      by_cases he : ps = []
      · subst he
        rw [node_build_nil] at h
        cases h; exact hi
      · obtain ⟨F1, B1, e1, e2, rfl⟩ := (node_build_eq_some he).1 h
        obtain ⟨i1, i2, i3, i4, i5⟩ := hi
        obtain ⟨n1, n2, n3⟩ := hn
        obtain ⟨sf, sb⟩ := split_front_not_behind sqrt (build_plane P own ps) ps
        have hP : own ≠ [] → build_plane P own ps = P := by
          intro ho
          simp [build_plane, ho]
        have hF : AllTree (all_vertices (not_behind (build_plane P own ps))) F := by
          by_cases ho : own = []
          · exact allTree_of_isNull _ (n1 ho).1
          · rw [hP ho]; exact i2
        have hB : AllTree (all_vertices (not_in_front (build_plane P own ps))) B := by
          by_cases ho : own = []
          · exact allTree_of_isNull _ (n1 ho).2
          · rw [hP ho]; exact i3
        have sub : ∀ (c c1 : Node K) (l : List (Polygon K)),
            build_sub sqrt u fuel c l = some c1 → bsp_inv c → no_hollow c → bsp_inv c1 := by
          intro c c1 l hb hc hnc
          unfold build_sub at hb
          split_ifs at hb
          · exact ih _ _ _ hb (bsp_inv_build_child u c hc) (no_hollow_build_child u c hnc)
          · cases hb; exact hc
        refine ⟨?_, ?_, ?_, sub _ _ _ e1 i4 n2, sub _ _ _ e2 i5 n3⟩
        · intro p hp
          rcases List.mem_append.mp hp with hp | hp
          · have ho : own ≠ [] := List.ne_nil_of_mem hp
            rw [hP ho]; exact i1 p hp
          · exact build_own_within _ ps p hp
        · exact build_sub_all
            (node_build_all (splitClosed_all_vertices sqrt (segmentClosed_not_behind _)) u fuel)
            e1 hF sf
        · exact build_sub_all
            (node_build_all (splitClosed_all_vertices sqrt (segmentClosed_not_in_front _)) u fuel)
            e2 hB sb

/-- C12: over the reals, for every mesh with consistent cached planes `node_from_polygons`
returns a tree (fuel above the length of the mesh) that satisfies both node invariants at
every node. -/
theorem node_from_polygons_inv (m : List (Polygon ℝ)) (hm : ∀ p ∈ m, consistent Real.sqrt p)
    (u : Plane ℝ) (fuel : Nat) (hf : m.length < fuel) :
    ∃ t, node_from_polygons Real.sqrt u fuel m = some t ∧ bsp_inv t := by
  obtain ⟨t, ht⟩ := node_from_polygons_total m hm u fuel hf
  exact ⟨t, ht, node_build_inv Real.sqrt u fuel _ _ _ ht
    (by simp [node_alloc, bsp_inv, AllTree]) (by simp [node_alloc, no_hollow, Node.isNull])⟩

/-- Witness for C12: two triangles, one spanning the plane of the other. -/
theorem node_from_polygons_inv_witness :
    ∃ t, node_from_polygons Real.sqrt ⟨⟨0, 0, 0⟩, 0⟩ 3
        [tri Real.sqrt (vtx 0 0 0) (vtx 1 0 0) (vtx 0 1 0),
          tri Real.sqrt (vtx 0 0 (-1)) (vtx 1 0 1) (vtx 0 1 1)] = some t ∧ bsp_inv t :=
  node_from_polygons_inv
    [tri Real.sqrt (vtx 0 0 0) (vtx 1 0 0) (vtx 0 1 0),
      tri Real.sqrt (vtx 0 0 (-1)) (vtx 1 0 1) (vtx 0 1 1)]
    (by
      intro p hp
      simp only [List.mem_cons, List.mem_singleton, List.not_mem_nil, or_false] at hp
      rcases hp with rfl | rfl <;> rfl)
    ⟨⟨0, 0, 0⟩, 0⟩ 3 (by simp)

theorem within_plane_flip (P : Plane K) (p : Polygon K)
    (h : all_vertices (within_plane P) p) :
    all_vertices (within_plane (plane_flip P)) (polygon_flip p) := by
  obtain ⟨⟨a1, a2⟩, ⟨b1, b2⟩, ⟨c1, c2⟩⟩ := h
  simp only [all_vertices, within_plane, polygon_flip, vertex_flip, signed_dist_flip]
  refine ⟨⟨?_, ?_⟩, ⟨?_, ?_⟩, ⟨?_, ?_⟩⟩ <;> linarith

theorem not_behind_flip (P : Plane K) (p : Polygon K)
    (h : all_vertices (not_in_front P) p) :
    all_vertices (not_behind (plane_flip P)) (polygon_flip p) := by
  obtain ⟨a, b, c⟩ := h
  simp only [not_in_front] at a b c
  simp only [all_vertices, not_behind, polygon_flip, vertex_flip, signed_dist_flip]
  refine ⟨?_, ?_, ?_⟩ <;> linarith

theorem not_in_front_flip (P : Plane K) (p : Polygon K)
    (h : all_vertices (not_behind P) p) :
    all_vertices (not_in_front (plane_flip P)) (polygon_flip p) := by
  obtain ⟨a, b, c⟩ := h
  simp only [not_behind] at a b c
  simp only [all_vertices, not_in_front, polygon_flip, vertex_flip, signed_dist_flip]
  refine ⟨?_, ?_, ?_⟩ <;> linarith

theorem bsp_inv_invert (t : Node K) (h : bsp_inv t) : bsp_inv (node_invert t) := by
  induction t with
  | null => simp [node_invert, bsp_inv]
  | node P own F B ihF ihB =>
    obtain ⟨h1, h2, h3, h4, h5⟩ := h
    refine ⟨?_, node_invert_all (not_behind_flip P) B h3,
      node_invert_all (not_in_front_flip P) F h2, ihB h5, ihF h4⟩
    intro p hp
    obtain ⟨q, hq, rfl⟩ := List.mem_map.mp hp
    exact within_plane_flip P q (h1 q hq)

theorem bsp_inv_clip_to (sqrt : K → K) (t other : Node K) (h : bsp_inv t) :
    bsp_inv (node_clip_to sqrt t other) := by
  induction t with
  | null => simp [node_clip_to, bsp_inv]
  | node P own F B ihF ihB =>
    obtain ⟨h1, h2, h3, h4, h5⟩ := h
    exact ⟨node_clip_polygons_all
        (splitClosed_all_vertices sqrt (segmentClosed_within_plane P)) other own h1,
      node_clip_to_all (splitClosed_all_vertices sqrt (segmentClosed_not_behind P)) F other h2,
      node_clip_to_all (splitClosed_all_vertices sqrt (segmentClosed_not_in_front P)) B other h3,
      ihF h4, ihB h5⟩

theorem skeleton_clip_to (sqrt : K → K) (t other : Node K) :
    skeleton (node_clip_to sqrt t other) = skeleton t := by
  induction t with
  | null => rfl
  | node P own F B ihF ihB => simp [node_clip_to, skeleton, ihF, ihB]

/-- C13: if a tree satisfies both node invariants then so does `node_invert` of it, and so
does the tree after `node_clip_to` against any other tree; `node_clip_to` leaves every plane
and the shape of the tree as they were. -/
theorem node_invert_clip_to_inv (sqrt : K → K) (t : Node K) (h : bsp_inv t) :
    bsp_inv (node_invert t) ∧
    ∀ other : Node K, bsp_inv (node_clip_to sqrt t other) ∧
      skeleton (node_clip_to sqrt t other) = skeleton t :=
  ⟨bsp_inv_invert t h, fun other =>
    ⟨bsp_inv_clip_to sqrt t other h, skeleton_clip_to sqrt t other⟩⟩

/-- Witness for C13: a tree of two levels over the rationals. -/
theorem node_invert_clip_to_inv_witness :
    bsp_inv (Node.node plane_z0 [tri_at 0] (.node ⟨⟨0, 0, 1⟩, 1⟩ [tri_at 1] .null .null) .null) ∧
    (bsp_inv (node_invert
        (Node.node plane_z0 [tri_at 0] (.node ⟨⟨0, 0, 1⟩, 1⟩ [tri_at 1] .null .null) .null)) ∧
      ∀ other : Node ℚ,
        bsp_inv (node_clip_to Rat.sqrt
          (Node.node plane_z0 [tri_at 0] (.node ⟨⟨0, 0, 1⟩, 1⟩ [tri_at 1] .null .null) .null)
          other) ∧
        skeleton (node_clip_to Rat.sqrt
          (Node.node plane_z0 [tri_at 0] (.node ⟨⟨0, 0, 1⟩, 1⟩ [tri_at 1] .null .null) .null)
          other) =
        skeleton
          (Node.node plane_z0 [tri_at 0] (.node ⟨⟨0, 0, 1⟩, 1⟩ [tri_at 1] .null .null) .null)) :=
  ⟨by decide!, node_invert_clip_to_inv Rat.sqrt _ (by decide!)⟩

/-- C11: the failing input.  Inside `csg_union [tri_at 0, tri_at 1] [tri_at 2, tri_at (1/2)]`
the first `node_clip_to` leaves `hollow_tree`: a root with plane `z = 0`, no polygon of its
own and a front child holding `tri_at 1`.  That tree satisfies both invariants.  Building
the batch `[tri_at 2]` into it makes the root adopt the plane `z = 2` while keeping the old
front child, whose triangle lies at distance `−1` from the new plane: the invariants are
broken. -/
theorem node_build_hollow_breaks_inv :
    (do
      let a ← node_from_polygons Rat.sqrt plane_z0 3 [tri_at 0, tri_at 1]
      let b ← node_from_polygons Rat.sqrt plane_z0 3 [tri_at 2, tri_at (1 / 2)]
      pure (node_clip_to Rat.sqrt a b)) = some hollow_tree ∧
    bsp_inv hollow_tree ∧
    (∀ p ∈ [tri_at 2], consistent Rat.sqrt p) ∧
    node_build Rat.sqrt plane_z0 2 hollow_tree [tri_at 2] =
      some (.node ⟨⟨0, 0, 1⟩, 2⟩ [tri_at 2]
        (.node ⟨⟨0, 0, 1⟩, 1⟩ [tri_at 1] .null .null) .null) ∧
    ¬ bsp_inv (Node.node ⟨⟨0, 0, 1⟩, 2⟩ [tri_at 2]
        (.node ⟨⟨0, 0, 1⟩, 1⟩ [tri_at 1] .null .null) .null) := by
  decide!

theorem build_spans_nil (sqrt : K → K) (u : Plane K) (fuel : Nat) :
    ∀ t : Node K, ¬ build_spans sqrt u fuel t [] := by
  induction fuel with
  | zero => intro t; simp [build_spans]
  | succ fuel ih =>
    intro t
    cases t with
    | null => simp [build_spans]
    | node P own F B => simp [build_spans, ih]

theorem parts_length (sqrt : K → K) (P : Plane K) (Q : Polygon K) :
    1 ≤ (build_own P Q).length + (split_front sqrt P Q).length +
        (split_back sqrt P Q).length ∧
    ((build_own P Q).length + (split_front sqrt P Q).length +
        (split_back sqrt P Q).length = 1 ↔ polygon_type P Q ≠ 3) := by
  rcases polygon_type_cases P Q with c | c | c | c
  · by_cases hd : vec_dot P.normal Q.plane.normal > 0 <;>
      simp [build_own, split_co_front, split_co_back, split_front, split_back, c, COPLANAR, hd]
  · simp [build_own, split_co_front, split_co_back, split_front, split_back, c, COPLANAR, FRONT]
  · simp [build_own, split_co_front, split_co_back, split_front, split_back, c, COPLANAR, FRONT,
      BACK]
  · obtain ⟨h1, h2, _, h4, h5, _⟩ := split_edges_length P Q c
    have e1 := fan_polygons_length sqrt (split_edges P Q).1
    have e2 := fan_polygons_length sqrt (split_edges P Q).2
    simp [build_own, split_co_front, split_co_back, split_front, split_back, c, COPLANAR,
      FRONT, BACK]
    omega

theorem parts_length_list (sqrt : K → K) (P : Plane K) (ps : List (Polygon K)) :
    ps.length ≤ (ps.flatMap (build_own P)).length + (ps.flatMap (split_front sqrt P)).length +
        (ps.flatMap (split_back sqrt P)).length ∧
    ((ps.flatMap (build_own P)).length + (ps.flatMap (split_front sqrt P)).length +
        (ps.flatMap (split_back sqrt P)).length = ps.length ↔
      ¬ ∃ p ∈ ps, polygon_type P p = 3) := by
  induction ps with
  | nil => simp
  | cons Q ps ih =>
    obtain ⟨h1, h2⟩ := parts_length sqrt P Q
    obtain ⟨i1, i2⟩ := ih
    simp only [List.flatMap_cons, List.length_append, List.length_cons, List.mem_cons,
      exists_eq_or_imp, not_or]
    constructor
    · omega
    · constructor
      · intro h
        exact ⟨h2.mp (by omega), i2.mp (by omega)⟩
      · rintro ⟨a, b⟩
        have := h2.mpr a
        have := i2.mpr b
        omega

theorem node_polygons_build_child (u : Plane K) (c : Node K) :
    node_polygons (build_child u c) [] = node_polygons c [] := by
  unfold build_child
  split_ifs with h
  · cases c with
    | null => simp [node_alloc, node_polygons]
    | node _ _ _ _ => simp [Node.isNull] at h
  · rfl

theorem node_build_extends_aux (sqrt : K → K) (u : Plane K) (fuel : Nat) :
    ∀ (t : Node K) (ps : List (Polygon K)) (r : Node K),
      node_build sqrt u fuel t ps = some r →
      (node_polygons t []).Sublist (node_polygons r []) ∧
      (node_polygons t []).length + ps.length ≤ (node_polygons r []).length ∧
      ((node_polygons r []).length = (node_polygons t []).length + ps.length ↔
        ¬ build_spans sqrt u fuel t ps) := by
  induction fuel with
  | zero => intro t ps r h; simp [node_build] at h
  | succ fuel ih =>
    intro t ps r h
    cases t with
    | null => simp [node_build] at h
    | node P own F B =>
      by_cases he : ps = []
      · subst he
        rw [node_build_nil] at h
        cases h
        simpa using build_spans_nil sqrt u (fuel + 1) (.node P own F B)
      · obtain ⟨F1, B1, e1, e2, rfl⟩ := (node_build_eq_some he).1 h
        have sub : ∀ (c c1 : Node K) (l : List (Polygon K)),
            build_sub sqrt u fuel c l = some c1 →
            (node_polygons c []).Sublist (node_polygons c1 []) ∧
            (node_polygons c []).length + l.length ≤ (node_polygons c1 []).length ∧
            ((node_polygons c1 []).length = (node_polygons c []).length + l.length ↔
              ¬ build_spans sqrt u fuel (build_child u c) l) := by
          intro c c1 l hb
          unfold build_sub at hb
          split_ifs at hb with hl
          · have := ih _ _ _ hb
            rwa [node_polygons_build_child] at this
          · cases hb
            have hl : l = [] := by simpa using hl
            subst hl
            simpa using build_spans_nil sqrt u fuel (build_child u c)
        obtain ⟨f1, f2, f3⟩ := sub _ _ _ e1
        obtain ⟨b1, b2, b3⟩ := sub _ _ _ e2
        obtain ⟨p1, p2⟩ := parts_length_list sqrt (build_plane P own ps) ps
        simp only [node_polygons_node, List.length_append, build_spans]
        refine ⟨((List.sublist_append_left own _).append f1).append b1, by omega, ?_⟩
        constructor
        · intro hh
          simp only [not_or]
          exact ⟨p2.mp (by omega), f3.mp (by omega), b3.mp (by omega)⟩
        · intro hh
          simp only [not_or] at hh
          have := p2.mpr hh.1
          have := f3.mpr hh.2.1
          have := b3.mpr hh.2.2
          omega

/-- C17: whenever `node_build(t, ps)` returns a tree `r`, the enumeration of `t` is a
sublist of the enumeration of `r` (every polygon of `t` is still there, unchanged and in
order), `r` holds at least `length(enumerate t) + length ps` polygons, with equality exactly
when no polygon of the batch and no fragment spans a plane it is split against, and
`node_build` with the empty batch returns `t` itself. -/
theorem node_build_extends (sqrt : K → K) (u : Plane K) (fuel : Nat) (t : Node K)
    (ps : List (Polygon K)) (r : Node K) (h : node_build sqrt u fuel t ps = some r) :
    (node_polygons t []).Sublist (node_polygons r []) ∧
    (node_polygons t []).length + ps.length ≤ (node_polygons r []).length ∧
    ((node_polygons r []).length = (node_polygons t []).length + ps.length ↔
      ¬ build_spans sqrt u fuel t ps) ∧
    node_build sqrt u fuel t [] = some t := by
  obtain ⟨h1, h2, h3⟩ := node_build_extends_aux sqrt u fuel t ps r h
  refine ⟨h1, h2, h3, ?_⟩
  cases fuel with
  | zero => simp [node_build] at h
  | succ fuel =>
    cases t with
    | null => simp [node_build] at h
    | node P own F B => exact node_build_nil sqrt u fuel P own F B

/-- Witness for C17: a triangle spanning the root plane is built into a one-node tree. -/
theorem node_build_extends_witness :
    node_build Rat.sqrt plane_z0 3 (.node plane_z0 [tri_at 0] .null .null) [tri_span] =
      some (.node plane_z0 [tri_at 0]
        (.node (tri_span).plane (fan_polygons Rat.sqrt (split_edges plane_z0 tri_span).1)
          .null .null)
        (.node (tri_span).plane (fan_polygons Rat.sqrt (split_edges plane_z0 tri_span).2)
          .null .null)) ∧
    ((node_polygons (Node.node plane_z0 [tri_at 0] .null .null) []).Sublist
        (node_polygons (Node.node plane_z0 [tri_at 0]
          (.node (tri_span).plane (fan_polygons Rat.sqrt (split_edges plane_z0 tri_span).1)
            .null .null)
          (.node (tri_span).plane (fan_polygons Rat.sqrt (split_edges plane_z0 tri_span).2)
            .null .null)) []) ∧
      (node_polygons (Node.node plane_z0 [tri_at 0] .null .null) []).length + [tri_span].length ≤
        (node_polygons (Node.node plane_z0 [tri_at 0]
          (.node (tri_span).plane (fan_polygons Rat.sqrt (split_edges plane_z0 tri_span).1)
            .null .null)
          (.node (tri_span).plane (fan_polygons Rat.sqrt (split_edges plane_z0 tri_span).2)
            .null .null)) []).length ∧
      ((node_polygons (Node.node plane_z0 [tri_at 0]
          (.node (tri_span).plane (fan_polygons Rat.sqrt (split_edges plane_z0 tri_span).1)
            .null .null)
          (.node (tri_span).plane (fan_polygons Rat.sqrt (split_edges plane_z0 tri_span).2)
            .null .null)) []).length =
          (node_polygons (Node.node plane_z0 [tri_at 0] .null .null) []).length +
            [tri_span].length ↔
        ¬ build_spans Rat.sqrt plane_z0 3 (.node plane_z0 [tri_at 0] .null .null) [tri_span]) ∧
      node_build Rat.sqrt plane_z0 3 (.node plane_z0 [tri_at 0] .null .null) [] =
        some (.node plane_z0 [tri_at 0] .null .null)) :=
  ⟨by decide!, node_build_extends Rat.sqrt plane_z0 3 _ [tri_span] _ (by decide!)⟩

theorem winding_pos_affine (a b c : Vector K) {p0 p1 p2 : Vector K} {s0 t0 s1 t1 s2 t2 : K}
    (h0 : p0 = affine a b c s0 t0) (h1 : p1 = affine a b c s1 t1) (h2 : p2 = affine a b c s2 t2)
    (hpos : 0 < (s1 - s0) * (t2 - t0) - (s2 - s0) * (t1 - t0)) :
    winding_pos a b c p0 p1 p2 := by
  subst h0 h1 h2
  refine ⟨_, hpos, ?_⟩
  simp only [tri_cross, vec_cross, vec_sub, affine, Vector.mk.injEq]
  refine ⟨by ring, by ring, by ring⟩

theorem winding_pos_self (a b c : Vector K) : winding_pos a b c a b c :=
  ⟨1, one_pos, by simp⟩

theorem nondegenerate_of_winding {Q q : Polygon K} (hn : nondegenerate Q)
    (h : same_winding Q q) : nondegenerate q := by
  obtain ⟨l, hl, e⟩ := h
  unfold nondegenerate at *
  rw [e]
  intro h0
  apply hn
  simp only [Vector.mk.injEq] at h0
  obtain ⟨hx, hy, hz⟩ := h0
  have l0 := hl.ne'
  rcases hc : tri_cross Q.v0.position Q.v1.position Q.v2.position with ⟨x, y, z⟩
  rw [hc] at hx hy hz
  simp only [mul_eq_zero, l0, false_or] at hx hy hz
  simp [hx, hy, hz]

set_option maxHeartbeats 1000000 in
theorem fan_same_winding (P : Plane K) (pl : Plane K) (v0 v1 v2 : Vertex K)
    (h3 : vertex_type P v0 ||| vertex_type P v1 ||| vertex_type P v2 = 3) (sqrt : K → K) :
    (∀ q ∈ fan_polygons sqrt (split_edges P ⟨pl, v0, v1, v2⟩).1,
      same_winding ⟨pl, v0, v1, v2⟩ q) ∧
    (∀ q ∈ fan_polygons sqrt (split_edges P ⟨pl, v0, v1, v2⟩).2,
      same_winding ⟨pl, v0, v1, v2⟩ q) := by
  rcases vertex_type_cases P v0 with h0 | h0 | h0 <;>
  rcases vertex_type_cases P v1 with h1 | h1 | h1 <;>
  rcases vertex_type_cases P v2 with h2 | h2 | h2 <;>
  simp only [h0, h1, h2] at h3 <;>
  first
    | (exfalso; revert h3; decide)
    | skip
  all_goals
    try have r01 := @edge_param_bounds K _ P v0 v1 (by
      first
        | exact Or.inl ⟨vertex_type_eq_one h0, vertex_type_eq_two h1⟩
        | exact Or.inr ⟨vertex_type_eq_two h0, vertex_type_eq_one h1⟩)
    try have r12 := @edge_param_bounds K _ P v1 v2 (by
      first
        | exact Or.inl ⟨vertex_type_eq_one h1, vertex_type_eq_two h2⟩
        | exact Or.inr ⟨vertex_type_eq_two h1, vertex_type_eq_one h2⟩)
    try have r20 := @edge_param_bounds K _ P v2 v0 (by
      first
        | exact Or.inl ⟨vertex_type_eq_one h2, vertex_type_eq_two h0⟩
        | exact Or.inr ⟨vertex_type_eq_two h2, vertex_type_eq_one h0⟩)
    try obtain ⟨r01a, r01b⟩ := r01
    try obtain ⟨r12a, r12b⟩ := r12
    try obtain ⟨r20a, r20b⟩ := r20
    simp [split_edges, split_edge_param, vertex_types, Polygon.vertices, h0, h1, h2, FRONT, BACK,
      BOTH, fan_polygons, fan_polygon, List.range', vertex_lerp, same_winding]
    repeat' apply And.intro
  all_goals
    refine winding_pos_affine v0.position v1.position v2.position
      (by first
        | with_reducible exact affine_a _ _ _ | with_reducible exact affine_b _ _ _
        | with_reducible exact affine_c _ _ _ | with_reducible exact affine_ab _ _ _ _
        | with_reducible exact affine_bc _ _ _ _)
      (by first
        | with_reducible exact affine_a _ _ _ | with_reducible exact affine_b _ _ _
        | with_reducible exact affine_c _ _ _ | with_reducible exact affine_ab _ _ _ _
        | with_reducible exact affine_bc _ _ _ _)
      (by first
        | with_reducible exact affine_a _ _ _ | with_reducible exact affine_b _ _ _
        | with_reducible exact affine_c _ _ _ | with_reducible exact affine_ab _ _ _ _
        | with_reducible exact affine_bc _ _ _ _ | with_reducible exact affine_ca _ _ _ _) ?_
    nlinarith

theorem split_same_winding (sqrt : K → K) (P : Plane K) (Q : Polygon K) :
    (∀ q ∈ split_front sqrt P Q, same_winding Q q) ∧
    (∀ q ∈ split_back sqrt P Q, same_winding Q q) := by
  have self : same_winding Q Q := winding_pos_self _ _ _
  rcases polygon_type_cases P Q with c | c | c | c
  · simp [split_front, split_back, c, COPLANAR]
  · simpa [split_front, split_back, c, COPLANAR, FRONT] using self
  · simpa [split_front, split_back, c, COPLANAR, FRONT, BACK] using self
  · have h3 := c
    rw [polygon_type_eq] at h3
    have key := fan_same_winding P Q.plane Q.v0 Q.v1 Q.v2 h3 sqrt
    simpa [split_front, split_back, c, COPLANAR, FRONT, BACK] using key

/-- C19: over the reals, for every plane `P` and every non-degenerate triangle `Q` spanning
`P` whose cached plane is `plane_from_points` of its vertices, every triangle that
`plane_split` appends to front or to back is non-degenerate, winds the same way as `Q`, and
its cached plane, recomputed by `plane_from_points` from the fragment's own vertices, equals
the cached plane of `Q`. -/
theorem plane_split_fragment_plane (P : Plane ℝ) (Q : Polygon ℝ) (hs : spanning P Q)
    (hn : nondegenerate Q) (hQ : consistent Real.sqrt Q) :
    ∀ q, (q ∈ (plane_split Real.sqrt P Q SplitList.co_front SplitList.co_back SplitList.front
          SplitList.back (fun _ => [])) SplitList.front ∨
        q ∈ (plane_split Real.sqrt P Q SplitList.co_front SplitList.co_back SplitList.front
          SplitList.back (fun _ => [])) SplitList.back) →
      nondegenerate q ∧ same_winding Q q ∧
      q.plane = plane_from_points Real.sqrt q.v0.position q.v1.position q.v2.position ∧
      q.plane = Q.plane := by
  intro q hq
  rw [plane_split_lists] at hq
  simp only at hq
  have c := polygon_type_of_spanning hs
  have hw : same_winding Q q := by
    rcases hq with h | h
    · exact (split_same_winding Real.sqrt P Q).1 q h
    · exact (split_same_winding Real.sqrt P Q).2 q h
  have hp : q.plane = Q.plane := by
    rcases hq with h | h
    · exact (split_keep_plane P Q hQ).1 q h
    · exact (split_keep_plane P Q hQ).2 q h
  have hc : consistent Real.sqrt q := by
    rcases hq with h | h
    · exact (splitClosed_consistent Real.sqrt P Q hQ).1 q h
    · exact (splitClosed_consistent Real.sqrt P Q hQ).2 q h
  exact ⟨nondegenerate_of_winding hn hw, hw, hc, hp⟩

/-- Witness for C19: the triangle with apex `(0, 0, 1)` and base at height `−1` against the
plane `z = 0`. -/
theorem plane_split_fragment_plane_witness :
    spanning (⟨⟨0, 0, 1⟩, 0⟩ : Plane ℝ)
      (tri Real.sqrt (vtx 0 0 1) (vtx 1 0 (-1)) (vtx 0 1 (-1))) ∧
    ∀ q, (q ∈ (plane_split Real.sqrt (⟨⟨0, 0, 1⟩, 0⟩ : Plane ℝ)
          (tri Real.sqrt (vtx 0 0 1) (vtx 1 0 (-1)) (vtx 0 1 (-1)))
          SplitList.co_front SplitList.co_back SplitList.front
          SplitList.back (fun _ => [])) SplitList.front ∨
        q ∈ (plane_split Real.sqrt (⟨⟨0, 0, 1⟩, 0⟩ : Plane ℝ)
          (tri Real.sqrt (vtx 0 0 1) (vtx 1 0 (-1)) (vtx 0 1 (-1)))
          SplitList.co_front SplitList.co_back SplitList.front
          SplitList.back (fun _ => [])) SplitList.back) →
      nondegenerate q ∧
      same_winding (tri Real.sqrt (vtx 0 0 1) (vtx 1 0 (-1)) (vtx 0 1 (-1))) q ∧
      q.plane = plane_from_points Real.sqrt q.v0.position q.v1.position q.v2.position ∧
      q.plane = (tri Real.sqrt (vtx 0 0 1) (vtx 1 0 (-1)) (vtx 0 1 (-1))).plane :=
  have hs : spanning (⟨⟨0, 0, 1⟩, 0⟩ : Plane ℝ)
      (tri Real.sqrt (vtx 0 0 1) (vtx 1 0 (-1)) (vtx 0 1 (-1))) := by
    simp only [spanning, signed_dist, vec_dot, tri, vtx, EPS]
    norm_num
  ⟨hs, plane_split_fragment_plane _ _ hs
    (by simp [nondegenerate, tri_cross, vec_cross, vec_sub, tri, vtx]) rfl⟩

/-- Witness for C6: a triangle in the plane `z = 0`, a triangle that spans that plane and a
degenerate (collinear) triangle.  The build splits the second triangle, so the tree holds
more than three polygons, below the root. -/
theorem node_from_polygons_terminates_witness :
    spanning (tri Real.sqrt (vtx 0 0 0) (vtx 1 0 0) (vtx 0 1 0)).plane
      (tri Real.sqrt (vtx 0 0 (-1)) (vtx 1 0 1) (vtx 0 1 1)) ∧
    ∃ t, node_from_polygons Real.sqrt ⟨⟨0, 0, 0⟩, 0⟩ 4
        [tri Real.sqrt (vtx 0 0 0) (vtx 1 0 0) (vtx 0 1 0),
          tri Real.sqrt (vtx 0 0 (-1)) (vtx 1 0 1) (vtx 0 1 1),
          tri Real.sqrt (vtx 0 0 0) (vtx 1 1 1) (vtx 2 2 2)] = some t ∧
      3 < (node_polygons t []).length := by
  have hs : spanning (tri Real.sqrt (vtx 0 0 0) (vtx 1 0 0) (vtx 0 1 0)).plane
      (tri Real.sqrt (vtx 0 0 (-1)) (vtx 1 0 1) (vtx 0 1 1)) := by
    simp only [spanning, signed_dist, vec_dot, tri, vtx, EPS, plane_from_points, vec_unit,
      vec_div, vec_len, vec_cross, vec_sub]
    norm_num
  refine ⟨hs, ?_⟩
  obtain ⟨t, ht⟩ := node_from_polygons_terminates
    [tri Real.sqrt (vtx 0 0 0) (vtx 1 0 0) (vtx 0 1 0),
      tri Real.sqrt (vtx 0 0 (-1)) (vtx 1 0 1) (vtx 0 1 1),
      tri Real.sqrt (vtx 0 0 0) (vtx 1 1 1) (vtx 2 2 2)]
    (by
      intro p hp
      simp only [List.mem_cons, List.mem_singleton, List.not_mem_nil, or_false] at hp
      rcases hp with rfl | rfl | rfl <;> rfl)
    ⟨⟨0, 0, 0⟩, 0⟩ 4 (by simp)
  refine ⟨t, ht, ?_⟩
  obtain ⟨_, h2, h3⟩ := node_build_extends_aux Real.sqrt _ 4 _ _ t ht
  have hsp : build_spans Real.sqrt (⟨⟨0, 0, 0⟩, 0⟩ : Plane ℝ) 4 (node_alloc ⟨⟨0, 0, 0⟩, 0⟩)
      [tri Real.sqrt (vtx 0 0 0) (vtx 1 0 0) (vtx 0 1 0),
        tri Real.sqrt (vtx 0 0 (-1)) (vtx 1 0 1) (vtx 0 1 1),
        tri Real.sqrt (vtx 0 0 0) (vtx 1 1 1) (vtx 2 2 2)] := by
    refine Or.inl ⟨_, List.mem_cons_of_mem _ (List.mem_cons_self _ _), ?_⟩
    exact polygon_type_of_spanning hs
  have hne := mt h3.mp (not_not.mpr hsp)
  simp only [node_alloc, node_polygons, List.length_nil, List.length_cons, List.nil_append,
    zero_add] at h2 hne
  omega

theorem lg_loop_eq : ∀ (f n : Nat), n ≤ f → lg_loop f n = Nat.log2 n := by
  intro f
  induction f with
  | zero =>
    intro n hn
    have : n = 0 := by omega
    subst this
    simp [lg_loop, Nat.log2]
  | succ f ih =>
    intro n hn
    rw [lg_loop, Nat.log2]
    by_cases h : n < 2
    · simp [h, not_le.mpr h]
    · have h2 : n ≥ 2 := not_lt.mp h
      rw [if_neg h, if_pos h2, ih _ (by omega)]

theorem lg_eq (n : Nat) : lg n = Nat.log2 n := lg_loop_eq n n le_rfl

theorem isqrt_loop_spec (n : Nat) :
    ∀ (k r : Nat), r * r ≤ n → n < (r + 2 ^ k) * (r + 2 ^ k) →
      isqrt_loop n k r * isqrt_loop n k r ≤ n ∧
        n < (isqrt_loop n k r + 1) * (isqrt_loop n k r + 1) := by
  intro k
  induction k with
  | zero => intro r h1 h2; simpa [isqrt_loop] using ⟨h1, h2⟩
  | succ k ih =>
    intro r h1 h2
    simp only [isqrt_loop]
    split_ifs with hc
    · refine ih _ hc ?_
      have : r + 2 ^ k + 2 ^ k = r + 2 ^ (k + 1) := by rw [pow_succ]; ring
      rwa [this]
    · exact ih _ h1 (not_le.mp hc)

theorem isqrt_eq_sqrt (n : Nat) : isqrt n = Nat.sqrt n := by
  unfold isqrt
  rw [lg_eq]
  have hlt : n < (0 + 2 ^ (Nat.log2 n / 2 + 1)) * (0 + 2 ^ (Nat.log2 n / 2 + 1)) := by
    rw [zero_add, ← pow_add]
    calc n < 2 ^ (Nat.log2 n + 1) := Nat.lt_log2_self
      _ ≤ 2 ^ (Nat.log2 n / 2 + 1 + (Nat.log2 n / 2 + 1)) :=
        Nat.pow_le_pow_right (by norm_num) (by omega)
  obtain ⟨h1, h2⟩ := isqrt_loop_spec n _ 0 (Nat.zero_le _) hlt
  exact Nat.eq_sqrt.mpr ⟨h1, h2⟩

/-- Sample values of the binary32 model: `0.1f`, `1e-5f` (the constant `EPS`),
`sqrtf(2)` and a sum that rounds. -/
theorem binary32_samples :
    round32 (1 / 10) = 13421773 / 134217728 ∧
    (EPS Binary32).val = 2748779 / 274877906944 ∧
    (sqrt32 ⟨2⟩).val = 11863283 / 8388608 ∧
    ((16777216 : Binary32) + 1).val = 16777216 ∧
    ((16777216 : Binary32) + 3).val = 16777220 := by
  decide!

theorem node_build_diverges {F : Type} [Zero F] [One F] [NatCast F] [Add F] [Sub F] [Mul F]
    [Div F] [Neg F] [LT F] [∀ a b : F, Decidable (a < b)] [DecidableEq F]
    (sqrt : F → F) (u : Plane F) (p : Polygon F) (rest : List (Polygon F))
    (hb : ((p :: rest).foldl
        (fun st q => plane_split sqrt p.plane q BuildList.polygons BuildList.polygons
          BuildList.front BuildList.back st)
        (fun l => match l with
          | .polygons => []
          | .front => []
          | .back => [])) BuildList.back = p :: rest) :
    ∀ fuel, node_build sqrt u fuel (node_alloc u) (p :: rest) = none := by
  intro fuel
  induction fuel with
  | zero => rfl
  | succ fuel ih =>
    simp only [node_alloc] at ih ⊢
    simp only [node_build]
    have hP : (if ([] : List (Polygon F)).length = 0 then p.plane else u) = p.plane := if_pos rfl
    have hN : (if (Node.null : Node F).isNull = true then node_alloc u else Node.null) =
        .node u [] .null .null := if_pos rfl
    have hl : ¬ (p :: rest).length = 0 := by simp
    simp only [hP, hN]
    generalize hst : List.foldl _ _ (p :: rest) = st
    have hb' : st BuildList.back = p :: rest := by rw [← hst]; exact hb
    rw [hb', ih, if_neg hl, if_pos hl]
    split
    · rename_i h1 h2; exact absurd h2 (by simp)
    · rfl

/-- C3, counterexample: in binary32 the corner tetrahedron `tetra32` has cached planes
computed from its own vertices and no face spans the cached plane of any face, yet its first
face has a vertex at distance `−2⁻¹⁶ < −EPS` from its own cached plane.  `node_build` on the
fresh root sends all four faces to the back list, allocates a fresh back child and recurses
on the same list: `csg_inverse` returns for no fuel. -/
theorem csg_inverse_binary32_diverges :
    (∀ p ∈ tetra32, consistent sqrt32 p) ∧
    (∀ p ∈ tetra32, ∀ q ∈ tetra32, ¬ spanning q.plane p) ∧
    (∃ p ∈ tetra32, (signed_dist p.plane p.v2.position).val = -(1 / 65536) ∧
      signed_dist p.plane p.v2.position < -EPS Binary32) ∧
    ∀ (fuel : Nat) (ua : Plane Binary32), csg_inverse sqrt32 fuel ua tetra32 = none := by
  refine ⟨by decide!, by decide!, ⟨_, List.mem_cons_self _ _, by decide!, by decide!⟩, ?_⟩
  intro fuel ua
  have h := node_build_diverges sqrt32 ua
    (tri sqrt32 (vtx 110 100 100) (vtx 100 110 100) (vtx 100 100 110))
    [tri sqrt32 (vtx 100 100 100) (vtx 100 110 100) (vtx 110 100 100),
      tri sqrt32 (vtx 100 100 100) (vtx 110 100 100) (vtx 100 100 110),
      tri sqrt32 (vtx 100 100 100) (vtx 100 100 110) (vtx 100 110 100)]
    (by decide!) fuel
  simp only [csg_inverse, node_from_polygons, tetra32, h]
  rfl

end Theorems

end CSG
